import Mathlib

/-!
The SCGI backend relay of tcp-over-https (`tunnel_backend_server.c`).

A shallow embedding of the backend relay.  Bytes are natural numbers, C strings are
lists of bytes without their terminating NUL, and every system call takes its
outcome from a finite schedule supplied by the environment; once a schedule is used
up the environment behaves ideally (reads and writes transfer all that is asked for,
`recv` reports that nothing is available, `socket` fails).
-/

namespace Tunnel

/-! ## Bytes, constants and the C library -/

/-- The bytes of an ASCII string literal. -/
def bytes (s : String) : List Nat := s.toList.map Char.toNat

def MAX_HDRS : Nat := 65536
def MAX_BODY : Nat := 10485760
def MAX_RESP : Nat := 10485760

/-- Largest value of a 64-bit `long`. -/
def LONG_MAX : Int := 9223372036854775807
/-- Smallest value of a 64-bit `long`. -/
def LONG_MIN : Int := -9223372036854775808

/-- The `errno` values the relay distinguishes. -/
inductive Errno
  | EINTR
  | EAGAIN
  | EOTHER
  deriving DecidableEq, Repr

/-- Result of a `read`, `write` or `recv` call: the bytes transferred (their number is the
return value), or -1 with `errno`. -/
inductive IoRes
  | ok (bs : List Nat)
  | err (e : Errno)
  deriving DecidableEq, Repr

/-- C `isspace` in the "C" locale. -/
def isspace (c : Nat) : Bool := c == 32 || (9 ≤ c && c ≤ 13)

/-- C `isdigit`. -/
def isdigit (c : Nat) : Bool := 48 ≤ c && c ≤ 57

/-- Value of a run of decimal digits, most significant first. -/
def digitsVal (ds : List Nat) : Nat := ds.foldl (fun a d => a * 10 + (d - 48)) 0

/-- C `strtol(s, NULL, 10)` on the C string `s`: optional white space, an optional sign,
the longest run of digits (value 0 when there is none), saturating at the range of `long`. -/
def strtol (s : List Nat) : Int :=
  let s1 := s.dropWhile isspace
  match s1 with
  | 45 :: t => max (-(digitsVal (t.takeWhile isdigit) : Int)) LONG_MIN
  | 43 :: t => min (digitsVal (t.takeWhile isdigit) : Int) LONG_MAX
  | _ => min (digitsVal (s1.takeWhile isdigit) : Int) LONG_MAX

/-- Digits of `n`, most significant first, prepended to `acc`. -/
def decimalAux : Nat → Nat → List Nat → List Nat
  | 0, _, acc => acc
  | fuel + 1, n, acc =>
    if n < 10 then (48 + n) :: acc
    else decimalAux fuel (n / 10) ((48 + n % 10) :: acc)

/-- What `printf("%zu", n)` prints. -/
def decimal (n : Nat) : List Nat := decimalAux (n + 1) n []

/-- The C string starting at the head of a buffer that is followed by a NUL. -/
def cstr (s : List Nat) : List Nat := s.takeWhile (· ≠ 0)

/-- C `strlen`. -/
def strlen (s : List Nat) : Nat := (cstr s).length

/-- C `strnlen`. -/
def strnlen (s : List Nat) (maxlen : Nat) : Nat := (cstr (s.take maxlen)).length

/-! ## The client socket -/

/-- One outcome the environment imposes on a `read` or `write` call. -/
inductive IoEvt
  /-- the call transfers at most `k + 1` bytes -/
  | part (k : Nat)
  /-- the call fails with `EINTR` -/
  | eintr
  /-- the call fails with `EAGAIN` / `EWOULDBLOCK` -/
  | eagain
  /-- the call fails with another error -/
  | fail
  deriving DecidableEq, Repr

/-- The accepted SCGI connection as the handler sees it. -/
structure Client where
  /-- bytes sent by the peer and not read yet; the peer closes after them -/
  inp : List Nat
  /-- outcomes of the coming `read` calls -/
  rd : List IoEvt
  /-- outcomes of the coming `write` calls -/
  wr : List IoEvt
  /-- bytes the socket has accepted from the handler, in order -/
  out : List Nat
  deriving DecidableEq, Repr

/-- System call `read(client_fd, buf, n)`: the bytes stored, or `errno`. -/
def sys_read (c : Client) (n : Nat) : IoRes × Client :=
  match c.rd with
  | [] => (.ok (c.inp.take n), { c with inp := c.inp.drop n })
  | .part k :: es =>
    (.ok (c.inp.take (min (k + 1) n)), { c with inp := c.inp.drop (min (k + 1) n), rd := es })
  | .eintr :: es => (.err .EINTR, { c with rd := es })
  | .eagain :: es => (.err .EAGAIN, { c with rd := es })
  | .fail :: es => (.err .EOTHER, { c with rd := es })

/-- The loop of `read_n`; `buf` holds the `off` bytes stored so far.  The first component is
the return value. -/
def read_n_loop (n : Nat) : Nat → Client → List Nat → Int × List Nat × Client
  | 0, c, buf => (-1, buf, c)
  | fuel + 1, c, buf =>
    if buf.length < n then
      match sys_read c (n - buf.length) with
      | (.ok bs, c1) =>
        if bs.length = 0 then ((buf.length : Int), buf, c1)
        else read_n_loop n fuel c1 (buf ++ bs)
      | (.err .EINTR, c1) => read_n_loop n fuel c1 buf
      | (.err .EAGAIN, c1) => read_n_loop n fuel c1 buf
      | (.err .EOTHER, c1) => (-1, buf, c1)
    else ((buf.length : Int), buf, c)

/-- Function `read_n(client_fd, buf, n)`: return value, buffer contents, new state.  Every pass
of the loop that does not return consumes a scheduled outcome or stores a byte, which bounds
the passes. -/
def read_n (c : Client) (n : Nat) : Int × List Nat × Client :=
  read_n_loop n (c.rd.length + n + 1) c []

/-- The first loop of `read_netstring`; `fuel` is `sizeof(lenbuf)-1 - l` and `lenbuf` holds the
`l` digits stored so far.  `none` is `return -1`. -/
def read_len_loop : Nat → Client → List Nat → Option (List Nat) × Client
  | 0, c, lenbuf => (some lenbuf, c)
  | fuel + 1, c, lenbuf =>
    match sys_read c 1 with
    | (.ok [ch], c1) =>
      if ch = 58 then (some lenbuf, c1)
      else if ch < 48 ∨ ch > 57 then (none, c1)
      else read_len_loop fuel c1 (lenbuf ++ [ch])
    | (_, c1) => (none, c1)

/-- Function `read_netstring(client_fd, &out, &outlen)`: `some payload` when it returns 0 (then
`outlen` is the length of the payload), `none` when it returns -1. -/
def read_netstring (c : Client) : Option (List Nat) × Client :=
  match read_len_loop 31 c [] with
  | (none, c1) => (none, c1)
  | (some lenbuf, c1) =>
    if lenbuf.length = 0 ∨ lenbuf.length ≥ 31 then (none, c1)
    else
      let n := strtol lenbuf
      if n < 0 ∨ n > (MAX_HDRS : Int) then (none, c1)
      else
        match read_n c1 n.toNat with
        | (r, payload, c2) =>
          if r ≠ n then (none, c2)
          else
            match read_n c2 1 with
            | (r1, comma, c3) =>
              if r1 ≠ 1 ∨ comma ≠ [44] then (none, c3) else (some payload, c3)

/-- The netstring `<len>:<payload>,`. -/
def netstring (p : List Nat) : List Nat := decimal p.length ++ [58] ++ p ++ [44]

/-! ## Header lookup -/

/-- The loop of `kv_get`; `i` is the offset into the header block `hdrs` of `len` bytes, which
is followed in memory by the NUL that `read_netstring` stores. -/
def kv_get_loop (hdrs key : List Nat) : Nat → Nat → Option (List Nat)
  | 0, _ => none
  | fuel + 1, i =>
    if i < hdrs.length then
      let ks := strnlen (hdrs.drop i) (hdrs.length - i)
      let i1 := i + ks + 1
      if i1 ≥ hdrs.length then none
      else
        let vs := strnlen (hdrs.drop i1) (hdrs.length - i1)
        let i2 := i1 + vs + 1
        if ks = strlen key ∧ (hdrs.drop i).take (strlen key) = key.take (strlen key) then
          some (cstr (hdrs.drop i1))
        else kv_get_loop hdrs key fuel i2
    else none

/-- Function `kv_get(hdrs, len, key)` with `len` the length of `hdrs`: the C string at the
returned pointer, or `none` for `NULL`.  Each pass advances `i` by at least 2. -/
def kv_get (hdrs key : List Nat) : Option (List Nat) :=
  kv_get_loop hdrs key (hdrs.length + 1) 0

/-! ## Writing -/

/-- System call `write` on a descriptor whose coming outcomes are `es`, asked to write
`pending`: the chunk accepted, or `errno`. -/
def sys_write (es : List IoEvt) (pending : List Nat) :
    IoRes × List IoEvt :=
  match es with
  | [] => (.ok pending, [])
  | .part k :: es1 => (.ok (pending.take (k + 1)), es1)
  | .eintr :: es1 => (.err .EINTR, es1)
  | .eagain :: es1 => (.err .EAGAIN, es1)
  | .fail :: es1 => (.err .EOTHER, es1)

/-- The loop of `write_all`; `log` collects the result of every `write` call. -/
def write_all_loop (buf : List Nat) :
    Nat → List IoEvt → Nat → List IoRes →
      Int × List IoEvt × List IoRes
  | 0, es, _, log => (-1, es, log)
  | fuel + 1, es, off, log =>
    if off < buf.length then
      match sys_write es (buf.drop off) with
      | (.ok chunk, es1) => write_all_loop buf fuel es1 (off + chunk.length) (log ++ [.ok chunk])
      | (.err .EINTR, es1) => write_all_loop buf fuel es1 off (log ++ [.err .EINTR])
      | (.err .EAGAIN, es1) => write_all_loop buf fuel es1 off (log ++ [.err .EAGAIN])
      | (.err .EOTHER, es1) => (-1, es1, log ++ [.err .EOTHER])
    else ((off : Int), es, log)

/-- Function `write_all(fd, buf, n)` on a descriptor whose coming outcomes are `es`: return
value, remaining outcomes, and the results of the `write` calls made.  Every pass of the loop
that does not return consumes a scheduled outcome or writes the rest of `buf`, which bounds the
passes. -/
def write_all (es : List IoEvt) (buf : List Nat) :
    Int × List IoEvt × List IoRes :=
  write_all_loop buf (es.length + buf.length + 1) es 0 []

/-- The bytes accepted by a sequence of `write` calls, in order. -/
def accepted : List IoRes → List Nat
  | [] => []
  | .ok bs :: l => bs ++ accepted l
  | .err _ :: l => accepted l

/-- Call `write_all(client_fd, buf, n)`. -/
def client_write_all (c : Client) (buf : List Nat) : Int × Client :=
  match write_all c.wr buf with
  | (r, es, log) => (r, { c with wr := es, out := c.out ++ accepted log })

/-! ## The persistent target connection -/

/-- Outcome of one `connect_local` attempt. -/
inductive ConnEvt
  /-- `socket` fails -/
  | nosock
  /-- `socket` returns `fd`, `connect` fails -/
  | refused (fd : Nat)
  /-- `socket` returns `fd`, `connect` succeeds -/
  | ok (fd : Nat)
  deriving DecidableEq, Repr

/-- Outcome of one `recv` call on the target. -/
inductive RecvEvt
  /-- the bytes available, of which `recv` stores as many as it was asked for; none available
  means the target has closed and `recv` returns 0 -/
  | data (bs : List Nat)
  | eintr
  | eagain
  | fail
  deriving DecidableEq, Repr

/-- A system call made on the target side, with its result. -/
inductive TEvt
  | socket (fd : Int)
  | connect (fd : Int) (ok : Bool)
  | close (fd : Int)
  | write (fd : Int) (r : IoRes)
  | recv (fd : Int) (r : IoRes)
  deriving DecidableEq, Repr

/-- The global `target_fd` with the environment of the target side. -/
structure Target where
  target_fd : Int
  /-- outcomes of the coming `connect_local` calls -/
  conn : List ConnEvt
  /-- outcomes of the coming `write` calls -/
  wr : List IoEvt
  /-- outcomes of the coming `recv` calls -/
  rc : List RecvEvt
  /-- the system calls made so far, oldest first -/
  trace : List TEvt
  deriving DecidableEq, Repr

/-- Function `close_target`. -/
def close_target (t : Target) : Target :=
  if t.target_fd ≥ 0 then
    { t with trace := t.trace ++ [.close t.target_fd], target_fd := -1 }
  else t

/-- Function `connect_local(port)`; the result of `set_nonblock` is ignored by the source. -/
def connect_local (t : Target) : Int × Target :=
  match t.conn with
  | [] => (-1, t)
  | .nosock :: cs => (-1, { t with conn := cs })
  | .refused fd :: cs =>
    (-1, { t with conn := cs,
                  trace := t.trace ++ [.socket fd, .connect fd false, .close fd] })
  | .ok fd :: cs =>
    ((fd : Int), { t with conn := cs, trace := t.trace ++ [.socket fd, .connect fd true] })

/-- Function `ensure_target`. -/
def ensure_target (t : Target) : Int × Target :=
  if t.target_fd ≥ 0 then (0, t)
  else
    match connect_local t with
    | (s, t1) => (if s ≥ 0 then 0 else -1, { t1 with target_fd := s })

/-- Call `write_all(target_fd, buf, n)`. -/
def target_write_all (t : Target) (buf : List Nat) : Int × Target :=
  match write_all t.wr buf with
  | (r, es, log) =>
    (r, { t with wr := es, trace := t.trace ++ log.map (TEvt.write t.target_fd) })

/-- Function `forward_body_to_target(body, body_len)`. -/
def forward_body_to_target (t : Target) (body : List Nat) : Int × Target :=
  match ensure_target t with
  | (e, t1) =>
    if e < 0 then (-1, t1)
    else
      match target_write_all t1 body with
      | (w, t2) =>
        if w < 0 then
          let t3 := close_target t2
          match ensure_target t3 with
          | (e2, t4) =>
            if e2 < 0 then (-1, t4)
            else
              match target_write_all t4 body with
              | (w2, t5) => if w2 < 0 then (-1, close_target t5) else (0, t5)
        else (0, t2)

/-- System call `recv(target_fd, dst + off, n, MSG_DONTWAIT)`. -/
def sys_recv (t : Target) (n : Nat) : IoRes × Target :=
  match t.rc with
  | [] => (.err .EAGAIN, { t with trace := t.trace ++ [.recv t.target_fd (.err .EAGAIN)] })
  | .data bs :: es =>
    (.ok (bs.take n),
      { t with rc := es, trace := t.trace ++ [.recv t.target_fd (.ok (bs.take n))] })
  | .eintr :: es =>
    (.err .EINTR, { t with rc := es, trace := t.trace ++ [.recv t.target_fd (.err .EINTR)] })
  | .eagain :: es =>
    (.err .EAGAIN,
      { t with rc := es, trace := t.trace ++ [.recv t.target_fd (.err .EAGAIN)] })
  | .fail :: es =>
    (.err .EOTHER,
      { t with rc := es, trace := t.trace ++ [.recv t.target_fd (.err .EOTHER)] })

/-- The loop of `drain_target`; `dst` holds the `off` bytes received so far. -/
def drain_loop (cap : Nat) : Nat → Target → List Nat → List Nat × Target
  | 0, t, dst => (dst, t)
  | fuel + 1, t, dst =>
    if dst.length = cap then (dst, t)
    else
      match sys_recv t (cap - dst.length) with
      | (.ok bs, t1) =>
        if bs.length > 0 then drain_loop cap fuel t1 (dst ++ bs)
        else (dst, close_target t1)
      | (.err .EAGAIN, t1) => (dst, t1)
      | (.err .EINTR, t1) => drain_loop cap fuel t1 dst
      | (.err .EOTHER, t1) => (dst, close_target t1)

/-- Function `drain_target(dst, cap)`: return value, contents of `dst`, new state.  Every pass
of the loop that does not return consumes a scheduled outcome, which bounds the passes. -/
def drain_target (t : Target) (cap : Nat) : Int × List Nat × Target :=
  match ensure_target t with
  | (e, t1) =>
    if e < 0 then (-1, [], t1)
    else
      match drain_loop cap (t1.rc.length + 1) t1 [] with
      | (dst, t2) => ((dst.length : Int), dst, t2)

/-! ## One SCGI request -/

/-- State of the backend while it serves one request: the accepted client connection and the
target side.  Memory is not modelled; `malloc` succeeds. -/
structure World where
  cl : Client
  tg : Target
  deriving DecidableEq, Repr

def msg_400_netstring : List Nat :=
  bytes "Status: 400 Bad Request\r\nContent-Type: text/plain\r\n\r\ninvalid SCGI netstring\n"

def msg_400_missing : List Nat :=
  bytes "Status: 400 Bad Request\r\nContent-Type: text/plain\r\n\r\nmissing SCGI or CONTENT_LENGTH\n"

def msg_413 : List Nat :=
  bytes "Status: 413 Payload Too Large\r\nContent-Type: text/plain\r\n\r\nbody too large\n"

def msg_400_short : List Nat :=
  bytes "Status: 400 Bad Request\r\nContent-Type: text/plain\r\n\r\nshort body\n"

def msg_502_write : List Nat :=
  bytes "Status: 502 Bad Gateway\r\nContent-Type: text/plain\r\n\r\nwrite to target failed\n"

def msg_502_read : List Nat :=
  bytes "Status: 502 Bad Gateway\r\nContent-Type: text/plain\r\n\r\nread from target failed\r"

/-- What the format string of step 6 expands to for `got`. -/
def header_200 (got : Nat) : List Nat :=
  bytes "Status: 200 OK\r\nContent-Type: application/octet-stream\r\nContent-Length: "
    ++ decimal got ++ bytes "\r\n\r\n"

/-- The header bytes step 6 writes: `snprintf` stores at most 255 bytes in `header` and returns
the full length `hlen`; when that does not fit, `hlen` becomes the length of
`"Status: 200 OK\r\n\r\n"`. -/
def reply_header (got : Nat) : List Nat :=
  let full := header_200 got
  let header := full.take 255
  let hlen := if full.length ≥ 256 then (bytes "Status: 200 OK\r\n\r\n").length else full.length
  header.take hlen

/-- An error exit of `handle_scgi_request`: write `msg` to the client and return -1. -/
def fail_with (c : Client) (t : Target) (msg : List Nat) : Int × World :=
  (-1, { cl := (client_write_all c msg).2, tg := t })

/-- Steps 5 and 6 of `handle_scgi_request`: drain the target and reply. -/
def serve_drain (w : World) : Int × World :=
  match drain_target w.tg MAX_RESP with
  | (got, resp, t1) =>
    if got < 0 then fail_with w.cl t1 msg_502_read
    else
      let c1 := (client_write_all w.cl (reply_header got.toNat)).2
      let c2 := if got > 0 then (client_write_all c1 resp).2 else c1
      (0, { cl := c2, tg := t1 })

/-- Steps 3 and 4 of `handle_scgi_request`, then the rest: read the body of `body_len` bytes
and forward it. -/
def serve_body (w : World) (body_len : Int) : Int × World :=
  if body_len > 0 then
    match read_n w.cl body_len.toNat with
    | (r, body, c1) =>
      if r ≠ body_len then fail_with c1 w.tg msg_400_short
      else
        match forward_body_to_target w.tg body with
        | (f, t1) =>
          if f < 0 then fail_with c1 t1 msg_502_write
          else serve_drain { cl := c1, tg := t1 }
  else serve_drain w

/-- Function `handle_scgi_request(client_fd)`: return value and new state. -/
def handle_scgi_request (w : World) : Int × World :=
  match read_netstring w.cl with
  | (none, c1) => fail_with c1 w.tg msg_400_netstring
  | (some hdrs, c1) =>
    match kv_get hdrs (bytes "SCGI"), kv_get hdrs (bytes "CONTENT_LENGTH") with
    | some scgi, some clen =>
      if scgi ≠ bytes "1" then fail_with c1 w.tg msg_400_missing
      else
        let body_len := strtol clen
        if body_len < 0 ∨ body_len > (MAX_BODY : Int) then fail_with c1 w.tg msg_413
        else serve_body { cl := c1, tg := w.tg } body_len
    | _, _ => fail_with c1 w.tg msg_400_missing

/-- The header block of an SCGI request: key and value strings, each followed by NUL. -/
def kv_block : List (List Nat × List Nat) → List Nat
  | [] => []
  | (k, v) :: l => k ++ [0] ++ v ++ [0] ++ kv_block l

/-- The request the gateway sends for a body: `CONTENT_LENGTH`, then `SCGI`, as a netstring,
then the body. -/
def scgi_request (body : List Nat) : List Nat :=
  netstring (kv_block [(bytes "CONTENT_LENGTH", decimal body.length), (bytes "SCGI", bytes "1")])
    ++ body

/-! ## Predicates on schedules -/

/-- The outcome transfers data. -/
def IoEvt.isPart : IoEvt → Bool
  | .part _ => true
  | _ => false

/-- Every scheduled call transfers data: none is interrupted, would block, or fails. -/
def AllPart (es : List IoEvt) : Prop := ∀ e ∈ es, e.isPart = true

instance (es : List IoEvt) : Decidable (AllPart es) := by
  unfold AllPart; infer_instance

/-- No scheduled call fails with an error other than `EINTR` and `EAGAIN`. -/
def NoFail (es : List IoEvt) : Prop := ∀ e ∈ es, e ≠ IoEvt.fail

instance (es : List IoEvt) : Decidable (NoFail es) := by
  unfold NoFail; infer_instance

/-- Every byte is an ASCII digit. -/
def AllDigits (ds : List Nat) : Prop := ∀ d ∈ ds, isdigit d = true

instance (ds : List Nat) : Decidable (AllDigits ds) := by
  unfold AllDigits; infer_instance

/-- The input streams that are not the start of a netstring: what can be wrong with the
length, the payload and the comma. -/
inductive Malformed : List Nat → Prop
  /-- the length field holds a byte that is neither a digit nor `:` -/
  | bad_length_byte (ds : List Nat) (b : Nat) (rest : List Nat) :
      AllDigits ds → isdigit b = false → b ≠ 58 → Malformed (ds ++ b :: rest)
  /-- the length field is empty -/
  | empty_length (rest : List Nat) : Malformed (58 :: rest)
  /-- the decimal length exceeds `MAX_HDRS` -/
  | too_large (ds rest : List Nat) :
      AllDigits ds → MAX_HDRS < digitsVal ds → Malformed (ds ++ 58 :: rest)
  /-- the stream ends before the announced number of payload bytes -/
  | short_payload (ds tail : List Nat) :
      AllDigits ds → tail.length < digitsVal ds → Malformed (ds ++ 58 :: tail)
  /-- the byte after the payload is missing or is not `,` -/
  | no_comma (ds p tail : List Nat) :
      AllDigits ds → p.length = digitsVal ds → tail.head? ≠ some 44 →
      Malformed (ds ++ 58 :: (p ++ tail))

/-! ## Header lookup, as specified -/

/-- The NUL-terminated strings of a header block, in order; bytes after the last NUL form a
last string. -/
def fields : List Nat → List (List Nat)
  | [] => []
  | b :: s =>
    if b = 0 then [] :: fields s
    else
      match fields s with
      | [] => [[b]]
      | f :: fs => (b :: f) :: fs

/-- Consecutive strings taken two by two as (key, value); a last string without a partner is a
key with no value and is left out. -/
def pairs : List (List Nat) → List (List Nat × List Nat)
  | k :: v :: rest => (k, v) :: pairs rest
  | _ => []

/-- The value of the first pair whose key is `key`. -/
def lookup (key : List Nat) : List (List Nat × List Nat) → Option (List Nat)
  | [] => none
  | (k, v) :: rest => if k = key then some v else lookup key rest

/-- Header lookup as specified: split the block into pairs, return the value of the first pair
whose key equals `key`. -/
def kv_spec (hdrs key : List Nat) : Option (List Nat) := lookup key (pairs (fields hdrs))

/-- Number of `write` calls in a log that failed with an error other than `EINTR` and
`EAGAIN`. -/
def hardErrs (log : List IoRes) : Nat := log.count (.err .EOTHER)

/-! ## Kinds of requests -/

/-- What every 400 response starts with. -/
def head_400 : List Nat := bytes "Status: 400 Bad Request\r\nContent-Type: text/plain\r\n\r\n"

/-- The protocol errors of a request that is about to be handled in state `w`. -/
inductive ProtocolError (w : World) : Prop
  /-- the header netstring fails to parse -/
  | bad_netstring (c1 : Client) : read_netstring w.cl = (none, c1) → ProtocolError w
  /-- the `SCGI` key is absent -/
  | no_scgi (hdrs : List Nat) (c1 : Client) :
      read_netstring w.cl = (some hdrs, c1) → kv_get hdrs (bytes "SCGI") = none →
      ProtocolError w
  /-- the `SCGI` value is not `"1"` -/
  | bad_scgi (hdrs s : List Nat) (c1 : Client) :
      read_netstring w.cl = (some hdrs, c1) → kv_get hdrs (bytes "SCGI") = some s →
      s ≠ bytes "1" → ProtocolError w
  /-- the `CONTENT_LENGTH` key is absent -/
  | no_content_length (hdrs : List Nat) (c1 : Client) :
      read_netstring w.cl = (some hdrs, c1) → kv_get hdrs (bytes "CONTENT_LENGTH") = none →
      ProtocolError w
  /-- the request passes validation and fewer body bytes than `CONTENT_LENGTH` arrive before
  the end of the stream -/
  | short_body (hdrs v : List Nat) (c1 : Client) :
      read_netstring w.cl = (some hdrs, c1) → kv_get hdrs (bytes "SCGI") = some (bytes "1") →
      kv_get hdrs (bytes "CONTENT_LENGTH") = some v →
      0 ≤ strtol v → strtol v ≤ (MAX_BODY : Int) → (c1.inp.length : Int) < strtol v →
      ProtocolError w

/-- A request whose `CONTENT_LENGTH` is `v`, followed by three body bytes, read in a state where
the target connection is open on descriptor 7 and the target has sent `"back"`. -/
def sample_world (v : List Nat) : World :=
  ⟨⟨netstring (kv_block [(bytes "CONTENT_LENGTH", v), (bytes "SCGI", bytes "1")]) ++ bytes "xyz",
      [], [], []⟩,
    ⟨7, [], [], [.data (bytes "back")], []⟩⟩

/-- The header block of `sample_world v`. -/
def sample_hdrs (v : List Nat) : List Nat :=
  kv_block [(bytes "CONTENT_LENGTH", v), (bytes "SCGI", bytes "1")]

/-- The client of `sample_world v` once the header netstring is read. -/
def sample_client : Client := ⟨bytes "xyz", [], [], []⟩

/-! ## Traces of the target side -/

/-- The descriptor `target_fd` names, if any. -/
def handle_of (t : Target) : Option Int := if 0 ≤ t.target_fd then some t.target_fd else none

/-- Effect of one system call on the open target socket `o` (`none`: no socket is open).  The
result is `none` when the call breaks the discipline of one connection: `socket` while a socket
is open, or any other call on a descriptor that is not the open socket. -/
def step_open : Option Int → TEvt → Option (Option Int)
  | none, .socket fd => some (some fd)
  | some _, .socket _ => none
  | some h, .connect fd _ => if fd = h then some (some h) else none
  | some h, .close fd => if fd = h then some none else none
  | some h, .write fd _ => if fd = h then some (some h) else none
  | some h, .recv fd _ => if fd = h then some (some h) else none
  | none, _ => none

/-- Runs a trace from the open socket `o`: `some o'` when every call keeps the discipline, with
`o'` the socket open at the end. -/
def run_trace : Option Int → List TEvt → Option (Option Int)
  | o, [] => some o
  | o, e :: es =>
    match step_open o e with
    | none => none
    | some o1 => run_trace o1 es

/-- The connector invariant: from no socket at all, the system calls made so far kept the
discipline of one connection, and the socket they leave open is the one `target_fd` names
(none when `target_fd` is -1). -/
def ConnInv (t : Target) : Prop :=
  (t.target_fd = -1 ∨ 0 ≤ t.target_fd) ∧ run_trace none t.trace = some (handle_of t)

instance (t : Target) : Decidable (ConnInv t) := by
  unfold ConnInv; infer_instance

/-- The states the connector can reach: from the initial state, by the four operations with any
arguments, the environment being free to decide at any time on the outcomes of the coming
system calls. -/
inductive Reach : Target → Prop
  | init (conn : List ConnEvt) (wr : List IoEvt) (rc : List RecvEvt) :
      Reach ⟨-1, conn, wr, rc, []⟩
  | env (t : Target) (conn : List ConnEvt) (wr : List IoEvt) (rc : List RecvEvt) :
      Reach t → Reach ⟨t.target_fd, conn, wr, rc, t.trace⟩
  | ensure (t : Target) : Reach t → Reach (ensure_target t).2
  | forward (t : Target) (body : List Nat) : Reach t → Reach (forward_body_to_target t body).2
  | drain (t : Target) (cap : Nat) : Reach t → Reach (drain_target t cap).2.2
  | close (t : Target) : Reach t → Reach (close_target t)

/-- The bytes the target has accepted in a trace, in order. -/
def written : List TEvt → List Nat
  | [] => []
  | .write _ (.ok bs) :: l => bs ++ written l
  | _ :: l => written l

/-- The call is a `recv`. -/
def TEvt.isRecv : TEvt → Bool
  | .recv _ _ => true
  | _ => false

/-- The call is a `write`. -/
def TEvt.isWrite : TEvt → Bool
  | .write _ _ => true
  | _ => false

/-- The system calls of an `ensure_target` that succeeds: none when the handle `fd0` is open,
else a `socket` and a successful `connect` on the new descriptor `fd`. -/
def Opened (fd0 fd : Int) (evs : List TEvt) : Prop :=
  (0 ≤ fd0 ∧ fd = fd0 ∧ evs = []) ∨ (fd0 < 0 ∧ 0 ≤ fd ∧ evs = [.socket fd, .connect fd true])

/-- The system calls of an `ensure_target` that fails: `socket` fails, or `connect` fails and the
new socket is closed. -/
def NotOpened (fd0 : Int) (evs : List TEvt) : Prop :=
  fd0 < 0 ∧ (evs = [] ∨ ∃ s : Int, evs = [.socket s, .connect s false, .close s])

/-- The system calls of a `write_all` on `fd` that sends all of `body`, from its first byte. -/
def Sent (fd : Int) (body : List Nat) (evs : List TEvt) : Prop :=
  ∃ log : List IoRes, evs = log.map (TEvt.write fd) ∧ accepted log = body ∧ hardErrs log = 0

/-- The system calls of a `write_all` on `fd` that fails: a prefix of `body` is accepted, then
one `write` fails. -/
def SendFailed (fd : Int) (body : List Nat) (evs : List TEvt) : Prop :=
  ∃ log : List IoRes, evs = log.map (TEvt.write fd) ∧ accepted log <+: body ∧ hardErrs log = 1

/-- The call creates a socket. -/
def TEvt.isSocket : TEvt → Bool
  | .socket _ => true
  | _ => false

/-- The call is a `write` that fails with an error other than `EINTR` and `EAGAIN`. -/
def TEvt.isWriteFail : TEvt → Bool
  | .write _ (.err .EOTHER) => true
  | _ => false

/-- The runs of `forward_body_to_target` called with handle `fd0`: `ForwardRun fd0 body r fd evs`
is a run that returns `r`, leaves `target_fd` at `fd` and makes the system calls `evs`. -/
inductive ForwardRun (fd0 : Int) (body : List Nat) : Int → Int → List TEvt → Prop
  /-- the initial connect fails -/
  | no_connection (evs : List TEvt) :
      NotOpened fd0 evs → ForwardRun fd0 body (-1) (-1) evs
  /-- the first send succeeds -/
  | first_send (fd : Int) (c1 s1 : List TEvt) :
      Opened fd0 fd c1 → Sent fd body s1 → ForwardRun fd0 body 0 fd (c1 ++ s1)
  /-- the first send fails, the handle is closed, the reconnect fails -/
  | no_reconnect (fd : Int) (c1 s1 c2 : List TEvt) :
      Opened fd0 fd c1 → SendFailed fd body s1 → NotOpened (-1) c2 →
      ForwardRun fd0 body (-1) (-1) (c1 ++ s1 ++ [.close fd] ++ c2)
  /-- the first send fails, the handle is closed, the reconnect and the re-send succeed -/
  | resend (fd fd2 : Int) (c1 s1 c2 s2 : List TEvt) :
      Opened fd0 fd c1 → SendFailed fd body s1 → Opened (-1) fd2 c2 → Sent fd2 body s2 →
      ForwardRun fd0 body 0 fd2 (c1 ++ s1 ++ [.close fd] ++ c2 ++ s2)
  /-- the first send fails, the handle is closed, the reconnect succeeds, the re-send fails and
  the new handle is closed -/
  | resend_failed (fd fd2 : Int) (c1 s1 c2 s2 : List TEvt) :
      Opened fd0 fd c1 → SendFailed fd body s1 → Opened (-1) fd2 c2 → SendFailed fd2 body s2 →
      ForwardRun fd0 body (-1) (-1) (c1 ++ s1 ++ [.close fd] ++ c2 ++ s2 ++ [.close fd2])

/-- One call of `ensure_target` against the environment: `Connect fd0 conn ok fd evs conn1` says
that with handle `fd0` and the coming connection attempts having the outcomes `conn`, the call
succeeds or not (`ok`), leaves the handle at `fd`, makes the system calls `evs` and leaves the
outcomes `conn1` for later attempts.  An open handle is kept and no attempt is made; otherwise
exactly one attempt is made, which takes the first outcome. -/
inductive Connect : Int → List ConnEvt → Bool → Int → List TEvt → List ConnEvt → Prop
  /-- the handle is open: nothing is done -/
  | kept (fd0 : Int) (conn : List ConnEvt) : 0 ≤ fd0 → Connect fd0 conn true fd0 [] conn
  /-- the attempt succeeds on the new descriptor `fd` -/
  | connected (fd0 : Int) (fd : Nat) (cs : List ConnEvt) :
      fd0 < 0 → Connect fd0 (.ok fd :: cs) true fd [.socket fd, .connect fd true] cs
  /-- `connect` fails and the new socket is closed -/
  | refused (fd0 : Int) (fd : Nat) (cs : List ConnEvt) :
      fd0 < 0 →
      Connect fd0 (.refused fd :: cs) false (-1) [.socket fd, .connect fd false, .close fd] cs
  /-- `socket` fails -/
  | no_socket (fd0 : Int) (cs : List ConnEvt) :
      fd0 < 0 → Connect fd0 (.nosock :: cs) false (-1) [] cs
  /-- no outcome is scheduled: `socket` fails -/
  | none_left (fd0 : Int) : fd0 < 0 → Connect fd0 [] false (-1) [] []

/-- A send that succeeds: with the coming `write` outcomes `wr`, `write_all(fd, body)` returns
the length of `body` after the `write` calls `evs`, which accept all of `body` from its first
byte, and leaves the outcomes `wr1`. -/
def SendAll (fd : Int) (wr : List IoEvt) (body : List Nat) (evs : List TEvt)
    (wr1 : List IoEvt) : Prop :=
  ∃ log : List IoRes, write_all wr body = ((body.length : Int), wr1, log) ∧
    evs = log.map (TEvt.write fd) ∧ accepted log = body ∧ hardErrs log = 0

/-- A send that fails: with the coming `write` outcomes `wr`, `write_all(fd, body)` returns -1
after the `write` calls `evs`, which accept a prefix of `body` and end with the one `write` that
fails, and leaves the outcomes `wr1`. -/
def SendFail (fd : Int) (wr : List IoEvt) (body : List Nat) (evs : List TEvt)
    (wr1 : List IoEvt) : Prop :=
  ∃ log : List IoRes, write_all wr body = (-1, wr1, log) ∧
    evs = log.map (TEvt.write fd) ∧ accepted log <+: body ∧ hardErrs log = 1

/-- Forwarding with one retry, against the environment of the target `t`:
`Forwards t body r t1` says that the call returns `r` and leaves the target side in `t1`.  The
outcome of every step is the one the environment has scheduled: the connection attempts take the
outcomes `t.conn` in order, the sends take the outcomes `t.wr` in order. -/
inductive Forwards (t : Target) (body : List Nat) : Int → Target → Prop
  /-- the initial connect fails -/
  | no_connection (c1 : List TEvt) (conn1 : List ConnEvt) :
      Connect t.target_fd t.conn false (-1) c1 conn1 →
      Forwards t body (-1) ⟨-1, conn1, t.wr, t.rc, t.trace ++ c1⟩
  /-- the first send succeeds -/
  | first_send (fd : Int) (c1 s1 : List TEvt) (conn1 : List ConnEvt) (wr1 : List IoEvt) :
      Connect t.target_fd t.conn true fd c1 conn1 → SendAll fd t.wr body s1 wr1 →
      Forwards t body 0 ⟨fd, conn1, wr1, t.rc, t.trace ++ c1 ++ s1⟩
  /-- the first send fails, the handle is closed, the one reconnect fails -/
  | no_reconnect (fd : Int) (c1 s1 c2 : List TEvt) (conn1 conn2 : List ConnEvt)
      (wr1 : List IoEvt) :
      Connect t.target_fd t.conn true fd c1 conn1 → SendFail fd t.wr body s1 wr1 →
      Connect (-1) conn1 false (-1) c2 conn2 →
      Forwards t body (-1) ⟨-1, conn2, wr1, t.rc, t.trace ++ c1 ++ s1 ++ [.close fd] ++ c2⟩
  /-- the first send fails, the handle is closed, the one reconnect succeeds and the whole body
  is sent again on the new connection -/
  | resend (fd fd2 : Int) (c1 s1 c2 s2 : List TEvt) (conn1 conn2 : List ConnEvt)
      (wr1 wr2 : List IoEvt) :
      Connect t.target_fd t.conn true fd c1 conn1 → SendFail fd t.wr body s1 wr1 →
      Connect (-1) conn1 true fd2 c2 conn2 → SendAll fd2 wr1 body s2 wr2 →
      Forwards t body 0 ⟨fd2, conn2, wr2, t.rc, t.trace ++ c1 ++ s1 ++ [.close fd] ++ c2 ++ s2⟩
  /-- the first send fails, the handle is closed, the one reconnect succeeds, the re-send fails
  and the new handle is closed -/
  | resend_failed (fd fd2 : Int) (c1 s1 c2 s2 : List TEvt) (conn1 conn2 : List ConnEvt)
      (wr1 wr2 : List IoEvt) :
      Connect t.target_fd t.conn true fd c1 conn1 → SendFail fd t.wr body s1 wr1 →
      Connect (-1) conn1 true fd2 c2 conn2 → SendFail fd2 wr1 body s2 wr2 →
      Forwards t body (-1)
        ⟨-1, conn2, wr2, t.rc, t.trace ++ c1 ++ s1 ++ [.close fd] ++ c2 ++ s2 ++ [.close fd2]⟩

/-! ## Runs of the drain -/

/-- The `recv` result does not stop the drain: some bytes, or `EINTR`. -/
def IoRes.continues : IoRes → Bool
  | .ok bs => !bs.isEmpty
  | .err .EINTR => true
  | .err _ => false

/-- The bytes delivered by a sequence of `recv` results, in order. -/
def received : List IoRes → List Nat
  | [] => []
  | .ok bs :: l => bs ++ received l
  | .err _ :: l => received l

/-- The `recv` result `r` is what the scheduled outcome `e` gives to a call that asks for at
least one byte: of the bytes available, a prefix. -/
def Yields : RecvEvt → IoRes → Prop
  | .data bs, r => ∃ k, 0 < k ∧ r = .ok (bs.take k)
  | .eintr, r => r = .err .EINTR
  | .eagain, r => r = .err .EAGAIN
  | .fail, r => r = .err .EOTHER

/-- `Results rc rs rc1`: the `recv` calls with the results `rs` take the scheduled outcomes `rc`
in order and leave `rc1`; a call made when no outcome is left finds nothing available. -/
inductive Results : List RecvEvt → List IoRes → List RecvEvt → Prop
  | done (rc : List RecvEvt) : Results rc [] rc
  | step (e : RecvEvt) (rc : List RecvEvt) (r : IoRes) (rs : List IoRes) (rc1 : List RecvEvt) :
      Yields e r → Results rc rs rc1 → Results (e :: rc) (r :: rs) rc1
  | idle : Results [] [.err .EAGAIN] []

/-- The stop events of a drain that has accumulated `got` bytes: `DrainStop cap got stop closed`
gives the `recv` result `stop` that ends the loop, none when `cap` bytes are accumulated, and
whether the handle is closed on return. -/
inductive DrainStop (cap got : Nat) : List IoRes → Bool → Prop
  /-- `cap` bytes are accumulated -/
  | cap_reached : got = cap → DrainStop cap got [] false
  /-- `recv` would block -/
  | would_block : DrainStop cap got [.err .EAGAIN] false
  /-- `recv` returns 0: the target has closed -/
  | zero_read : DrainStop cap got [.ok []] true
  /-- `recv` fails with an error other than `EAGAIN` and `EINTR` -/
  | read_error : DrainStop cap got [.err .EOTHER] true

/-- A request with `CONTENT_LENGTH` = "0", read in a state where the target connection is open
on descriptor 7 and the coming `recv` calls deliver `"ab"` and then fail with a read error. -/
def drain_error_world : World :=
  ⟨⟨netstring (kv_block [(bytes "CONTENT_LENGTH", bytes "0"), (bytes "SCGI", bytes "1")]),
      [], [], []⟩,
    ⟨7, [], [], [.data (bytes "ab"), .fail], []⟩⟩

/-! ## The frontend relay (`tunnel_frontend_server.c`) -/

namespace Frontend

def BUF_SIZE : Nat := 65536

/-- The loop of the frontend `write_all`, which retries `EINTR` only; `log` collects the result
of every `write` call. -/
def write_all_loop (buf : List Nat) :
    Nat → List IoEvt → Nat → List IoRes → Int × List IoEvt × List IoRes
  | 0, es, _, log => (-1, es, log)
  | fuel + 1, es, off, log =>
    if off < buf.length then
      match sys_write es (buf.drop off) with
      | (.ok chunk, es1) => write_all_loop buf fuel es1 (off + chunk.length) (log ++ [.ok chunk])
      | (.err .EINTR, es1) => write_all_loop buf fuel es1 off (log ++ [.err .EINTR])
      | (.err e, es1) => (-1, es1, log ++ [.err e])
    else ((off : Int), es, log)

/-- Function `write_all(fd, buf, n)` of the frontend on a descriptor whose coming outcomes are
`es`.  Every pass of the loop that does not return consumes a scheduled outcome or writes the
rest of `buf`, which bounds the passes. -/
def write_all (es : List IoEvt) (buf : List Nat) : Int × List IoEvt × List IoRes :=
  write_all_loop buf (es.length + buf.length + 1) es 0 []

/-- Outcome of one `select` call on the client connection. -/
inductive SelEvt
  /-- `select` fails with `EINTR` -/
  | eintr
  /-- `select` fails with another error -/
  | fail
  /-- `select` returns 0: the wait timed out -/
  | timeout
  /-- `select` returns 1: the client connection is readable -/
  | readable
  deriving DecidableEq, Repr

/-- What the HTTP transport does with one POST: it fails, or it delivers a response with a
status code and a body that arrives in chunks. -/
inductive HttpEvt
  | transport_error
  | response (code : Nat) (chunks : List (List Nat))
  deriving DecidableEq, Repr

/-- Function `curl_write_cb` on the buffer `mb` and one chunk; `realloc` succeeds. -/
def curl_write_cb (mb chunk : List Nat) : List Nat := mb ++ chunk

/-- State of the frontend in its loop. -/
structure State where
  /-- the accepted client connection -/
  conn : Client
  /-- outcomes of the coming `select` calls -/
  sel : List SelEvt
  /-- outcomes of the coming POSTs -/
  http : List HttpEvt
  /-- bodies of the POSTs performed so far, oldest first -/
  posts : List (List Nat)
  /-- the variable `delay`, in exact arithmetic -/
  delay : ℚ
  /-- `(send_len, resp_len)` of the ticks completed so far, oldest first; kept for the
  statements only -/
  ticks : List (Nat × Nat)
  deriving DecidableEq, Repr

/-- The state when the loop is entered. -/
def init (conn : Client) (sel : List SelEvt) (http : List HttpEvt) : State :=
  ⟨conn, sel, http, [], 1 / 10, []⟩

/-- System call `select` with the current delay as timeout; when no outcome is scheduled the
connection is readable. -/
def sys_select (s : State) : SelEvt × State :=
  match s.sel with
  | [] => (.readable, s)
  | e :: es => (e, { s with sel := es })

/-- Function `http_exchange(curl, url, body, body_len, &out, &out_len)`: `some` response body
when it returns 0, `none` when it returns -1.  With no outcome scheduled the transport fails. -/
def http_exchange (s : State) (body : List Nat) : Option (List Nat) × State :=
  match s.http with
  | [] => (none, { s with posts := s.posts ++ [body] })
  | .transport_error :: hs => (none, { s with http := hs, posts := s.posts ++ [body] })
  | .response code chunks :: hs =>
    if code ≠ 200 then (none, { s with http := hs, posts := s.posts ++ [body] })
    else (some (chunks.foldl curl_write_cb []), { s with http := hs, posts := s.posts ++ [body] })

/-- How a pass of the loop ends: with `continue` or at the end of the body (`again`), or with
`break` (`stop`). -/
inductive Step
  | again
  | stop
  deriving DecidableEq, Repr

/-- The second half of the loop body: the exchange with the `send_len` bytes `buf`, the write
to the client and the update of `delay`. -/
def tick_exchange (s : State) (buf : List Nat) : Step × State :=
  match http_exchange s buf with
  | (none, s1) => (.stop, s1)
  | (some resp, s1) =>
    if resp.length > 0 then
      match write_all s1.conn.wr resp with
      | (w, es, log) =>
        if w < 0 then
          (.stop, { s1 with conn := { s1.conn with wr := es, out := s1.conn.out ++ accepted log } })
        else
          (.again, { s1 with conn := { s1.conn with wr := es, out := s1.conn.out ++ accepted log },
                             delay := 1 / 10,
                             ticks := s1.ticks ++ [(buf.length, resp.length)] })
    else if buf.length = 0 then
      (.again, { s1 with delay := if s1.delay * 2 > 10 then 10 else s1.delay * 2,
                         ticks := s1.ticks ++ [(buf.length, resp.length)] })
    else
      (.again, { s1 with delay := 1 / 10, ticks := s1.ticks ++ [(buf.length, resp.length)] })

/-- One pass of the loop of `main`. -/
def tick (s : State) : Step × State :=
  match sys_select s with
  | (.eintr, s1) => (.again, s1)
  | (.fail, s1) => (.stop, s1)
  | (.timeout, s1) => tick_exchange s1 []
  | (.readable, s1) =>
    match sys_read s1.conn BUF_SIZE with
    | (.err .EINTR, c1) => (.again, { s1 with conn := c1 })
    | (.err _, c1) => (.stop, { s1 with conn := c1 })
    | (.ok bs, c1) =>
      if bs.length = 0 then (.stop, { s1 with conn := c1 })
      else tick_exchange { s1 with conn := c1 } bs

/-- The loop of `main`, for at most `fuel` passes. -/
def main_loop : Nat → State → State
  | 0, s => s
  | fuel + 1, s =>
    match tick s with
    | (.stop, s1) => s1
    | (.again, s1) => main_loop fuel s1

/-- The states of the loop: the initial one, and from a state the one after a pass; between
passes the environment is free to decide on the coming outcomes and the client to send more. -/
inductive Reach : State → Prop
  | init (conn : Client) (sel : List SelEvt) (http : List HttpEvt) : Reach (init conn sel http)
  | env (s : State) (inp : List Nat) (rd wr : List IoEvt) (sel : List SelEvt)
      (http : List HttpEvt) :
      Reach s → Reach ⟨⟨inp, rd, wr, s.conn.out⟩, sel, http, s.posts, s.delay, s.ticks⟩
  | tick (s : State) : Reach s → Reach (tick s).2

/-- Number of consecutive idle ticks, those with `send_len = 0` and `resp_len = 0`, at the end
of a history. -/
def idle_run (ticks : List (Nat × Nat)) : Nat :=
  (ticks.reverse.takeWhile (fun t => t.1 = 0 ∧ t.2 = 0)).length

/-- No scheduled `write` fails with an error other than `EINTR`. -/
def Writable (es : List IoEvt) : Prop := ∀ e ∈ es, e ≠ IoEvt.fail ∧ e ≠ IoEvt.eagain

instance (es : List IoEvt) : Decidable (Writable es) := by
  unfold Writable; infer_instance

/-- The bytes the pass from `s` posts, going by the outcomes of `select` and `read`: none after a
timeout, the bytes read when the connection is readable and `read` returns some; `none` when the
pass ends before the exchange. -/
def posted (s : State) : Option (List Nat) :=
  match (sys_select s).1 with
  | .timeout => some []
  | .readable =>
    match (sys_read s.conn BUF_SIZE).1 with
    | .ok bs => if bs = [] then none else some bs
    | .err _ => none
  | _ => none

/-- The response body the next exchange returns, going by the outcome of the transport: the
chunks of a 200 response, in order; `none` when the exchange fails. -/
def answered (http : List HttpEvt) : Option (List Nat) :=
  match http with
  | .response code chunks :: _ => if code = 200 then some chunks.flatten else none
  | _ => none

/-- The pair `(send_len, resp_len)` of the pass from `s` when that pass is a completed tick, one
that reaches the update of `delay`: the pass posts, the exchange returns a response, and the
response, when it is not empty, is written to the client in full.  The result is `none` when
the pass ends earlier.  It is read off the outcomes scheduled in `s`, not off what the loop
body records. -/
def completed (s : State) : Option (Nat × Nat) :=
  match posted s, answered s.http with
  | some body, some resp =>
    if resp = [] ∨ 0 ≤ (write_all s.conn.wr resp).1 then some (body.length, resp.length)
    else none
  | _, _ => none

/-- The runs of the loop with their history: `History s hist` says that `s` is a state of the
loop and `hist` the `(send_len, resp_len)` of the ticks completed on the way, oldest first.
Between passes the environment is free to decide on the coming outcomes and the client to send
more. -/
inductive History : State → List (Nat × Nat) → Prop
  | init (conn : Client) (sel : List SelEvt) (http : List HttpEvt) :
      History (init conn sel http) []
  | env (s : State) (hist : List (Nat × Nat)) (inp : List Nat) (rd wr : List IoEvt)
      (sel : List SelEvt) (http : List HttpEvt) :
      History s hist →
      History ⟨⟨inp, rd, wr, s.conn.out⟩, sel, http, s.posts, s.delay, s.ticks⟩ hist
  | tick (s : State) (hist : List (Nat × Nat)) :
      History s hist → History (tick s).2 (hist ++ (completed s).toList)

end Frontend

/-- The frontend after six idle passes: six times the wait times out and the empty POST is
answered 200 with an empty body. -/
def Frontend.idle_six : Frontend.State :=
  Frontend.main_loop 6 (Frontend.init ⟨[], [], [], []⟩ (List.replicate 6 .timeout)
    (List.replicate 6 (.response 200 [])))

/-! ## Facts about the C library model -/

theorem digitsVal_append_single (ds : List Nat) (d : Nat) :
    digitsVal (ds ++ [d]) = digitsVal ds * 10 + (d - 48) := by
  simp [digitsVal, List.foldl_append]

theorem decimalAux_spec : ∀ (fuel n : Nat) (acc : List Nat), n < fuel →
    ∃ ds, decimalAux fuel n acc = ds ++ acc ∧ ds ≠ [] ∧ AllDigits ds ∧ digitsVal ds = n ∧
      (ds.length = 1 ∨ 10 ^ (ds.length - 1) ≤ n) := by
  intro fuel
  induction fuel with
  | zero => intro n acc h; omega
  | succ fuel ih =>
    intro n acc h
    unfold decimalAux
    by_cases hn : n < 10
    · refine ⟨[48 + n], by simp [hn], by simp, ?_, ?_, by simp⟩
      · intro d hd
        simp only [List.mem_singleton] at hd
        subst hd
        simp [isdigit]; omega
      · simp [digitsVal]
    · have hlt : n / 10 < fuel := by omega
      obtain ⟨ds, h1, h2, h3, h4, h5⟩ := ih (n / 10) ((48 + n % 10) :: acc) hlt
      refine ⟨ds ++ [48 + n % 10], by simp [hn, h1], by simp, ?_, ?_, ?_⟩
      · intro d hd
        rcases List.mem_append.1 hd with hd | hd
        · exact h3 d hd
        · simp only [List.mem_singleton] at hd
          subst hd
          simp [isdigit]; omega
      · rw [digitsVal_append_single, h4]; omega
      · right
        have hpos : 1 ≤ ds.length := by
          cases ds with
          | nil => exact absurd rfl h2
          | cons a l => simp
        simp only [List.length_append, List.length_singleton, Nat.add_sub_cancel]
        rcases h5 with h5 | h5
        · rw [h5]; simp; omega
        · have : 10 ^ ds.length = 10 ^ (ds.length - 1) * 10 := by
            conv_lhs => rw [show ds.length = (ds.length - 1) + 1 by omega]
            rw [pow_succ]
          rw [this]
          have := Nat.div_mul_le_self n 10
          nlinarith

theorem decimal_spec (n : Nat) :
    decimal n ≠ [] ∧ AllDigits (decimal n) ∧ digitsVal (decimal n) = n ∧
      ((decimal n).length = 1 ∨ 10 ^ ((decimal n).length - 1) ≤ n) := by
  obtain ⟨ds, h1, h2, h3, h4, h5⟩ := decimalAux_spec (n + 1) n [] (by omega)
  have : decimal n = ds := by simp [decimal, h1]
  rw [this]
  exact ⟨h2, h3, h4, h5⟩

theorem isdigit_iff (d : Nat) : isdigit d = true ↔ 48 ≤ d ∧ d ≤ 57 := by
  simp [isdigit]

theorem takeWhile_isdigit_of_allDigits (ds : List Nat) (h : AllDigits ds) :
    ds.takeWhile isdigit = ds := by
  apply List.takeWhile_eq_self_iff.2
  exact h

theorem strtol_digits (ds : List Nat) (h : AllDigits ds) :
    strtol ds = min (digitsVal ds : Int) LONG_MAX := by
  cases ds with
  | nil => simp [strtol, digitsVal]
  | cons d t =>
    have hd : 48 ≤ d ∧ d ≤ 57 := (isdigit_iff d).1 (h d (by simp))
    have hsp : isspace d = false := by
      simp [isspace]; omega
    have hdw : (d :: t).dropWhile isspace = d :: t := by
      simp [List.dropWhile, hsp]
    unfold strtol
    simp only [hdw]
    split
    · rename_i heq
      simp only [List.cons.injEq] at heq
      omega
    · rename_i heq
      simp only [List.cons.injEq] at heq
      omega
    · rw [takeWhile_isdigit_of_allDigits _ h]

theorem strtol_decimal (n : Nat) : strtol (decimal n) = min (n : Int) LONG_MAX := by
  rw [strtol_digits _ (decimal_spec n).2.1, (decimal_spec n).2.2.1]

theorem decimal_length_le (n : Nat) (h : n ≤ MAX_HDRS) : (decimal n).length ≤ 5 := by
  rcases (decimal_spec n).2.2.2 with h1 | h1
  · omega
  · by_contra hc
    have h5 : 5 ≤ (decimal n).length - 1 := by omega
    have : 10 ^ 5 ≤ 10 ^ ((decimal n).length - 1) := Nat.pow_le_pow_right (by norm_num) h5
    simp only [MAX_HDRS] at h
    omega

/-! ## Reading from the client -/

theorem client_eta (c : Client) : (⟨c.inp, c.rd, c.wr, c.out⟩ : Client) = c := by
  cases c; rfl

theorem take_min_length (l : List Nat) (k : Nat) : l.take (min k l.length) = l.take k := by
  rw [List.take_eq_take]; simp

theorem drop_min_length (l : List Nat) (k : Nat) : l.drop (min k l.length) = l.drop k := by
  rcases Nat.le_total k l.length with h | h
  · rw [Nat.min_eq_left h]
  · rw [Nat.min_eq_right h, List.drop_length, List.drop_eq_nil_of_le h]

/-- What one `read` call can do: store a prefix of the unread input, or fail and leave the
input alone. -/
theorem sys_read_cases (c : Client) (k : Nat) :
    (∃ a rd', sys_read c k = (.ok (c.inp.take a), ⟨c.inp.drop a, rd', c.wr, c.out⟩) ∧
        a ≤ k ∧ a ≤ c.inp.length ∧ (a = 0 → k = 0 ∨ c.inp = []) ∧ rd' <:+ c.rd ∧
        (rd'.length < c.rd.length ∨ (c.rd = [] ∧ a = min k c.inp.length))) ∨
    (∃ e rd', sys_read c k = (.err e, ⟨c.inp, rd', c.wr, c.out⟩) ∧
        rd'.length < c.rd.length ∧ rd' <:+ c.rd ∧ (e = .EOTHER → ¬ NoFail c.rd) ∧
        ¬ AllPart c.rd) := by
  have hzero : ∀ j : Nat, min j c.inp.length = 0 → j = 0 ∨ c.inp = [] := by
    intro j hj
    rcases Nat.le_total j c.inp.length with h | h
    · left; rw [Nat.min_eq_left h] at hj; exact hj
    · right; rw [Nat.min_eq_right h] at hj; exact List.length_eq_zero.1 hj
  cases hrd : c.rd with
  | nil =>
    left
    refine ⟨min k c.inp.length, [], ?_, Nat.min_le_left _ _, Nat.min_le_right _ _, hzero k,
      List.suffix_refl _, Or.inr ⟨rfl, rfl⟩⟩
    simp [sys_read, hrd, take_min_length, drop_min_length]
  | cons e es =>
    have hsuf : es <:+ e :: es := List.suffix_cons e es
    cases e with
    | part j =>
      left
      refine ⟨min (min (j + 1) k) c.inp.length, es, ?_,
        Nat.le_trans (Nat.min_le_left _ _) (Nat.min_le_right _ _), Nat.min_le_right _ _, ?_,
        hsuf, Or.inl (by simp)⟩
      · simp only [sys_read, hrd, take_min_length, drop_min_length]
      · intro h0
        rcases hzero _ h0 with h | h
        · left; omega
        · right; exact h
    | eintr =>
      right
      refine ⟨.EINTR, es, by simp [sys_read, hrd], by simp, hsuf, by simp, ?_⟩
      intro h
      have hk := h .eintr (by simp)
      cases hk
    | eagain =>
      right
      refine ⟨.EAGAIN, es, by simp [sys_read, hrd], by simp, hsuf, by simp, ?_⟩
      intro h
      have hk := h .eagain (by simp)
      cases hk
    | fail =>
      right
      refine ⟨.EOTHER, es, by simp [sys_read, hrd], by simp, hsuf, ?_, ?_⟩
      · intro _ h
        exact h .fail (by simp) rfl
      · intro h
        have hk := h .fail (by simp)
        cases hk

theorem noFail_suffix {es es' : List IoEvt} (h : NoFail es) (hs : es' <:+ es) : NoFail es' :=
  fun e he => h e (hs.subset he)

theorem allPart_suffix {es es' : List IoEvt} (h : AllPart es) (hs : es' <:+ es) : AllPart es' :=
  fun e he => h e (hs.subset he)

/-- What `read_n` does under any schedule: it stores a prefix of the unread input of at most
`n - off` bytes and returns -1 or the new `off`; it stops short of `n` only at end of input. -/
theorem read_n_loop_spec (n : Nat) : ∀ (fuel : Nat) (c : Client) (buf : List Nat),
    c.rd.length + (n - buf.length) + 1 ≤ fuel →
    ∃ (r : Int) (m : Nat) (rd' : List IoEvt),
      read_n_loop n fuel c buf = (r, buf ++ c.inp.take m, ⟨c.inp.drop m, rd', c.wr, c.out⟩) ∧
      m ≤ n - buf.length ∧ m ≤ c.inp.length ∧ rd' <:+ c.rd ∧
      (r = -1 ∨ (r = ((buf.length + m : Nat) : Int) ∧ (m = n - buf.length ∨ m = c.inp.length))) ∧
      (NoFail c.rd → r ≠ -1) := by
  intro fuel
  induction fuel with
  | zero => intro c buf h; omega
  | succ fuel ih =>
    intro c buf h
    unfold read_n_loop
    by_cases hlt : buf.length < n
    · simp only [hlt, if_true]
      rcases sys_read_cases c (n - buf.length) with
        ⟨a, rd1, hs, hak, hal, ha0, hsuf, hmeas⟩ | ⟨e, rd1, hs, hlen, hsuf, hfail, _⟩
      · rw [hs]
        simp only
        have hlen_take : (c.inp.take a).length = a := by
          rw [List.length_take]; exact Nat.min_eq_left hal
        by_cases hz : a = 0
        · subst hz
          have hinp : c.inp = [] := by
            rcases ha0 rfl with h0 | h0
            · omega
            · exact h0
          refine ⟨buf.length, 0, rd1, by simp, by omega, by omega, hsuf, Or.inr ⟨by simp, ?_⟩,
            fun _ => by omega⟩
          right; simp [hinp]
        · simp only [hlen_take, hz, if_false]
          have hfuel : rd1.length + (n - (buf ++ c.inp.take a).length) + 1 ≤ fuel := by
            rw [List.length_append, hlen_take]
            rcases hmeas with hm | ⟨hm, _⟩
            · omega
            · rw [hm] at h; simp only [List.length_nil] at h
              have : rd1.length = 0 := by
                have := hsuf.length_le; rw [hm] at this; simpa using this
              omega
          obtain ⟨r, m, rd2, hres, hm1, hm2, hsuf2, hr, hnf⟩ :=
            ih ⟨c.inp.drop a, rd1, c.wr, c.out⟩ (buf ++ c.inp.take a) hfuel
          simp only [List.length_append, hlen_take, List.length_drop] at hm1 hm2 hr
          refine ⟨r, a + m, rd2, ?_, by omega, by omega, hsuf2.trans hsuf, ?_, ?_⟩
          · rw [hres]
            simp only [List.append_assoc, List.drop_drop, List.take_add]
          · rcases hr with hr | ⟨hr1, hr2⟩
            · left; exact hr
            · right
              refine ⟨by rw [hr1]; push_cast; ring, ?_⟩
              omega
          · intro hno
            exact hnf (noFail_suffix hno hsuf)
      · rw [hs]
        cases e with
        | EINTR =>
          simp only
          obtain ⟨r, m, rd2, hres, hm1, hm2, hsuf2, hr, hnf⟩ :=
            ih ⟨c.inp, rd1, c.wr, c.out⟩ buf (by simp only; omega)
          exact ⟨r, m, rd2, hres, hm1, hm2, hsuf2.trans hsuf, hr, fun hno => hnf (noFail_suffix hno hsuf)⟩
        | EAGAIN =>
          simp only
          obtain ⟨r, m, rd2, hres, hm1, hm2, hsuf2, hr, hnf⟩ :=
            ih ⟨c.inp, rd1, c.wr, c.out⟩ buf (by simp only; omega)
          exact ⟨r, m, rd2, hres, hm1, hm2, hsuf2.trans hsuf, hr, fun hno => hnf (noFail_suffix hno hsuf)⟩
        | EOTHER =>
          simp only
          exact ⟨-1, 0, rd1, by simp, by omega, by omega, hsuf, Or.inl rfl,
            fun hno => absurd hno (hfail rfl)⟩
    · simp only [hlt, if_false]
      refine ⟨buf.length, 0, c.rd, by simp [client_eta], by omega, by omega, List.suffix_refl _,
        Or.inr ⟨by simp, by omega⟩, fun _ => by omega⟩

theorem read_n_spec (c : Client) (n : Nat) :
    ∃ (r : Int) (m : Nat) (rd' : List IoEvt),
      read_n c n = (r, c.inp.take m, ⟨c.inp.drop m, rd', c.wr, c.out⟩) ∧
      m ≤ n ∧ m ≤ c.inp.length ∧ rd' <:+ c.rd ∧
      (r = -1 ∨ (r = (m : Int) ∧ (m = n ∨ m = c.inp.length))) ∧
      (NoFail c.rd → r ≠ -1) := by
  obtain ⟨r, m, rd', h1, h2, h3, h4, h5, h6⟩ :=
    read_n_loop_spec n (c.rd.length + n + 1) c [] (by simp)
  refine ⟨r, m, rd', by simpa [read_n] using h1, by simpa using h2, h3, h4, ?_, h6⟩
  simpa using h5

/-- With no failing read scheduled and `n` bytes of input left, `read_n` reads exactly the
next `n` bytes. -/
theorem read_n_ok (c : Client) (n : Nat) (hno : NoFail c.rd) (hn : n ≤ c.inp.length) :
    ∃ rd', rd' <:+ c.rd ∧
      read_n c n = ((n : Int), c.inp.take n, ⟨c.inp.drop n, rd', c.wr, c.out⟩) := by
  obtain ⟨r, m, rd', h1, h2, h3, h4, h5, h6⟩ := read_n_spec c n
  rcases h5 with h5 | ⟨h5, h7⟩
  · exact absurd h5 (h6 hno)
  · have hm : m = n := by omega
    subst hm
    exact ⟨rd', h4, by rw [h1, h5]⟩

/-- With fewer than `n` bytes of input left, `read_n` does not return `n`. -/
theorem read_n_short (c : Client) (n : Nat) (hn : c.inp.length < n) :
    (read_n c n).1 ≠ (n : Int) ∧ (read_n c n).2.2.wr = c.wr ∧ (read_n c n).2.2.out = c.out := by
  obtain ⟨r, m, rd', h1, h2, h3, h4, h5, h6⟩ := read_n_spec c n
  rw [h1]
  refine ⟨?_, rfl, rfl⟩
  rcases h5 with h5 | ⟨h5, _⟩
  · simp only [h5]; omega
  · simp only [h5]; omega

/-- What the length loop of `read_netstring` can do under any schedule: fail, fill `lenbuf`,
or stop at the first `:` after reading only digits. -/
theorem read_len_loop_cases : ∀ (fuel : Nat) (c : Client) (lenbuf : List Nat),
    ∃ r c', read_len_loop fuel c lenbuf = (r, c') ∧ c'.wr = c.wr ∧ c'.out = c.out ∧
      (r = none ∨ (∃ lb, r = some lb ∧ lb.length = lenbuf.length + fuel) ∨
        (∃ ds rest, AllDigits ds ∧ ds.length < fuel ∧ c.inp = ds ++ 58 :: rest ∧
          r = some (lenbuf ++ ds) ∧ c'.inp = rest ∧ c'.rd <:+ c.rd)) := by
  intro fuel
  induction fuel with
  | zero =>
    intro c lenbuf
    exact ⟨some lenbuf, c, rfl, rfl, rfl, Or.inr (Or.inl ⟨lenbuf, rfl, rfl⟩)⟩
  | succ fuel ih =>
    intro c lenbuf
    unfold read_len_loop
    rcases sys_read_cases c 1 with
      ⟨a, rd1, hs, hak, hal, ha0, hsuf, hmeas⟩ | ⟨e, rd1, hs, hlen, hsuf, hfail, _⟩
    · rw [hs]
      by_cases hz : a = 0
      · subst hz
        exact ⟨none, ⟨List.drop 0 c.inp, rd1, c.wr, c.out⟩, by simp, rfl, rfl, Or.inl rfl⟩
      · have ha1 : a = 1 := by omega
        subst ha1
        cases hinp : c.inp with
        | nil => rw [hinp] at hal; simp at hal
        | cons ch rest =>
          simp only [List.take_succ_cons, List.take_zero, List.drop_succ_cons, List.drop_zero]
          by_cases h58 : ch = 58
          · refine ⟨some lenbuf, ⟨rest, rd1, c.wr, c.out⟩, by simp [h58], rfl, rfl,
              Or.inr (Or.inr ⟨[], rest, ?_, by simp, by simp [h58], by simp, rfl, hsuf⟩)⟩
            intro d hd; simp at hd
          · by_cases hnd : ch < 48 ∨ ch > 57
            · exact ⟨none, ⟨rest, rd1, c.wr, c.out⟩, by simp [h58, hnd], rfl, rfl, Or.inl rfl⟩
            · obtain ⟨r, c', hres, hwr, hout, hcase⟩ := ih ⟨rest, rd1, c.wr, c.out⟩ (lenbuf ++ [ch])
              refine ⟨r, c', by simp [h58, hnd, hres], hwr, hout, ?_⟩
              rcases hcase with h | ⟨lb, h1, h2⟩ | ⟨ds, rest', h1, h2, h3, h4, h5, h6⟩
              · exact Or.inl h
              · refine Or.inr (Or.inl ⟨lb, h1, ?_⟩)
                rw [h2]; simp; omega
              · refine Or.inr (Or.inr ⟨ch :: ds, rest', ?_, by simp; omega, ?_, ?_, h5,
                  h6.trans hsuf⟩)
                · intro d hd
                  rcases List.mem_cons.1 hd with hd | hd
                  · subst hd; rw [isdigit_iff]; omega
                  · exact h1 d hd
                · simp only at h3; rw [h3]; simp
                · rw [h4]; simp
    · rw [hs]
      exact ⟨none, ⟨c.inp, rd1, c.wr, c.out⟩, by simp, rfl, rfl, Or.inl rfl⟩

/-- With every read delivering data, the length loop reads the digits up to the `:`. -/
theorem read_len_loop_ok : ∀ (ds : List Nat) (fuel : Nat) (c : Client) (lenbuf rest : List Nat),
    AllPart c.rd → AllDigits ds → ds.length < fuel → c.inp = ds ++ 58 :: rest →
    ∃ rd', rd' <:+ c.rd ∧
      read_len_loop fuel c lenbuf = (some (lenbuf ++ ds), ⟨rest, rd', c.wr, c.out⟩) := by
  intro ds
  induction ds with
  | nil =>
    intro fuel c lenbuf rest hall _ hlen hinp
    obtain ⟨fuel, rfl⟩ : ∃ f, fuel = f + 1 := ⟨fuel - 1, by simp at hlen; omega⟩
    unfold read_len_loop
    rcases sys_read_cases c 1 with
      ⟨a, rd1, hs, hak, hal, ha0, hsuf, _⟩ | ⟨e, rd1, _, _, _, _, hnot⟩
    · have ha1 : a = 1 := by
        by_contra hne
        have h0 : a = 0 := by omega
        rcases ha0 h0 with h | h
        · omega
        · rw [h] at hinp; simp at hinp
      subst ha1
      rw [hs, hinp]
      exact ⟨rd1, hsuf, by simp⟩
    · exact absurd hall hnot
  | cons d ds ih =>
    intro fuel c lenbuf rest hall hdig hlen hinp
    obtain ⟨fuel, rfl⟩ : ∃ f, fuel = f + 1 := ⟨fuel - 1, by simp at hlen; omega⟩
    have hd : 48 ≤ d ∧ d ≤ 57 := (isdigit_iff d).1 (hdig d (by simp))
    unfold read_len_loop
    rcases sys_read_cases c 1 with
      ⟨a, rd1, hs, hak, hal, ha0, hsuf, _⟩ | ⟨e, rd1, _, _, _, _, hnot⟩
    · have ha1 : a = 1 := by
        by_contra hne
        have h0 : a = 0 := by omega
        rcases ha0 h0 with h | h
        · omega
        · rw [h] at hinp; simp at hinp
      subst ha1
      rw [hs, hinp]
      obtain ⟨rd2, hsuf2, hres⟩ := ih fuel ⟨ds ++ 58 :: rest, rd1, c.wr, c.out⟩ (lenbuf ++ [d]) rest
        (allPart_suffix hall hsuf) (fun x hx => hdig x (by simp [hx])) (by simp at hlen; omega) rfl
      refine ⟨rd2, hsuf2.trans hsuf, ?_⟩
      have h58 : d ≠ 58 := by omega
      have hnd : ¬ (d < 48 ∨ d > 57) := by omega
      simp [h58, hnd, hres]
    · exact absurd hall hnot

/-- A byte string splits in only one way into digits followed by a non-digit. -/
theorem digits_split_unique : ∀ (ds ds' : List Nat) (b b' : Nat) (rest rest' : List Nat),
    AllDigits ds → AllDigits ds' → isdigit b = false → isdigit b' = false →
    ds ++ b :: rest = ds' ++ b' :: rest' → ds = ds' ∧ b = b' ∧ rest = rest' := by
  intro ds
  induction ds with
  | nil =>
    intro ds' b b' rest rest' _ h2 hb _ heq
    cases ds' with
    | nil => simpa using heq
    | cons d t =>
      simp only [List.nil_append, List.cons_append, List.cons.injEq] at heq
      have := h2 d (by simp)
      rw [← heq.1, hb] at this
      cases this
  | cons d t ih =>
    intro ds' b b' rest rest' h1 h2 _ hb' heq
    cases ds' with
    | nil =>
      simp only [List.nil_append, List.cons_append, List.cons.injEq] at heq
      have := h1 d (by simp)
      rw [heq.1, hb'] at this
      cases this
    | cons d' t' =>
      simp only [List.cons_append, List.cons.injEq] at heq
      obtain ⟨e1, e2, e3⟩ := ih t' b b' rest rest' (fun x hx => h1 x (by simp [hx]))
        (fun x hx => h2 x (by simp [hx])) ‹_› hb' heq.2
      exact ⟨by rw [heq.1, e1], e2, e3⟩

theorem allPart_noFail {es : List IoEvt} (h : AllPart es) : NoFail es := by
  intro e he hf
  have hk := h e he
  rw [hf] at hk
  cases hk

/-! ## Netstring parsing -/

/-- C3: for every payload `p` of at most `MAX_HDRS` bytes and every `rest`, reading the stream
`decimal (len p) ++ ":" ++ p ++ "," ++ rest` (every read delivering data, in chunks of any
size) succeeds, returns exactly `p`, and leaves exactly `rest` unread. -/
theorem read_netstring_roundtrip (c : Client) (p rest : List Nat)
    (hp : p.length ≤ MAX_HDRS) (hrd : AllPart c.rd) (hin : c.inp = netstring p ++ rest) :
    ∃ rd', rd' <:+ c.rd ∧ read_netstring c = (some p, ⟨rest, rd', c.wr, c.out⟩) := by
  have hin' : c.inp = decimal p.length ++ 58 :: (p ++ 44 :: rest) := by
    rw [hin]; simp [netstring]
  have hlen5 := decimal_length_le p.length hp
  obtain ⟨hne, hdig, hval, _⟩ := decimal_spec p.length
  obtain ⟨rd1, hsuf1, h1⟩ := read_len_loop_ok (decimal p.length) 31 c [] (p ++ 44 :: rest) hrd hdig
    (by omega) hin'
  have hpos : 0 < (decimal p.length).length := List.length_pos.2 hne
  have hst : strtol (decimal p.length) = (p.length : Int) := by
    rw [strtol_decimal]
    simp only [MAX_HDRS] at hp
    simp only [LONG_MAX]
    omega
  obtain ⟨rd2, hsuf2, h2⟩ := read_n_ok ⟨p ++ 44 :: rest, rd1, c.wr, c.out⟩ p.length
    (allPart_noFail (allPart_suffix hrd hsuf1)) (by simp)
  obtain ⟨rd3, hsuf3, h3⟩ := read_n_ok ⟨44 :: rest, rd2, c.wr, c.out⟩ 1
    (allPart_noFail (allPart_suffix (allPart_suffix hrd hsuf1) hsuf2)) (by simp)
  refine ⟨rd3, (hsuf3.trans hsuf2).trans hsuf1, ?_⟩
  unfold read_netstring
  rw [h1]
  simp only [List.nil_append]
  have hc1 : ¬ ((decimal p.length).length = 0 ∨ (decimal p.length).length ≥ 31) := by omega
  have hc2 : ¬ ((p.length : Int) < 0 ∨ (p.length : Int) > (MAX_HDRS : Int)) := by
    simp only [MAX_HDRS] at hp ⊢
    omega
  simp only [hc1, if_false, hst, hc2, Int.toNat_ofNat, h2]
  simp only [List.take_left', List.drop_left'] at h3 ⊢
  simp [h3]

theorem read_netstring_roundtrip_witness :
    (bytes "hello").length ≤ MAX_HDRS ∧ AllPart [IoEvt.part 0, IoEvt.part 2] ∧
    ∃ rd', rd' <:+ [IoEvt.part 0, IoEvt.part 2] ∧
      read_netstring ⟨netstring (bytes "hello") ++ bytes "rest", [.part 0, .part 2], [], []⟩
        = (some (bytes "hello"), ⟨bytes "rest", rd', [], []⟩) :=
  have hall : AllPart [IoEvt.part 0, IoEvt.part 2] := by decide
  ⟨by decide, hall,
    read_netstring_roundtrip ⟨netstring (bytes "hello") ++ bytes "rest", [.part 0, .part 2], [], []⟩
      (bytes "hello") (bytes "rest") (by decide) hall rfl⟩

theorem isdigit_58 : isdigit 58 = false := by decide

/-- C4: `read_netstring` returns the parse error, handing out no payload, for every input
stream whose length field holds a byte that is neither a digit nor `:`, whose length field is
empty, whose length exceeds `MAX_HDRS`, that ends before the announced payload is complete, or
whose payload is not followed by `,`; this under every schedule of read outcomes. -/
theorem read_netstring_rejects (c : Client) (h : Malformed c.inp) :
    (read_netstring c).1 = none := by
  obtain ⟨r, c1, hres, _, _, hcase⟩ := read_len_loop_cases 31 c []
  unfold read_netstring
  rw [hres]
  rcases hcase with hr | ⟨lb, hr, hlb⟩ | ⟨ds', rest', hdig', hlen', hinp', hr, hc1inp, _⟩
  · subst hr; rfl
  · subst hr
    have : lb.length = 0 ∨ lb.length ≥ 31 := by right; simp at hlb; omega
    simp only
    rw [if_pos this]
  · subst hr
    simp only [List.nil_append]
    by_cases hc1 : ds'.length = 0 ∨ ds'.length ≥ 31
    · rw [if_pos hc1]
    · simp only [hc1, if_false]
      rw [strtol_digits ds' hdig']
      by_cases hc2 : min (digitsVal ds' : Int) LONG_MAX < 0 ∨
          min (digitsVal ds' : Int) LONG_MAX > (MAX_HDRS : Int)
      · rw [if_pos hc2]
      · simp only [hc2, if_false]
        have hv : min (digitsVal ds' : Int) LONG_MAX = (digitsVal ds' : Int) := by
          simp only [MAX_HDRS, LONG_MAX] at hc2 ⊢
          omega
        rw [hv, Int.toNat_ofNat]
        have hle : digitsVal ds' ≤ MAX_HDRS := by
          rw [hv] at hc2
          simp only [MAX_HDRS] at hc2 ⊢
          omega
        obtain ⟨r1, m1, rd1, hn1, hm1, hm1', _, hr1, _⟩ := read_n_spec c1 (digitsVal ds')
        rw [hn1]
        simp only
        by_cases hne : r1 ≠ (digitsVal ds' : Int)
        · simp [hne]
        · simp only [hne, if_false]
          have hm1eq : m1 = digitsVal ds' := by
            rcases hr1 with hr1 | ⟨hr1, _⟩
            · exfalso; apply hne; rw [hr1]; omega
            · have : r1 = (digitsVal ds' : Int) := not_not.1 hne
              omega
          obtain ⟨r2, m2, rd2, hn2, hm2, hm2', _, hr2, _⟩ :=
            read_n_spec ⟨c1.inp.drop m1, rd1, c1.wr, c1.out⟩ 1
          rw [hn2]
          simp only
          by_cases hne2 : r2 ≠ 1
          · simp [hne2]
          · have hm2eq : m2 = 1 := by
              rcases hr2 with hr2 | ⟨hr2, _⟩
              · exfalso; apply hne2; rw [hr2]; omega
              · have : r2 = 1 := not_not.1 hne2
                omega
            subst hm2eq
            generalize hi : c.inp = inp at h hinp'
            cases h with
            | bad_length_byte ds b rest hd hb hb58 =>
              obtain ⟨_, e, _⟩ := digits_split_unique ds ds' b 58 rest rest' hd hdig' hb
                isdigit_58 hinp'
              exact absurd e hb58
            | empty_length rest =>
              obtain ⟨e, _, _⟩ := digits_split_unique [] ds' 58 58 rest rest'
                (fun _ hx => by simp at hx) hdig' isdigit_58 isdigit_58 hinp'
              exfalso; apply hc1; left; rw [← e]; rfl
            | too_large ds rest hd hbig =>
              obtain ⟨e, _, _⟩ := digits_split_unique ds ds' 58 58 rest rest' hd hdig'
                isdigit_58 isdigit_58 hinp'
              subst e; omega
            | short_payload ds tail hd hshort =>
              obtain ⟨e, _, e3⟩ := digits_split_unique ds ds' 58 58 tail rest' hd hdig'
                isdigit_58 isdigit_58 hinp'
              subst e; subst e3
              rw [hc1inp] at hm1'
              omega
            | no_comma ds p tail hd hplen hhead =>
              obtain ⟨e, _, e3⟩ := digits_split_unique ds ds' 58 58 (p ++ tail) rest' hd hdig'
                isdigit_58 isdigit_58 hinp'
              subst e
              have hdrop : c1.inp.drop m1 = tail := by
                rw [hc1inp, ← e3, hm1eq, ← hplen]; simp
              simp only [hdrop] at hm2' ⊢
              cases tail with
              | nil => simp at hm2'
              | cons b t =>
                have hb : b ≠ 44 := by
                  intro hb; apply hhead; simp [hb]
                simp [hb]

theorem read_netstring_rejects_witness :
    Malformed (bytes "12x:hello,") ∧ Malformed (bytes ":,") ∧
    Malformed (bytes "65537:hello,") ∧ Malformed (bytes "5:hel") ∧
    Malformed (bytes "5:hello") ∧ Malformed (bytes "5:hello;") ∧
    (read_netstring ⟨bytes "5:hello;", [.part 1], [], []⟩).1 = none :=
  have h6 : Malformed (bytes "5:hello;") :=
    Malformed.no_comma (bytes "5") (bytes "hello") (bytes ";") (by decide) (by decide)
      (by decide)
  ⟨Malformed.bad_length_byte (bytes "12") 120 (bytes ":hello,") (by decide) (by decide)
      (by decide),
   Malformed.empty_length (bytes ","),
   Malformed.too_large (bytes "65537") (bytes "hello,") (by decide) (by decide),
   Malformed.short_payload (bytes "5") (bytes "hel") (by decide) (by decide),
   Malformed.no_comma (bytes "5") (bytes "hello") [] (by decide) (by decide) (by decide),
   h6,
   read_netstring_rejects ⟨bytes "5:hello;", [.part 1], [], []⟩ h6⟩

/-! ## Header lookup -/

theorem cstr_cons (b : Nat) (s : List Nat) :
    cstr (b :: s) = if b = 0 then [] else b :: cstr s := by
  by_cases h : b = 0 <;> simp [cstr, List.takeWhile, h]

theorem cstr_length_le (s : List Nat) : (cstr s).length ≤ s.length := by
  induction s with
  | nil => simp [cstr]
  | cons b s ih =>
    rw [cstr_cons]
    by_cases h : b = 0
    · simp [h]
    · simp [h]; exact ih

theorem take_cstr_length (s : List Nat) : s.take (cstr s).length = cstr s := by
  induction s with
  | nil => simp [cstr]
  | cons b s ih =>
    rw [cstr_cons]
    by_cases h : b = 0
    · simp [h]
    · simp [h, ih]

/-- A non-empty block starts with its first string; the other strings follow its NUL. -/
theorem fields_unfold : ∀ (s : List Nat), s ≠ [] →
    fields s = cstr s :: fields (s.drop ((cstr s).length + 1)) := by
  intro s
  induction s with
  | nil => intro h; exact absurd rfl h
  | cons b s ih =>
    intro _
    rw [cstr_cons]
    by_cases hb : b = 0
    · simp [fields, hb]
    · simp only [fields, hb, if_false, List.length_cons, List.drop_succ_cons]
      cases s with
      | nil => simp [fields, cstr]
      | cons b' s' =>
        rw [ih (by simp)]

/-- The loop of `kv_get`, started at offset `i` with enough fuel, computes the specified lookup
on the block from `i` on. -/
theorem kv_get_loop_spec (hdrs key : List Nat) : ∀ (fuel i : Nat),
    hdrs.length - i < fuel →
    kv_get_loop hdrs key fuel i = kv_spec (hdrs.drop i) (cstr key) := by
  intro fuel
  induction fuel with
  | zero => intro i h; omega
  | succ fuel ih =>
    intro i h
    unfold kv_get_loop
    by_cases hi : i < hdrs.length
    · simp only [hi, if_true]
      have hs : hdrs.drop i ≠ [] := by
        intro h0
        have := congrArg List.length h0
        simp at this; omega
      have hks : strnlen (hdrs.drop i) (hdrs.length - i) = (cstr (hdrs.drop i)).length := by
        unfold strnlen
        rw [List.take_of_length_le (by simp)]
      rw [hks]
      have hkle := cstr_length_le (hdrs.drop i)
      simp only [List.length_drop] at hkle
      have hf1 : fields (hdrs.drop i) = cstr (hdrs.drop i) ::
          fields (hdrs.drop (i + (cstr (hdrs.drop i)).length + 1)) := by
        rw [fields_unfold _ hs, List.drop_drop]
        congr 2
      by_cases hi1 : i + (cstr (hdrs.drop i)).length + 1 ≥ hdrs.length
      · simp only [hi1, if_true]
        unfold kv_spec
        rw [hf1, List.drop_eq_nil_of_le hi1]
        simp [fields, pairs, lookup]
      · simp only [hi1, if_false]
        have hs1 : hdrs.drop (i + (cstr (hdrs.drop i)).length + 1) ≠ [] := by
          intro h0
          have := congrArg List.length h0
          simp at this; omega
        have hvs : strnlen (hdrs.drop (i + (cstr (hdrs.drop i)).length + 1))
            (hdrs.length - (i + (cstr (hdrs.drop i)).length + 1))
            = (cstr (hdrs.drop (i + (cstr (hdrs.drop i)).length + 1))).length := by
          unfold strnlen
          rw [List.take_of_length_le (by simp)]
        rw [hvs]
        have hf2 := fields_unfold _ hs1
        rw [List.drop_drop] at hf2
        have hrec := ih (i + (cstr (hdrs.drop i)).length + 1 +
          (cstr (hdrs.drop (i + (cstr (hdrs.drop i)).length + 1))).length + 1) (by omega)
        have hkey : (strlen key = strlen key) ∧ key.take (strlen key) = cstr key :=
          ⟨rfl, take_cstr_length key⟩
        have hcmp : ((cstr (hdrs.drop i)).length = strlen key ∧
            (hdrs.drop i).take (strlen key) = key.take (strlen key))
            ↔ cstr (hdrs.drop i) = cstr key := by
          constructor
          · rintro ⟨h1, h2⟩
            have h3 : (hdrs.drop i).take (strlen key) = cstr (hdrs.drop i) := by
              rw [← h1]; exact take_cstr_length _
            rw [← h3, h2, hkey.2]
          · intro h1
            refine ⟨by rw [h1]; rfl, ?_⟩
            rw [hkey.2, ← h1]
            unfold strlen
            rw [← h1]
            exact take_cstr_length _
        unfold kv_spec
        rw [hf1, hf2]
        simp only [pairs, lookup]
        by_cases hc : cstr (hdrs.drop i) = cstr key
        · rw [if_pos (hcmp.2 hc), if_pos hc]
        · rw [if_neg (fun h => hc (hcmp.1 h)), if_neg hc, hrec]
          unfold kv_spec
          congr 3
    · simp only [hi, if_false]
      unfold kv_spec
      rw [List.drop_eq_nil_of_le (by omega)]
      simp [fields, pairs, lookup]

theorem cstr_of_nul_free (k : List Nat) (h : 0 ∉ k) : cstr k = k := by
  unfold cstr
  apply List.takeWhile_eq_self_iff.2
  intro x hx
  simp only [ne_eq, decide_eq_true_eq]
  intro hx0
  exact h (hx0 ▸ hx)

theorem cstr_append_nul (k rest : List Nat) (h : 0 ∉ k) : cstr (k ++ 0 :: rest) = k := by
  induction k with
  | nil => simp [cstr_cons]
  | cons b k ih =>
    have hb : b ≠ 0 := fun hb => h (by simp [hb])
    have hk : 0 ∉ k := fun hk => h (by simp [hk])
    simp [cstr_cons, hb, ih hk]

theorem fields_append_nul (k rest : List Nat) (h : 0 ∉ k) :
    fields (k ++ 0 :: rest) = k :: fields rest := by
  rw [fields_unfold _ (by simp), cstr_append_nul k rest h]
  have : (k ++ 0 :: rest).drop (k.length + 1) = rest := by
    rw [show k ++ 0 :: rest = (k ++ [0]) ++ rest by simp]
    exact List.drop_left' (by simp)
  rw [this]

theorem pairs_fields_kv_block : ∀ (l : List (List Nat × List Nat)) (tail : List Nat),
    (∀ p ∈ l, 0 ∉ p.1 ∧ 0 ∉ p.2) →
    pairs (fields (kv_block l ++ tail)) = l ++ pairs (fields tail) := by
  intro l
  induction l with
  | nil => intro tail _; simp [kv_block]
  | cons p l ih =>
    intro tail h
    obtain ⟨k, v⟩ := p
    have hp := h (k, v) (by simp)
    have e : kv_block ((k, v) :: l) ++ tail = k ++ 0 :: (v ++ 0 :: (kv_block l ++ tail)) := by
      simp [kv_block]
    rw [e, fields_append_nul _ _ hp.1, fields_append_nul _ _ hp.2]
    simp only [pairs, List.cons_append, List.cons.injEq, true_and]
    exact ih tail (fun q hq => h q (by simp [hq]))

/-- C5: `kv_get` returns what the specified lookup returns: the header block is split at its
NULs into strings starting at offset 0, these are paired as (key, value), and the value of
the first pair whose key equals `key` is returned, or not-found when there is none.  For a
block that serialises the pairs `l`, followed or not by a key `t` without value, this is the
first value under `key` in `l`, whether or not `key` occurs among the values or as `t`. -/
theorem kv_get_refines (hdrs key t : List Nat) (l : List (List Nat × List Nat))
    (hkey : 0 ∉ key) (hl : ∀ p ∈ l, 0 ∉ p.1 ∧ 0 ∉ p.2) (ht : 0 ∉ t) :
    kv_get hdrs key = kv_spec hdrs key ∧
    kv_get (kv_block l) key = lookup key l ∧
    kv_get (kv_block l ++ t ++ [0]) key = lookup key l := by
  have hgen : ∀ h : List Nat, kv_get h key = kv_spec h key := by
    intro h
    have := kv_get_loop_spec h key (h.length + 1) 0 (by omega)
    rw [cstr_of_nul_free key hkey] at this
    simpa [kv_get] using this
  refine ⟨hgen hdrs, ?_, ?_⟩
  · rw [hgen]
    unfold kv_spec
    have := pairs_fields_kv_block l [] hl
    simp only [List.append_nil] at this
    rw [this]
    simp [fields, pairs]
  · rw [hgen]
    unfold kv_spec
    have := pairs_fields_kv_block l (t ++ [0]) hl
    rw [← List.append_assoc] at this
    rw [this, show t ++ [0] = t ++ 0 :: [] by rfl, fields_append_nul t [] ht]
    simp [fields, pairs]

theorem kv_get_refines_witness :
    (0 ∉ bytes "SCGI") ∧
    (∀ p ∈ [(bytes "CONTENT_LENGTH", bytes "SCGI"), (bytes "X", bytes "1")],
      0 ∉ p.1 ∧ 0 ∉ p.2) ∧
    (0 ∉ bytes "SCGI") ∧
    kv_get (bytes "A\x00SCGI\x00SCGI") (bytes "SCGI") = kv_spec (bytes "A\x00SCGI\x00SCGI") (bytes "SCGI") ∧
    kv_get (kv_block [(bytes "CONTENT_LENGTH", bytes "SCGI"), (bytes "X", bytes "1")])
      (bytes "SCGI") = lookup (bytes "SCGI") [(bytes "CONTENT_LENGTH", bytes "SCGI"), (bytes "X", bytes "1")] ∧
    kv_get (kv_block [(bytes "CONTENT_LENGTH", bytes "SCGI"), (bytes "X", bytes "1")]
      ++ bytes "SCGI" ++ [0]) (bytes "SCGI") =
      lookup (bytes "SCGI") [(bytes "CONTENT_LENGTH", bytes "SCGI"), (bytes "X", bytes "1")] :=
  ⟨by decide, by decide, by decide,
    kv_get_refines (bytes "A\x00SCGI\x00SCGI") (bytes "SCGI") (bytes "SCGI")
      [(bytes "CONTENT_LENGTH", bytes "SCGI"), (bytes "X", bytes "1")]
      (by decide) (by decide) (by decide)⟩

/-! ## Writing -/

theorem accepted_append (l1 l2 : List IoRes) : accepted (l1 ++ l2) = accepted l1 ++ accepted l2 := by
  induction l1 with
  | nil => rfl
  | cons x l ih =>
    cases x with
    | ok bs => simp [accepted, ih]
    | err e => simp [accepted, ih]

/-- What one `write` call can do: accept a prefix of what is pending, or fail. -/
theorem sys_write_cases (es : List IoEvt) (pending : List Nat) :
    (∃ a es', sys_write es pending = (.ok (pending.take a), es') ∧ a ≤ pending.length ∧
        es' <:+ es ∧ (es'.length < es.length ∨ (es = [] ∧ a = pending.length))) ∨
    (∃ e es', sys_write es pending = (.err e, es') ∧ es'.length < es.length ∧ es' <:+ es ∧
        (e = .EOTHER → ¬ NoFail es)) := by
  cases es with
  | nil =>
    left
    exact ⟨pending.length, [], by simp [sys_write], Nat.le_refl _, List.suffix_refl _,
      Or.inr ⟨rfl, rfl⟩⟩
  | cons e es =>
    have hsuf : es <:+ e :: es := List.suffix_cons e es
    cases e with
    | part j =>
      left
      refine ⟨min (j + 1) pending.length, es, ?_, Nat.min_le_right _ _, hsuf, Or.inl (by simp)⟩
      simp only [sys_write, take_min_length]
    | eintr => right; exact ⟨.EINTR, es, rfl, by simp, hsuf, by simp⟩
    | eagain => right; exact ⟨.EAGAIN, es, rfl, by simp, hsuf, by simp⟩
    | fail =>
      right
      exact ⟨.EOTHER, es, rfl, by simp, hsuf, fun _ h => h .fail (by simp) rfl⟩

/-- What `write_all` does under any schedule: either every remaining byte is accepted, in order,
and it returns `n`, or one `write` fails hard after a prefix was accepted and it returns -1. -/
theorem write_all_loop_spec (buf : List Nat) : ∀ (fuel : Nat) (es : List IoEvt) (off : Nat)
    (log : List IoRes), es.length + (buf.length - off) + 1 ≤ fuel → off ≤ buf.length →
    ∃ (r : Int) (es' : List IoEvt) (log' : List IoRes),
      write_all_loop buf fuel es off log = (r, es', log ++ log') ∧ es' <:+ es ∧
      ((r = (buf.length : Int) ∧ accepted log' = buf.drop off ∧ hardErrs log' = 0) ∨
       (r = -1 ∧ hardErrs log' = 1 ∧ ¬ NoFail es ∧ accepted log' <+: buf.drop off)) := by
  intro fuel
  induction fuel with
  | zero => intro es off log h; omega
  | succ fuel ih =>
    intro es off log h hoff
    unfold write_all_loop
    by_cases hlt : off < buf.length
    · simp only [hlt, if_true]
      rcases sys_write_cases es (buf.drop off) with
        ⟨a, es1, hs, hal, hsuf, hmeas⟩ | ⟨e, es1, hs, hlen, hsuf, hfail⟩
      · rw [hs]
        simp only
        have hlen_take : ((buf.drop off).take a).length = a := by
          rw [List.length_take]; exact Nat.min_eq_left hal
        rw [hlen_take]
        simp only [List.length_drop] at hal
        have hfuel : es1.length + (buf.length - (off + a)) + 1 ≤ fuel := by
          rcases hmeas with hm | ⟨hm, ha⟩
          · omega
          · subst hm
            have : es1.length = 0 := by
              have := hsuf.length_le; simpa using this
            simp only [List.length_drop] at ha
            simp only [List.length_nil] at h
            omega
        obtain ⟨r, es2, log2, hres, hsuf2, hcase⟩ :=
          ih es1 (off + a) (log ++ [.ok ((buf.drop off).take a)]) hfuel (by omega)
        refine ⟨r, es2, .ok ((buf.drop off).take a) :: log2, ?_, hsuf2.trans hsuf, ?_⟩
        · rw [hres]; simp
        · have hsplit : buf.drop off = (buf.drop off).take a ++ buf.drop (off + a) := by
            rw [← List.drop_drop, List.take_append_drop]
          rcases hcase with ⟨h1, h2, h3⟩ | ⟨h1, h2, h3, h4⟩
          · left
            refine ⟨h1, ?_, ?_⟩
            · simp only [accepted, h2]; exact hsplit.symm
            · simpa [hardErrs] using h3
          · right
            refine ⟨h1, by simpa [hardErrs] using h2, fun hno => h3 (noFail_suffix hno hsuf), ?_⟩
            simp only [accepted]
            have hpre := (List.prefix_append_right_inj ((buf.drop off).take a)).2 h4
            rw [← hsplit] at hpre
            exact hpre
      · rw [hs]
        cases e with
        | EINTR =>
          simp only
          obtain ⟨r, es2, log2, hres, hsuf2, hcase⟩ :=
            ih es1 off (log ++ [.err .EINTR]) (by omega) hoff
          refine ⟨r, es2, .err .EINTR :: log2, by rw [hres]; simp, hsuf2.trans hsuf, ?_⟩
          rcases hcase with ⟨h1, h2, h3⟩ | ⟨h1, h2, h3, h4⟩
          · left; exact ⟨h1, by simpa [accepted] using h2, by simpa [hardErrs] using h3⟩
          · right
            exact ⟨h1, by simpa [hardErrs] using h2, fun hno => h3 (noFail_suffix hno hsuf),
              by simpa [accepted] using h4⟩
        | EAGAIN =>
          simp only
          obtain ⟨r, es2, log2, hres, hsuf2, hcase⟩ :=
            ih es1 off (log ++ [.err .EAGAIN]) (by omega) hoff
          refine ⟨r, es2, .err .EAGAIN :: log2, by rw [hres]; simp, hsuf2.trans hsuf, ?_⟩
          rcases hcase with ⟨h1, h2, h3⟩ | ⟨h1, h2, h3, h4⟩
          · left; exact ⟨h1, by simpa [accepted] using h2, by simpa [hardErrs] using h3⟩
          · right
            exact ⟨h1, by simpa [hardErrs] using h2, fun hno => h3 (noFail_suffix hno hsuf),
              by simpa [accepted] using h4⟩
        | EOTHER =>
          simp only
          refine ⟨-1, es1, [.err .EOTHER], rfl, hsuf, Or.inr ⟨rfl, by simp [hardErrs], hfail rfl, ?_⟩⟩
          simp [accepted]
    · simp only [hlt, if_false]
      have : off = buf.length := by omega
      refine ⟨off, es, [], by simp, List.suffix_refl _, Or.inl ⟨by rw [this], ?_, by simp [hardErrs]⟩⟩
      simp [accepted, this]

theorem write_all_spec (es : List IoEvt) (buf : List Nat) :
    ∃ (r : Int) (es' : List IoEvt) (log : List IoRes),
      write_all es buf = (r, es', log) ∧ es' <:+ es ∧
      ((r = (buf.length : Int) ∧ accepted log = buf ∧ hardErrs log = 0) ∨
       (r = -1 ∧ hardErrs log = 1 ∧ ¬ NoFail es ∧ accepted log <+: buf)) := by
  obtain ⟨r, es', log, h1, h2, h3⟩ :=
    write_all_loop_spec buf (es.length + buf.length + 1) es 0 [] (by simp) (by omega)
  exact ⟨r, es', log, by simpa [write_all] using h1, h2, by simpa using h3⟩

/-- When no write to the client fails, `write_all` hands the whole buffer to the client. -/
theorem client_write_all_ok (c : Client) (buf : List Nat) (hno : NoFail c.wr) :
    ∃ wr', wr' <:+ c.wr ∧
      client_write_all c buf = ((buf.length : Int), ⟨c.inp, c.rd, wr', c.out ++ buf⟩) := by
  obtain ⟨r, es', log, h1, h2, h3⟩ := write_all_spec c.wr buf
  rcases h3 with ⟨h3, h4, _⟩ | ⟨_, _, h5, _⟩
  · exact ⟨es', h2, by simp [client_write_all, h1, h3, h4]⟩
  · exact absurd hno h5

theorem fail_with_ok (c : Client) (t : Target) (msg : List Nat) (hno : NoFail c.wr) :
    ∃ wr', wr' <:+ c.wr ∧ fail_with c t msg = (-1, ⟨⟨c.inp, c.rd, wr', c.out ++ msg⟩, t⟩) := by
  obtain ⟨wr', h1, h2⟩ := client_write_all_ok c msg hno
  exact ⟨wr', h1, by simp [fail_with, h2]⟩

/-! ## Validation of a request -/

/-- Parsing the header netstring neither writes to the client nor changes its write schedule. -/
theorem read_netstring_frame (c : Client) :
    (read_netstring c).2.wr = c.wr ∧ (read_netstring c).2.out = c.out := by
  obtain ⟨r, c1, hres, hwr, hout, _⟩ := read_len_loop_cases 31 c []
  unfold read_netstring
  rw [hres]
  cases r with
  | none => exact ⟨hwr, hout⟩
  | some lb =>
    simp only
    split
    · exact ⟨hwr, hout⟩
    · split
      · exact ⟨hwr, hout⟩
      · obtain ⟨r1, m1, rd1, hn1, _⟩ := read_n_spec c1 (strtol lb).toNat
        rw [hn1]
        simp only
        split
        · exact ⟨hwr, hout⟩
        · obtain ⟨r2, m2, rd2, hn2, _⟩ := read_n_spec ⟨c1.inp.drop m1, rd1, c1.wr, c1.out⟩ 1
          rw [hn2]
          simp only
          split <;> exact ⟨hwr, hout⟩

/-- Step 2 of `handle_scgi_request` once both keys are found and `SCGI` is `"1"`: the body
length is what `strtol` makes of the `CONTENT_LENGTH` value. -/
theorem handle_validated (w : World) (hdrs v : List Nat) (c1 : Client)
    (hparse : read_netstring w.cl = (some hdrs, c1))
    (hscgi : kv_get hdrs (bytes "SCGI") = some (bytes "1"))
    (hclen : kv_get hdrs (bytes "CONTENT_LENGTH") = some v) :
    handle_scgi_request w =
      if strtol v < 0 ∨ strtol v > (MAX_BODY : Int) then fail_with c1 w.tg msg_413
      else serve_body ⟨c1, w.tg⟩ (strtol v) := by
  unfold handle_scgi_request
  rw [hparse]
  simp only [hscgi, hclen]
  simp

/-- Step 2 of `handle_scgi_request` when a key is missing or `SCGI` is not `"1"`. -/
theorem handle_invalid (w : World) (hdrs : List Nat) (c1 : Client)
    (hparse : read_netstring w.cl = (some hdrs, c1))
    (hbad : kv_get hdrs (bytes "SCGI") = none ∨ kv_get hdrs (bytes "CONTENT_LENGTH") = none ∨
      ∃ s, kv_get hdrs (bytes "SCGI") = some s ∧ s ≠ bytes "1") :
    handle_scgi_request w = fail_with c1 w.tg msg_400_missing := by
  unfold handle_scgi_request
  rw [hparse]
  simp only
  rcases hbad with h | h | ⟨s, h, hs⟩
  · rw [h]
  · rw [h]
    cases kv_get hdrs (bytes "SCGI") <;> rfl
  · rw [h]
    cases kv_get hdrs (bytes "CONTENT_LENGTH") with
    | none => rfl
    | some v => simp [hs]

/-- C7: a request that is a protocol error (the header netstring does not parse, `SCGI` is
absent or not "1", `CONTENT_LENGTH` is absent, or, validation passed, fewer body bytes than
`CONTENT_LENGTH` arrive before the end of the stream) is answered, the client accepting what is
written to it, with `Status: 400 Bad Request`, the plain-text header and a non-empty
diagnostic; the handler returns -1 and the target side is left exactly as it was. -/
theorem protocol_error_400 (w : World) (herr : ProtocolError w) (hwr : NoFail w.cl.wr) :
    ∃ (diag : List Nat) (c' : Client), diag ≠ [] ∧
      handle_scgi_request w = (-1, ⟨c', w.tg⟩) ∧
      c'.out = w.cl.out ++ head_400 ++ diag := by
  have hframe := read_netstring_frame w.cl
  have hmissing : ∀ (hdrs : List Nat) (c1 : Client),
      read_netstring w.cl = (some hdrs, c1) →
      handle_scgi_request w = fail_with c1 w.tg msg_400_missing →
      ∃ (diag : List Nat) (c' : Client), diag ≠ [] ∧
        handle_scgi_request w = (-1, ⟨c', w.tg⟩) ∧
        c'.out = w.cl.out ++ head_400 ++ diag := by
    intro hdrs c1 hparse hh
    rw [hparse] at hframe
    simp only at hframe
    obtain ⟨wr', _, h2⟩ := fail_with_ok c1 w.tg msg_400_missing (by rw [hframe.1]; exact hwr)
    refine ⟨bytes "missing SCGI or CONTENT_LENGTH\n",
      ⟨c1.inp, c1.rd, wr', c1.out ++ msg_400_missing⟩, by decide, hh.trans h2, ?_⟩
    simp only [hframe.2, List.append_assoc]
    rfl
  cases herr with
  | bad_netstring c1 hparse =>
    rw [hparse] at hframe
    simp only at hframe
    obtain ⟨wr', _, h2⟩ := fail_with_ok c1 w.tg msg_400_netstring (by rw [hframe.1]; exact hwr)
    refine ⟨bytes "invalid SCGI netstring\n",
      ⟨c1.inp, c1.rd, wr', c1.out ++ msg_400_netstring⟩, by decide, ?_, ?_⟩
    · unfold handle_scgi_request
      rw [hparse]
      exact h2
    · simp only [hframe.2, List.append_assoc]
      rfl
  | no_scgi hdrs c1 hparse h =>
    exact hmissing hdrs c1 hparse (handle_invalid w hdrs c1 hparse (Or.inl h))
  | bad_scgi hdrs s c1 hparse h hs =>
    exact hmissing hdrs c1 hparse (handle_invalid w hdrs c1 hparse (Or.inr (Or.inr ⟨s, h, hs⟩)))
  | no_content_length hdrs c1 hparse h =>
    exact hmissing hdrs c1 hparse (handle_invalid w hdrs c1 hparse (Or.inr (Or.inl h)))
  | short_body hdrs v c1 hparse hscgi hclen h0 hmax hshort =>
    rw [hparse] at hframe
    simp only at hframe
    have hv := handle_validated w hdrs v c1 hparse hscgi hclen
    rw [if_neg (by omega)] at hv
    have hpos : strtol v > 0 := by omega
    have hlt : c1.inp.length < (strtol v).toNat := by omega
    obtain ⟨hne, hwr1, hout1⟩ := read_n_short c1 (strtol v).toNat hlt
    have hcast : (((strtol v).toNat : Nat) : Int) = strtol v := Int.toNat_of_nonneg h0
    rw [hcast] at hne
    obtain ⟨wr', _, h2⟩ := fail_with_ok (read_n c1 (strtol v).toNat).2.2 w.tg msg_400_short
      (by rw [hwr1, hframe.1]; exact hwr)
    refine ⟨bytes "short body\n",
      ⟨(read_n c1 (strtol v).toNat).2.2.inp, (read_n c1 (strtol v).toNat).2.2.rd, wr',
        (read_n c1 (strtol v).toNat).2.2.out ++ msg_400_short⟩, by decide, ?_, ?_⟩
    · rw [hv]
      unfold serve_body
      simp only [hpos, if_true]
      rw [if_pos hne]
      exact h2
    · simp only [hout1, hframe.2, List.append_assoc]
      rfl

theorem protocol_error_400_witness :
    ProtocolError (sample_world (bytes "10")) ∧ NoFail (sample_world (bytes "10")).cl.wr ∧
    ∃ (diag : List Nat) (c' : Client), diag ≠ [] ∧
      handle_scgi_request (sample_world (bytes "10")) = (-1, ⟨c', (sample_world (bytes "10")).tg⟩) ∧
      c'.out = (sample_world (bytes "10")).cl.out ++ head_400 ++ diag :=
  have h : ProtocolError (sample_world (bytes "10")) :=
    ProtocolError.short_body (sample_hdrs (bytes "10")) (bytes "10") sample_client
      (by decide) (by decide) (by decide) (by decide) (by decide) (by decide)
  ⟨h, by decide, protocol_error_400 (sample_world (bytes "10")) h (by decide)⟩

theorem run_trace_append (o : Option Int) (a b : List TEvt) :
    run_trace o (a ++ b) = (run_trace o a).bind (fun o1 => run_trace o1 b) := by
  induction a generalizing o with
  | nil => rfl
  | cons e a ih =>
    simp only [List.cons_append, run_trace]
    cases step_open o e with
    | none => rfl
    | some o1 => exact ih o1

theorem run_trace_writes (h : Int) (log : List IoRes) :
    run_trace (some h) (log.map (TEvt.write h)) = some (some h) := by
  induction log with
  | nil => rfl
  | cons x l ih => simp [run_trace, step_open, ih]

theorem handle_of_neg (t : Target) (h : t.target_fd = -1) : handle_of t = none := by
  simp [handle_of, h]

theorem handle_of_pos (t : Target) (h : 0 ≤ t.target_fd) : handle_of t = some t.target_fd := by
  simp [handle_of, h]

theorem close_target_inv (t : Target) (h : ConnInv t) :
    ConnInv (close_target t) ∧ (close_target t).target_fd = -1 := by
  unfold close_target
  by_cases hfd : t.target_fd ≥ 0
  · simp only [hfd, if_true]
    refine ⟨⟨Or.inl (by simp), ?_⟩, by simp⟩
    rw [run_trace_append, h.2, handle_of_pos t hfd]
    simp [run_trace, step_open, handle_of]
  · simp only [hfd, if_false]
    rcases h.1 with h1 | h1
    · exact ⟨h, h1⟩
    · exact absurd h1 hfd

/-- After `ensure_target` the invariant holds again, and the call returns 0 with an open
handle or -1 with none. -/
theorem ensure_target_inv (t : Target) (h : ConnInv t) :
    ConnInv (ensure_target t).2 ∧
    (((ensure_target t).1 = 0 ∧ 0 ≤ (ensure_target t).2.target_fd) ∨
     ((ensure_target t).1 = -1 ∧ (ensure_target t).2.target_fd = -1)) := by
  unfold ensure_target
  by_cases hfd : t.target_fd ≥ 0
  · rw [if_pos hfd]
    exact ⟨h, Or.inl ⟨rfl, hfd⟩⟩
  · rw [if_neg hfd]
    have hneg : t.target_fd = -1 := by
      rcases h.1 with h1 | h1
      · exact h1
      · exact absurd h1 hfd
    have hrun := h.2
    rw [handle_of_neg t hneg] at hrun
    unfold connect_local
    cases hc : t.conn with
    | nil =>
      simp only
      refine ⟨⟨Or.inl (by simp), ?_⟩, Or.inr ⟨by simp, by simp⟩⟩
      simp [handle_of, hrun]
    | cons e cs =>
      cases e with
      | nosock =>
        simp only
        refine ⟨⟨Or.inl (by simp), ?_⟩, Or.inr ⟨by simp, by simp⟩⟩
        simp [handle_of, hrun]
      | refused fd =>
        simp only
        refine ⟨⟨Or.inl (by simp), ?_⟩, Or.inr ⟨by simp, by simp⟩⟩
        rw [run_trace_append, hrun]
        simp [run_trace, step_open, handle_of]
      | ok fd =>
        simp only
        have hnn : (0 : Int) ≤ (fd : Int) := Int.ofNat_nonneg fd
        refine ⟨⟨Or.inr hnn, ?_⟩, Or.inl ⟨by simp [hnn], hnn⟩⟩
        rw [run_trace_append, hrun]
        simp [run_trace, step_open, handle_of, hnn]

theorem target_eta (t : Target) :
    (⟨t.target_fd, t.conn, t.wr, t.rc, t.trace⟩ : Target) = t := by
  cases t; rfl

/-- What `ensure_target` does: nothing on an open handle, else one connection attempt. -/
theorem ensure_target_spec (t : Target) :
    ∃ (r fd : Int) (conn' : List ConnEvt) (evs : List TEvt),
      ensure_target t = (r, ⟨fd, conn', t.wr, t.rc, t.trace ++ evs⟩) ∧
      ((r = 0 ∧ Opened t.target_fd fd evs) ∨ (r = -1 ∧ fd = -1 ∧ NotOpened t.target_fd evs)) := by
  unfold ensure_target
  by_cases hfd : t.target_fd ≥ 0
  · rw [if_pos hfd]
    exact ⟨0, t.target_fd, t.conn, [], by simp [target_eta], Or.inl ⟨rfl, Or.inl ⟨hfd, rfl, rfl⟩⟩⟩
  · rw [if_neg hfd]
    have hlt : t.target_fd < 0 := by omega
    unfold connect_local
    cases hc : t.conn with
    | nil =>
      exact ⟨-1, -1, [], [], by simp [hc], Or.inr ⟨rfl, rfl, hlt, Or.inl rfl⟩⟩
    | cons e cs =>
      cases e with
      | nosock => exact ⟨-1, -1, cs, [], by simp, Or.inr ⟨rfl, rfl, hlt, Or.inl rfl⟩⟩
      | refused fd =>
        exact ⟨-1, -1, cs, [.socket fd, .connect fd false, .close fd], by simp,
          Or.inr ⟨rfl, rfl, hlt, Or.inr ⟨fd, rfl⟩⟩⟩
      | ok fd =>
        have hnn : (0 : Int) ≤ (fd : Int) := Int.ofNat_nonneg fd
        exact ⟨0, fd, cs, [.socket fd, .connect fd true], by simp [hnn],
          Or.inl ⟨rfl, Or.inr ⟨hlt, hnn, rfl⟩⟩⟩

/-- What `write_all` on the target does: it sends the whole buffer or fails after a prefix. -/
theorem target_write_all_spec (t : Target) (buf : List Nat) :
    ∃ (r : Int) (wr' : List IoEvt) (evs : List TEvt),
      target_write_all t buf = (r, ⟨t.target_fd, t.conn, wr', t.rc, t.trace ++ evs⟩) ∧
      wr' <:+ t.wr ∧
      ((r = (buf.length : Int) ∧ Sent t.target_fd buf evs) ∨
       (r = -1 ∧ SendFailed t.target_fd buf evs ∧ ¬ NoFail t.wr)) := by
  obtain ⟨r, es', log, h1, h2, h3⟩ := write_all_spec t.wr buf
  refine ⟨r, es', log.map (TEvt.write t.target_fd), by simp [target_write_all, h1], h2, ?_⟩
  rcases h3 with ⟨h3, h4, h5⟩ | ⟨h3, h4, h5, h6⟩
  · exact Or.inl ⟨h3, log, rfl, h4, h5⟩
  · exact Or.inr ⟨h3, ⟨log, rfl, h6, h4⟩, h5⟩

theorem opened_nonneg {fd0 fd : Int} {evs : List TEvt} (h : Opened fd0 fd evs) : 0 ≤ fd := by
  rcases h with ⟨h1, h2, _⟩ | ⟨_, h2, _⟩
  · rw [h2]; exact h1
  · exact h2

/-- Every call of `forward_body_to_target` is one of the five runs. -/
theorem forward_body_cases (t : Target) (body : List Nat) :
    ∃ (r fd' : Int) (conn' : List ConnEvt) (wr' : List IoEvt) (evs : List TEvt),
      forward_body_to_target t body = (r, ⟨fd', conn', wr', t.rc, t.trace ++ evs⟩) ∧
      wr' <:+ t.wr ∧ ForwardRun t.target_fd body r fd' evs := by
  unfold forward_body_to_target
  obtain ⟨e, fd, conn1, c1, he, hcase⟩ := ensure_target_spec t
  rw [he]
  rcases hcase with ⟨rfl, hop⟩ | ⟨rfl, rfl, hnop⟩
  · simp only [lt_irrefl, if_false]
    obtain ⟨w, wr1, s1, hw, hsuf1, hwcase⟩ :=
      target_write_all_spec ⟨fd, conn1, t.wr, t.rc, t.trace ++ c1⟩ body
    rw [hw]
    simp only
    rcases hwcase with ⟨rfl, hsent⟩ | ⟨rfl, hfail, _⟩
    · rw [if_neg (by omega)]
      exact ⟨0, fd, conn1, wr1, c1 ++ s1, by simp, hsuf1, .first_send fd c1 s1 hop hsent⟩
    · rw [if_pos (by decide)]
      have hfd : 0 ≤ fd := opened_nonneg hop
      have hclose : close_target ⟨fd, conn1, wr1, t.rc, t.trace ++ c1 ++ s1⟩
          = ⟨-1, conn1, wr1, t.rc, t.trace ++ c1 ++ s1 ++ [.close fd]⟩ := by
        simp [close_target, hfd]
      simp only [hclose]
      obtain ⟨e2, fd2, conn2, c2, he2, hcase2⟩ :=
        ensure_target_spec ⟨-1, conn1, wr1, t.rc, t.trace ++ c1 ++ s1 ++ [.close fd]⟩
      rw [he2]
      simp only
      rcases hcase2 with ⟨rfl, hop2⟩ | ⟨rfl, rfl, hnop2⟩
      · simp only [lt_irrefl, if_false]
        obtain ⟨w2, wr2, s2, hw2, hsuf2, hwcase2⟩ :=
          target_write_all_spec ⟨fd2, conn2, wr1, t.rc, t.trace ++ c1 ++ s1 ++ [.close fd] ++ c2⟩
            body
        rw [hw2]
        simp only
        rcases hwcase2 with ⟨rfl, hsent2⟩ | ⟨rfl, hfail2, _⟩
        · rw [if_neg (by omega)]
          exact ⟨0, fd2, conn2, wr2, c1 ++ s1 ++ [.close fd] ++ c2 ++ s2, by simp,
            hsuf2.trans hsuf1, .resend fd fd2 c1 s1 c2 s2 hop hfail hop2 hsent2⟩
        · rw [if_pos (by decide)]
          have hfd2 : 0 ≤ fd2 := opened_nonneg hop2
          refine ⟨-1, -1, conn2, wr2, c1 ++ s1 ++ [.close fd] ++ c2 ++ s2 ++ [.close fd2], ?_,
            hsuf2.trans hsuf1, .resend_failed fd fd2 c1 s1 c2 s2 hop hfail hop2 hfail2⟩
          simp [close_target, hfd2]
      · rw [if_pos (by decide)]
        exact ⟨-1, -1, conn2, wr1, c1 ++ s1 ++ [.close fd] ++ c2, by simp, hsuf1,
          .no_reconnect fd c1 s1 c2 hop hfail hnop2⟩
  · simp only
    rw [if_pos (by decide)]
    exact ⟨-1, -1, conn1, t.wr, c1, rfl, List.suffix_refl _, .no_connection c1 hnop⟩

theorem target_write_all_inv (t : Target) (buf : List Nat) (h : ConnInv t)
    (hfd : 0 ≤ t.target_fd) :
    ConnInv (target_write_all t buf).2 ∧
    (target_write_all t buf).2.target_fd = t.target_fd := by
  obtain ⟨r, wr', evs, hw, _, hcase⟩ := target_write_all_spec t buf
  rw [hw]
  refine ⟨⟨h.1, ?_⟩, rfl⟩
  have hrun := h.2
  rw [handle_of_pos t hfd] at hrun
  have hevs : run_trace (some t.target_fd) evs = some (some t.target_fd) := by
    rcases hcase with ⟨_, log, hl, _⟩ | ⟨_, ⟨log, hl, _⟩, _⟩
    · rw [hl]; exact run_trace_writes _ _
    · rw [hl]; exact run_trace_writes _ _
  simp only [run_trace_append, hrun, Option.bind, hevs, handle_of, hfd, if_true]

/-- What one `recv` call does: it consumes a scheduled outcome, if any, and is logged. -/
theorem sys_recv_spec (t : Target) (n : Nat) :
    ∃ (res : IoRes) (rc' : List RecvEvt),
      sys_recv t n = (res, ⟨t.target_fd, t.conn, t.wr, rc', t.trace ++ [.recv t.target_fd res]⟩) ∧
      (rc'.length < t.rc.length ∨ (t.rc = [] ∧ rc' = [] ∧ res = .err .EAGAIN)) ∧
      (∀ bs, res = .ok bs → bs.length ≤ n) := by
  unfold sys_recv
  cases hrc : t.rc with
  | nil =>
    refine ⟨.err .EAGAIN, [], ?_, Or.inr ⟨rfl, rfl, rfl⟩, fun bs h => by cases h⟩
    simp only
  | cons e es =>
    cases e with
    | data bs =>
      refine ⟨.ok (bs.take n), es, rfl, Or.inl (by simp), ?_⟩
      intro bs' h
      simp only [IoRes.ok.injEq] at h
      rw [← h, List.length_take]
      exact Nat.min_le_left _ _
    | eintr => exact ⟨.err .EINTR, es, rfl, Or.inl (by simp), fun bs h => by cases h⟩
    | eagain => exact ⟨.err .EAGAIN, es, rfl, Or.inl (by simp), fun bs h => by cases h⟩
    | fail => exact ⟨.err .EOTHER, es, rfl, Or.inl (by simp), fun bs h => by cases h⟩

/-- What the loop of `drain_target` does on an open handle: a run of `recv` calls, then
possibly the closing of the handle; the bytes stored never exceed `cap`. -/
theorem drain_loop_spec (cap : Nat) : ∀ (fuel : Nat) (t : Target) (dst : List Nat),
    0 ≤ t.target_fd → dst.length ≤ cap →
    ∃ (dst' : List Nat) (rc' : List RecvEvt) (rs : List IoRes) (closed : Bool),
      drain_loop cap fuel t dst =
        (dst', ⟨if closed then -1 else t.target_fd, t.conn, t.wr, rc',
          t.trace ++ rs.map (TEvt.recv t.target_fd) ++
            (if closed then [.close t.target_fd] else [])⟩) ∧
      dst'.length ≤ cap := by
  intro fuel
  induction fuel with
  | zero =>
    intro t dst _ hd
    exact ⟨dst, t.rc, [], false, by simp [drain_loop, target_eta], hd⟩
  | succ fuel ih =>
    intro t dst hfd hd
    unfold drain_loop
    by_cases hcap : dst.length = cap
    · rw [if_pos hcap]
      exact ⟨dst, t.rc, [], false, by simp [target_eta], hd⟩
    · rw [if_neg hcap]
      obtain ⟨res, rc', hs, _, hlen⟩ := sys_recv_spec t (cap - dst.length)
      rw [hs]
      have hclosed : ∀ (d : List Nat), d.length ≤ cap →
          ∃ (dst' : List Nat) (rc'' : List RecvEvt) (rs : List IoRes) (closed : Bool),
            (d, close_target ⟨t.target_fd, t.conn, t.wr, rc',
              t.trace ++ [.recv t.target_fd res]⟩) =
              (dst', ⟨if closed then -1 else t.target_fd, t.conn, t.wr, rc'',
                t.trace ++ rs.map (TEvt.recv t.target_fd) ++
                  (if closed then [.close t.target_fd] else [])⟩) ∧
            dst'.length ≤ cap := by
        intro d hdl
        exact ⟨d, rc', [res], true, by simp [close_target, hfd], hdl⟩
      have hrec : ∀ (d : List Nat), d.length ≤ cap →
          ∃ (dst' : List Nat) (rc'' : List RecvEvt) (rs : List IoRes) (closed : Bool),
            drain_loop cap fuel ⟨t.target_fd, t.conn, t.wr, rc',
              t.trace ++ [.recv t.target_fd res]⟩ d =
              (dst', ⟨if closed then -1 else t.target_fd, t.conn, t.wr, rc'',
                t.trace ++ rs.map (TEvt.recv t.target_fd) ++
                  (if closed then [.close t.target_fd] else [])⟩) ∧
            dst'.length ≤ cap := by
        intro d hdl
        obtain ⟨dst', rc'', rs, closed, h1, h2⟩ :=
          ih ⟨t.target_fd, t.conn, t.wr, rc', t.trace ++ [.recv t.target_fd res]⟩ d hfd hdl
        exact ⟨dst', rc'', res :: rs, closed, by rw [h1]; simp, h2⟩
      cases res with
      | ok bs =>
        simp only
        by_cases hpos : bs.length > 0
        · rw [if_pos hpos]
          have := hlen bs rfl
          exact hrec (dst ++ bs) (by rw [List.length_append]; omega)
        · rw [if_neg hpos]
          exact hclosed dst hd
      | err e =>
        cases e with
        | EINTR => exact hrec dst hd
        | EAGAIN => exact ⟨dst, rc', [.err .EAGAIN], false, by simp, hd⟩
        | EOTHER => exact hclosed dst hd

/-- What `drain_target` does: it fails without a `recv` when there is no connection, else it
returns the number of bytes stored, at most `cap`, after a run of `recv` calls on the handle
that may end with its closing. -/
theorem drain_target_spec (t : Target) (cap : Nat) :
    ∃ (r fd : Int) (dst : List Nat) (t' : Target) (c1 : List TEvt) (rs : List IoRes)
      (closed : Bool),
      drain_target t cap = (r, dst, t') ∧ t'.wr = t.wr ∧
      t'.trace = t.trace ++ c1 ++ rs.map (TEvt.recv fd) ++ (if closed then [.close fd] else []) ∧
      ((r = -1 ∧ dst = [] ∧ NotOpened t.target_fd c1 ∧ rs = [] ∧ closed = false ∧
          t'.target_fd = -1) ∨
       (r = (dst.length : Int) ∧ dst.length ≤ cap ∧ Opened t.target_fd fd c1 ∧
          t'.target_fd = if closed then -1 else fd)) := by
  unfold drain_target
  obtain ⟨e, fd, conn1, c1, he, hcase⟩ := ensure_target_spec t
  rw [he]
  rcases hcase with ⟨rfl, hop⟩ | ⟨rfl, rfl, hnop⟩
  · simp only [lt_irrefl, if_false]
    obtain ⟨dst', rc', rs, closed, h1, h2⟩ := drain_loop_spec cap (t.rc.length + 1)
      ⟨fd, conn1, t.wr, t.rc, t.trace ++ c1⟩ [] (opened_nonneg hop) (by simp)
    rw [h1]
    exact ⟨dst'.length, fd, dst', _, c1, rs, closed, rfl, rfl, rfl,
      Or.inr ⟨rfl, h2, hop, rfl⟩⟩
  · simp only
    rw [if_pos (by decide)]
    exact ⟨-1, -1, [], _, c1, [], false, rfl, rfl, by simp,
      Or.inl ⟨rfl, rfl, hnop, rfl, rfl, rfl⟩⟩

theorem forward_body_inv (t : Target) (body : List Nat) (h : ConnInv t) :
    ConnInv (forward_body_to_target t body).2 := by
  unfold forward_body_to_target
  obtain ⟨h1, hc1⟩ := ensure_target_inv t h
  generalize ensure_target t = p at h1 hc1 ⊢
  obtain ⟨e, t1⟩ := p
  simp only at h1 hc1 ⊢
  rcases hc1 with ⟨rfl, hfd1⟩ | ⟨rfl, _⟩
  · rw [if_neg (by decide)]
    obtain ⟨h2, _⟩ := target_write_all_inv t1 body h1 hfd1
    generalize target_write_all t1 body = q at h2 ⊢
    obtain ⟨w, t2⟩ := q
    simp only at h2 ⊢
    by_cases hw : w < 0
    · rw [if_pos hw]
      obtain ⟨h3, _⟩ := close_target_inv t2 h2
      obtain ⟨h4, hc4⟩ := ensure_target_inv _ h3
      generalize ensure_target (close_target t2) = p2 at h4 hc4 ⊢
      obtain ⟨e2, t4⟩ := p2
      simp only at h4 hc4 ⊢
      rcases hc4 with ⟨rfl, hfd4⟩ | ⟨rfl, _⟩
      · rw [if_neg (by decide)]
        obtain ⟨h5, _⟩ := target_write_all_inv t4 body h4 hfd4
        generalize target_write_all t4 body = q2 at h5 ⊢
        obtain ⟨w2, t5⟩ := q2
        simp only at h5 ⊢
        by_cases hw2 : w2 < 0
        · rw [if_pos hw2]
          exact (close_target_inv t5 h5).1
        · rw [if_neg hw2]
          exact h5
      · rw [if_pos (by decide)]
        exact h4
    · rw [if_neg hw]
      exact h2
  · rw [if_pos (by decide)]
    exact h1

theorem run_trace_recvs (h : Int) (rs : List IoRes) :
    run_trace (some h) (rs.map (TEvt.recv h)) = some (some h) := by
  induction rs with
  | nil => rfl
  | cons x l ih => simp [run_trace, step_open, ih]

theorem drain_target_inv (t : Target) (cap : Nat) (h : ConnInv t) :
    ConnInv (drain_target t cap).2.2 := by
  unfold drain_target
  obtain ⟨h1, hc1⟩ := ensure_target_inv t h
  generalize ensure_target t = p at h1 hc1 ⊢
  obtain ⟨e, t1⟩ := p
  simp only at h1 hc1 ⊢
  rcases hc1 with ⟨rfl, hfd1⟩ | ⟨rfl, _⟩
  · rw [if_neg (by decide)]
    obtain ⟨dst', rc', rs, closed, h2, _⟩ :=
      drain_loop_spec cap (t1.rc.length + 1) t1 [] hfd1 (by simp)
    rw [h2]
    simp only
    have hrun := h1.2
    rw [handle_of_pos t1 hfd1] at hrun
    cases closed with
    | false =>
      refine ⟨by simp [h1.1], ?_⟩
      simp [run_trace_append, hrun, run_trace_recvs, handle_of, hfd1, run_trace]
    | true =>
      refine ⟨by simp, ?_⟩
      simp [run_trace_append, hrun, run_trace_recvs, handle_of, run_trace, step_open]
  · rw [if_pos (by decide)]
    exact h1

/-- C9: in every state the connector can reach by `ensure_target`, `forward_body_to_target`,
`drain_target` and `close_target`, whatever the outcomes of the system calls, the connector
invariant holds: `target_fd` is -1 or a descriptor; replaying all system calls made so far from
"no socket", each `socket` came when no target socket was open (so at most one is ever open),
each `connect`, `write`, `recv` and `close` was on the socket open at that time, and the socket
left open at the end is exactly the one `target_fd` names, none when it is -1. -/
theorem one_target_connection (t : Target) (h : Reach t) : ConnInv t := by
  induction h with
  | init conn wr rc => exact ⟨Or.inl rfl, rfl⟩
  | env t conn wr rc _ ih => exact ⟨ih.1, ih.2⟩
  | ensure t _ ih => exact (ensure_target_inv t ih).1
  | forward t body _ ih => exact forward_body_inv t body ih
  | drain t cap _ ih => exact drain_target_inv t cap ih
  | close t _ ih => exact (close_target_inv t ih).1

theorem one_target_connection_witness :
    Reach (drain_target (forward_body_to_target ⟨-1, [.refused 4, .ok 5, .ok 6], [.part 0, .fail],
      [.data (bytes "x"), .fail], []⟩ (bytes "hi")).2 8).2.2 ∧
    ConnInv (drain_target (forward_body_to_target ⟨-1, [.refused 4, .ok 5, .ok 6],
      [.part 0, .fail], [.data (bytes "x"), .fail], []⟩ (bytes "hi")).2 8).2.2 :=
  have h : Reach (drain_target (forward_body_to_target ⟨-1, [.refused 4, .ok 5, .ok 6],
      [.part 0, .fail], [.data (bytes "x"), .fail], []⟩ (bytes "hi")).2 8).2.2 :=
    Reach.drain _ 8 (Reach.forward _ (bytes "hi")
      (Reach.init [.refused 4, .ok 5, .ok 6] [.part 0, .fail] [.data (bytes "x"), .fail]))
  ⟨h, one_target_connection _ h⟩

/-! ## Forwarding with one retry -/

theorem countP_writes (fd : Int) (log : List IoRes) :
    (log.map (TEvt.write fd)).countP TEvt.isSocket = 0 ∧
    (log.map (TEvt.write fd)).countP TEvt.isWriteFail = hardErrs log := by
  induction log with
  | nil => exact ⟨rfl, rfl⟩
  | cons x l ih =>
    obtain ⟨ih1, ih2⟩ := ih
    constructor
    · simp only [List.map_cons]
      rw [List.countP_cons_of_neg _ _ (by simp [TEvt.isSocket])]
      exact ih1
    · simp only [List.map_cons, hardErrs] at ih2 ⊢
      cases x with
      | ok bs =>
        rw [List.countP_cons_of_neg _ _ (by simp [TEvt.isWriteFail]),
          List.count_cons_of_ne (by simp)]
        exact ih2
      | err e =>
        cases e with
        | EINTR =>
          rw [List.countP_cons_of_neg _ _ (by simp [TEvt.isWriteFail]),
            List.count_cons_of_ne (by simp)]
          exact ih2
        | EAGAIN =>
          rw [List.countP_cons_of_neg _ _ (by simp [TEvt.isWriteFail]),
            List.count_cons_of_ne (by simp)]
          exact ih2
        | EOTHER =>
          rw [List.countP_cons_of_pos _ _ (by simp [TEvt.isWriteFail]), List.count_cons_self, ih2]

theorem countP_opened {fd0 fd : Int} {evs : List TEvt} (h : Opened fd0 fd evs) :
    evs.countP TEvt.isSocket ≤ 1 ∧ (0 ≤ fd0 → evs.countP TEvt.isSocket = 0) ∧
    evs.countP TEvt.isWriteFail = 0 := by
  rcases h with ⟨_, _, rfl⟩ | ⟨h1, _, rfl⟩
  · simp
  · refine ⟨by simp [List.countP_cons, TEvt.isSocket], fun h0 => by omega, ?_⟩
    simp [List.countP_cons, TEvt.isWriteFail]

theorem countP_notOpened {fd0 : Int} {evs : List TEvt} (h : NotOpened fd0 evs) :
    evs.countP TEvt.isSocket ≤ 1 ∧ fd0 < 0 ∧ evs.countP TEvt.isWriteFail = 0 := by
  obtain ⟨h0, h1⟩ := h
  rcases h1 with rfl | ⟨s, rfl⟩
  · simp [h0]
  · refine ⟨by simp [List.countP_cons, TEvt.isSocket], h0, ?_⟩
    simp [List.countP_cons, TEvt.isWriteFail]

theorem countP_sent {fd : Int} {body : List Nat} {evs : List TEvt} (h : Sent fd body evs) :
    evs.countP TEvt.isSocket = 0 ∧ evs.countP TEvt.isWriteFail = 0 := by
  obtain ⟨log, rfl, _, h2⟩ := h
  exact ⟨(countP_writes fd log).1, by rw [(countP_writes fd log).2, h2]⟩

theorem countP_sendFailed {fd : Int} {body : List Nat} {evs : List TEvt}
    (h : SendFailed fd body evs) :
    evs.countP TEvt.isSocket = 0 ∧ evs.countP TEvt.isWriteFail = 1 := by
  obtain ⟨log, rfl, _, h2⟩ := h
  exact ⟨(countP_writes fd log).1, by rw [(countP_writes fd log).2, h2]⟩

theorem countP_close (fd : Int) :
    [TEvt.close fd].countP TEvt.isSocket = 0 ∧ [TEvt.close fd].countP TEvt.isWriteFail = 0 := by
  simp [List.countP_cons, TEvt.isSocket, TEvt.isWriteFail]

/-- The function `ensure_target` does what `Connect` says, and a call that succeeds leaves an
open handle. -/
theorem connect_ensure {fd0 : Int} {conn : List ConnEvt} {ok : Bool} {fd : Int}
    {evs : List TEvt} {conn1 : List ConnEvt} (h : Connect fd0 conn ok fd evs conn1)
    (wr : List IoEvt) (rc : List RecvEvt) (trace : List TEvt) :
    ensure_target ⟨fd0, conn, wr, rc, trace⟩
      = (if ok = true then 0 else -1, ⟨fd, conn1, wr, rc, trace ++ evs⟩) ∧
    (ok = true → 0 ≤ fd) := by
  cases h with
  | kept _ h0 =>
    refine ⟨?_, fun _ => h0⟩
    unfold ensure_target
    rw [if_pos h0]
    simp
  | connected fd cs h0 =>
    have hn : ¬ fd0 ≥ 0 := by omega
    simp [ensure_target, connect_local, hn]
  | refused fd cs h0 =>
    have hn : ¬ fd0 ≥ 0 := by omega
    simp [ensure_target, connect_local, hn]
  | no_socket cs h0 =>
    have hn : ¬ fd0 ≥ 0 := by omega
    simp [ensure_target, connect_local, hn]
  | none_left h0 =>
    have hn : ¬ fd0 ≥ 0 := by omega
    simp [ensure_target, connect_local, hn]

/-- Every call of `ensure_target` is one of the cases of `Connect`. -/
theorem connect_total (fd0 : Int) (conn : List ConnEvt) :
    ∃ (ok : Bool) (fd : Int) (evs : List TEvt) (conn1 : List ConnEvt),
      Connect fd0 conn ok fd evs conn1 := by
  by_cases h0 : 0 ≤ fd0
  · exact ⟨true, fd0, [], conn, .kept fd0 conn h0⟩
  · have hlt : fd0 < 0 := by omega
    cases conn with
    | nil => exact ⟨false, -1, [], [], .none_left fd0 hlt⟩
    | cons e cs =>
      cases e with
      | nosock => exact ⟨false, -1, [], cs, .no_socket fd0 cs hlt⟩
      | refused fd => exact ⟨false, -1, _, cs, .refused fd0 fd cs hlt⟩
      | ok fd => exact ⟨true, fd, _, cs, .connected fd0 fd cs hlt⟩

/-- A connection attempt that fails leaves the handle at -1. -/
theorem connect_failed {fd0 : Int} {conn : List ConnEvt} {ok : Bool} {fd : Int}
    {evs : List TEvt} {conn1 : List ConnEvt} (h : Connect fd0 conn ok fd evs conn1)
    (hok : ok = false) : fd = -1 := by
  cases h with
  | kept _ h0 => cases hok
  | connected fd cs h0 => cases hok
  | refused fd cs h0 => rfl
  | no_socket cs h0 => rfl
  | none_left h0 => rfl

/-- Every send succeeds or fails, as `SendAll` and `SendFail` say. -/
theorem send_total (fd : Int) (wr : List IoEvt) (body : List Nat) :
    (∃ evs wr1, SendAll fd wr body evs wr1) ∨ (∃ evs wr1, SendFail fd wr body evs wr1) := by
  obtain ⟨r, es', log, h1, _, h3⟩ := write_all_spec wr body
  rcases h3 with ⟨rfl, h4, h5⟩ | ⟨rfl, h4, _, h6⟩
  · exact Or.inl ⟨_, es', log, h1, rfl, h4, h5⟩
  · exact Or.inr ⟨_, es', log, h1, rfl, h6, h4⟩

theorem target_write_all_sendAll {fd : Int} {wr : List IoEvt} {body : List Nat}
    {evs : List TEvt} {wr1 : List IoEvt} (h : SendAll fd wr body evs wr1)
    (conn : List ConnEvt) (rc : List RecvEvt) (trace : List TEvt) :
    target_write_all ⟨fd, conn, wr, rc, trace⟩ body
      = ((body.length : Int), ⟨fd, conn, wr1, rc, trace ++ evs⟩) := by
  obtain ⟨log, hw, rfl, _, _⟩ := h
  simp [target_write_all, hw]

theorem target_write_all_sendFail {fd : Int} {wr : List IoEvt} {body : List Nat}
    {evs : List TEvt} {wr1 : List IoEvt} (h : SendFail fd wr body evs wr1)
    (conn : List ConnEvt) (rc : List RecvEvt) (trace : List TEvt) :
    target_write_all ⟨fd, conn, wr, rc, trace⟩ body
      = (-1, ⟨fd, conn, wr1, rc, trace ++ evs⟩) := by
  obtain ⟨log, hw, rfl, _, _⟩ := h
  simp [target_write_all, hw]

/-- The function `forward_body_to_target` does what `Forwards` says. -/
theorem forwards_sound {t : Target} {body : List Nat} {r : Int} {t1 : Target}
    (h : Forwards t body r t1) : forward_body_to_target t body = (r, t1) := by
  have hlen : ¬ ((body.length : Int) < 0) := by omega
  have hneg : ((-1 : Int) < 0) := by decide
  cases h with
  | no_connection c1 conn1 hc =>
    have he := (connect_ensure hc t.wr t.rc t.trace).1
    rw [target_eta] at he
    unfold forward_body_to_target
    rw [he]
    simp
  | first_send fd c1 s1 conn1 wr1 hc hs =>
    have he := (connect_ensure hc t.wr t.rc t.trace).1
    rw [target_eta] at he
    unfold forward_body_to_target
    rw [he]
    simp only [if_true, lt_irrefl, if_false]
    rw [target_write_all_sendAll hs, if_neg hlen]
  | no_reconnect fd c1 s1 c2 conn1 conn2 wr1 hc hs hc2 =>
    obtain ⟨he, hfd⟩ := connect_ensure hc t.wr t.rc t.trace
    rw [target_eta] at he
    have hclose : close_target ⟨fd, conn1, wr1, t.rc, t.trace ++ c1 ++ s1⟩
        = ⟨-1, conn1, wr1, t.rc, t.trace ++ c1 ++ s1 ++ [.close fd]⟩ := by
      simp [close_target, hfd rfl]
    have he2 := (connect_ensure hc2 wr1 t.rc (t.trace ++ c1 ++ s1 ++ [.close fd])).1
    unfold forward_body_to_target
    rw [he]
    simp only [if_true, lt_irrefl, if_false]
    rw [target_write_all_sendFail hs, if_pos hneg]
    simp only [hclose]
    rw [he2]
    simp
  | resend fd fd2 c1 s1 c2 s2 conn1 conn2 wr1 wr2 hc hs hc2 hs2 =>
    obtain ⟨he, hfd⟩ := connect_ensure hc t.wr t.rc t.trace
    rw [target_eta] at he
    have hclose : close_target ⟨fd, conn1, wr1, t.rc, t.trace ++ c1 ++ s1⟩
        = ⟨-1, conn1, wr1, t.rc, t.trace ++ c1 ++ s1 ++ [.close fd]⟩ := by
      simp [close_target, hfd rfl]
    have he2 := (connect_ensure hc2 wr1 t.rc (t.trace ++ c1 ++ s1 ++ [.close fd])).1
    unfold forward_body_to_target
    rw [he]
    simp only [if_true, lt_irrefl, if_false]
    rw [target_write_all_sendFail hs, if_pos hneg]
    simp only [hclose]
    rw [he2]
    simp only [if_true, lt_irrefl, if_false]
    rw [target_write_all_sendAll hs2, if_neg hlen]
  | resend_failed fd fd2 c1 s1 c2 s2 conn1 conn2 wr1 wr2 hc hs hc2 hs2 =>
    obtain ⟨he, hfd⟩ := connect_ensure hc t.wr t.rc t.trace
    rw [target_eta] at he
    have hclose : close_target ⟨fd, conn1, wr1, t.rc, t.trace ++ c1 ++ s1⟩
        = ⟨-1, conn1, wr1, t.rc, t.trace ++ c1 ++ s1 ++ [.close fd]⟩ := by
      simp [close_target, hfd rfl]
    obtain ⟨he2, hfd2⟩ := connect_ensure hc2 wr1 t.rc (t.trace ++ c1 ++ s1 ++ [.close fd])
    have hclose2 :
        close_target ⟨fd2, conn2, wr2, t.rc, t.trace ++ c1 ++ s1 ++ [.close fd] ++ c2 ++ s2⟩
        = ⟨-1, conn2, wr2, t.rc, t.trace ++ c1 ++ s1 ++ [.close fd] ++ c2 ++ s2 ++ [.close fd2]⟩ := by
      simp [close_target, hfd2 rfl]
    unfold forward_body_to_target
    rw [he]
    simp only [if_true, lt_irrefl, if_false]
    rw [target_write_all_sendFail hs, if_pos hneg]
    simp only [hclose]
    rw [he2]
    simp only [if_true, lt_irrefl, if_false]
    rw [target_write_all_sendFail hs2, if_pos hneg, hclose2]

/-- Every call of `forward_body_to_target` is one of the runs of `Forwards`. -/
theorem forwards_total (t : Target) (body : List Nat) : ∃ r t1, Forwards t body r t1 := by
  obtain ⟨ok, fd, c1, conn1, hc⟩ := connect_total t.target_fd t.conn
  cases ok with
  | false =>
    have := connect_failed hc rfl
    subst this
    exact ⟨_, _, .no_connection c1 conn1 hc⟩
  | true =>
    rcases send_total fd t.wr body with ⟨s1, wr1, hs⟩ | ⟨s1, wr1, hs⟩
    · exact ⟨_, _, .first_send fd c1 s1 conn1 wr1 hc hs⟩
    · obtain ⟨ok2, fd2, c2, conn2, hc2⟩ := connect_total (-1) conn1
      cases ok2 with
      | false =>
        have := connect_failed hc2 rfl
        subst this
        exact ⟨_, _, .no_reconnect fd c1 s1 c2 conn1 conn2 wr1 hc hs hc2⟩
      | true =>
        rcases send_total fd2 wr1 body with ⟨s2, wr2, hs2⟩ | ⟨s2, wr2, hs2⟩
        · exact ⟨_, _, .resend fd fd2 c1 s1 c2 s2 conn1 conn2 wr1 wr2 hc hs hc2 hs2⟩
        · exact ⟨_, _, .resend_failed fd fd2 c1 s1 c2 s2 conn1 conn2 wr1 wr2 hc hs hc2 hs2⟩

/-- C10: what `forward_body_to_target` returns and leaves behind is fixed by the environment of
the target side, as `Forwards` describes it: the call returns `r` in state `t1` exactly when
`Forwards t body r t1`.  So with an open handle or a first connection attempt that succeeds,
a first `write_all` that fails is followed by the close of the handle and by one connection
attempt, which takes the next scheduled outcome; when that attempt succeeds the whole body is
sent again from its first byte on the new descriptor, with the `write` outcomes the first send
has left.  The call returns 0 exactly when the first send or this one re-send succeeds, and -1
when the initial connect, the reconnect or the re-send fails, and then `target_fd` is -1 and
the handle that was open is closed.  Counted on the system calls `evs` of the call: at most two
sockets are created (one when the handle was open: a single reconnect) and at most two `write`
calls fail (one per send attempt). -/
theorem forward_retry_once (t : Target) (body : List Nat) :
    (∀ (r : Int) (t1 : Target), Forwards t body r t1 ↔ forward_body_to_target t body = (r, t1)) ∧
    ∃ evs : List TEvt,
      (forward_body_to_target t body).2.trace = t.trace ++ evs ∧
      ForwardRun t.target_fd body (forward_body_to_target t body).1
        (forward_body_to_target t body).2.target_fd evs ∧
      evs.countP TEvt.isSocket ≤ 2 ∧ (0 ≤ t.target_fd → evs.countP TEvt.isSocket ≤ 1) ∧
      evs.countP TEvt.isWriteFail ≤ 2 ∧
      (((forward_body_to_target t body).1 = 0 ∧
          0 ≤ (forward_body_to_target t body).2.target_fd ∧ evs.countP TEvt.isWriteFail ≤ 1) ∨
       ((forward_body_to_target t body).1 = -1 ∧
          (forward_body_to_target t body).2.target_fd = -1)) := by
  refine ⟨fun r t1 => ⟨forwards_sound, fun heq => ?_⟩, ?_⟩
  · obtain ⟨r0, t0, h0⟩ := forwards_total t body
    have h1 := forwards_sound h0
    rw [heq] at h1
    simp only [Prod.mk.injEq] at h1
    obtain ⟨ha, hb⟩ := h1
    subst ha
    subst hb
    exact h0
  obtain ⟨r, fd', conn', wr', evs, hf, _, hrun⟩ := forward_body_cases t body
  rw [hf]
  refine ⟨evs, rfl, hrun, ?_⟩
  simp only
  cases hrun with
  | no_connection evs hn =>
    obtain ⟨a, b, c⟩ := countP_notOpened hn
    exact ⟨by omega, fun h0 => by omega, by omega, Or.inr ⟨rfl, rfl⟩⟩
  | first_send fd c1 s1 ho hs =>
    obtain ⟨a1, a2, a3⟩ := countP_opened ho
    obtain ⟨b1, b2⟩ := countP_sent hs
    simp only [List.countP_append]
    exact ⟨by omega, fun h0 => by have := a2 h0; omega, by omega,
      Or.inl ⟨trivial, opened_nonneg ho, by omega⟩⟩
  | no_reconnect fd c1 s1 c2 ho hs hn =>
    obtain ⟨a1, a2, a3⟩ := countP_opened ho
    obtain ⟨b1, b2⟩ := countP_sendFailed hs
    obtain ⟨c1', _, c3⟩ := countP_notOpened hn
    obtain ⟨d1, d2⟩ := countP_close fd
    simp only [List.countP_append]
    exact ⟨by omega, fun h0 => by have := a2 h0; omega, by omega, Or.inr ⟨trivial, trivial⟩⟩
  | resend fd fd2 c1 s1 c2 s2 ho hs ho2 hs2 =>
    obtain ⟨a1, a2, a3⟩ := countP_opened ho
    obtain ⟨b1, b2⟩ := countP_sendFailed hs
    obtain ⟨c1', _, c3⟩ := countP_opened ho2
    obtain ⟨e1, e2⟩ := countP_sent hs2
    obtain ⟨d1, d2⟩ := countP_close fd
    simp only [List.countP_append]
    exact ⟨by omega, fun h0 => by have := a2 h0; omega, by omega,
      Or.inl ⟨trivial, opened_nonneg ho2, by omega⟩⟩
  | resend_failed fd fd2 c1 s1 c2 s2 ho hs ho2 hs2 =>
    obtain ⟨a1, a2, a3⟩ := countP_opened ho
    obtain ⟨b1, b2⟩ := countP_sendFailed hs
    obtain ⟨c1', _, c3⟩ := countP_opened ho2
    obtain ⟨e1, e2⟩ := countP_sendFailed hs2
    obtain ⟨d1, d2⟩ := countP_close fd
    obtain ⟨f1, f2⟩ := countP_close fd2
    simp only [List.countP_append]
    exact ⟨by omega, fun h0 => by have := a2 h0; omega, by omega, Or.inr ⟨trivial, trivial⟩⟩

theorem forward_retry_once_witness :
    Forwards ⟨7, [.ok 8], [.fail], [], []⟩ (bytes "hi") 0
      ⟨8, [], [], [], [.write 7 (.err .EOTHER), .close 7, .socket 8, .connect 8 true,
        .write 8 (.ok (bytes "hi"))]⟩ :=
  ((forward_retry_once ⟨7, [.ok 8], [.fail], [], []⟩ (bytes "hi")).1 0 _).2 (by decide)

/-! ## The reply -/

theorem decimal_length_le_8 (n : Nat) (h : n ≤ MAX_RESP) : (decimal n).length ≤ 8 := by
  rcases (decimal_spec n).2.2.2 with h1 | h1
  · omega
  · by_contra hc
    have h8 : 8 ≤ (decimal n).length - 1 := by omega
    have : 10 ^ 8 ≤ 10 ^ ((decimal n).length - 1) := Nat.pow_le_pow_right (by norm_num) h8
    simp only [MAX_RESP] at h
    omega

/-- The header of a 200 response always fits the 256-byte buffer: the short fallback header is
never written. -/
theorem reply_header_eq (n : Nat) (h : n ≤ MAX_RESP) : reply_header n = header_200 n := by
  have hlen : (header_200 n).length = 72 + (decimal n).length + 4 := by
    simp only [header_200, List.length_append]
    rfl
  have h8 := decimal_length_le_8 n h
  unfold reply_header
  simp only
  rw [if_neg (by omega), List.take_take, List.take_of_length_le (by omega)]

/-- Steps 5 and 6 when `drain_target` returns `got ≥ 0` with the bytes `resp` and the client
accepts what is written to it. -/
theorem serve_drain_ok (w : World) (got : Int) (resp : List Nat) (t1 : Target)
    (hdrain : drain_target w.tg MAX_RESP = (got, resp, t1)) (hgot : 0 ≤ got)
    (hwr : NoFail w.cl.wr) :
    got = (resp.length : Int) ∧ resp.length ≤ MAX_RESP ∧
    ∃ wr', wr' <:+ w.cl.wr ∧
      serve_drain w =
        (0, ⟨⟨w.cl.inp, w.cl.rd, wr', w.cl.out ++ header_200 resp.length ++ resp⟩, t1⟩) := by
  obtain ⟨r, fd, dst, t', c1, rs, closed, hd, _, _, hcase⟩ := drain_target_spec w.tg MAX_RESP
  rw [hdrain] at hd
  simp only [Prod.mk.injEq] at hd
  obtain ⟨rfl, rfl, rfl⟩ := hd
  rcases hcase with ⟨hneg, _⟩ | ⟨hlen, hcap, _⟩
  · omega
  · refine ⟨hlen, hcap, ?_⟩
    unfold serve_drain
    rw [hdrain]
    simp only
    rw [if_neg (by omega)]
    have hnat : got.toNat = resp.length := by omega
    rw [hnat, reply_header_eq _ hcap]
    obtain ⟨wr1, hs1, h1⟩ := client_write_all_ok w.cl (header_200 resp.length) hwr
    rw [h1]
    simp only
    by_cases hpos : got > 0
    · rw [if_pos hpos]
      obtain ⟨wr2, hs2, h2⟩ := client_write_all_ok
        ⟨w.cl.inp, w.cl.rd, wr1, w.cl.out ++ header_200 resp.length⟩ resp
        (noFail_suffix hwr hs1)
      rw [h2]
      exact ⟨wr2, hs2.trans hs1, rfl⟩
    · rw [if_neg hpos]
      have : resp = [] := by
        apply List.length_eq_zero.1
        omega
      exact ⟨wr1, hs1, by simp [this]⟩

/-- C2: for a request that passes validation, whose body `B` (if any) is read and forwarded
successfully, and for which `drain_target` returns `N ≥ 0` with the bytes `R`, the client
accepting what is written to it: `N` is the length of `R` and at most `MAX_RESP`, the handler
returns 0, and what it writes to the client is exactly
`"Status: 200 OK\r\nContent-Type: application/octet-stream\r\nContent-Length: "`, the decimal
form of `N`, `"\r\n\r\n"` and `R`; the header written is the full one, never the short
fallback. -/
theorem reply_200 (w : World) (hdrs v B R : List Nat) (c1 c2 : Client) (t1 t2 : Target) (N : Int)
    (hparse : read_netstring w.cl = (some hdrs, c1))
    (hscgi : kv_get hdrs (bytes "SCGI") = some (bytes "1"))
    (hclen : kv_get hdrs (bytes "CONTENT_LENGTH") = some v)
    (hrange : 0 ≤ strtol v ∧ strtol v ≤ (MAX_BODY : Int))
    (hsteps : (0 < strtol v ∧ read_n c1 (strtol v).toNat = (strtol v, B, c2) ∧
        forward_body_to_target w.tg B = (0, t1)) ∨ (strtol v = 0 ∧ c2 = c1 ∧ t1 = w.tg))
    (hdrain : drain_target t1 MAX_RESP = (N, R, t2)) (hN : 0 ≤ N)
    (hwr : NoFail w.cl.wr) :
    N = (R.length : Int) ∧ R.length ≤ MAX_RESP ∧
    reply_header R.length = header_200 R.length ∧
    ∃ wr', handle_scgi_request w = (0, ⟨⟨c2.inp, c2.rd, wr',
      w.cl.out ++ bytes "Status: 200 OK\r\nContent-Type: application/octet-stream\r\nContent-Length: "
        ++ decimal R.length ++ bytes "\r\n\r\n" ++ R⟩, t2⟩) := by
  have hframe := read_netstring_frame w.cl
  rw [hparse] at hframe
  simp only at hframe
  have hv := handle_validated w hdrs v c1 hparse hscgi hclen
  rw [if_neg (by omega)] at hv
  have hc2 : c2.wr = w.cl.wr ∧ c2.out = w.cl.out := by
    rcases hsteps with ⟨_, hread, _⟩ | ⟨_, rfl, _⟩
    · obtain ⟨r, m, rd', h1, _⟩ := read_n_spec c1 (strtol v).toNat
      rw [hread] at h1
      simp only [Prod.mk.injEq] at h1
      obtain ⟨_, _, rfl⟩ := h1
      exact hframe
    · exact hframe
  obtain ⟨h1, h2, wr', _, h3⟩ := serve_drain_ok ⟨c2, t1⟩ N R t2 hdrain hN
    (by rw [hc2.1]; exact hwr)
  refine ⟨h1, h2, reply_header_eq _ h2, wr', ?_⟩
  rw [hv]
  have hserve : serve_body ⟨c1, w.tg⟩ (strtol v) = serve_drain ⟨c2, t1⟩ := by
    unfold serve_body
    rcases hsteps with ⟨hpos, hread, hfwd⟩ | ⟨h0, rfl, rfl⟩
    · rw [if_pos hpos]
      simp only [hread, hfwd, ne_eq, not_true_eq_false, if_false, lt_irrefl]
    · rw [if_neg (by omega)]
  rw [hserve, h3]
  simp only [hc2.2, header_200, List.append_assoc]

theorem reply_200_witness :
    read_n sample_client (strtol (bytes "3")).toNat
      = (strtol (bytes "3"), bytes "xyz", ⟨[], [], [], []⟩) ∧
    forward_body_to_target (sample_world (bytes "3")).tg (bytes "xyz")
      = (0, ⟨7, [], [], [.data (bytes "back")], [.write 7 (.ok (bytes "xyz"))]⟩) ∧
    ∃ wr', handle_scgi_request (sample_world (bytes "3")) = (0, ⟨⟨[], [], wr',
      (sample_world (bytes "3")).cl.out
        ++ bytes "Status: 200 OK\r\nContent-Type: application/octet-stream\r\nContent-Length: "
        ++ decimal (bytes "back").length ++ bytes "\r\n\r\n" ++ bytes "back"⟩,
      ⟨7, [], [], [], [.write 7 (.ok (bytes "xyz")), .recv 7 (.ok (bytes "back")),
        .recv 7 (.err .EAGAIN)]⟩⟩) :=
  ⟨by decide, by decide,
    (reply_200 (sample_world (bytes "3")) (sample_hdrs (bytes "3")) (bytes "3") (bytes "xyz")
      (bytes "back") sample_client ⟨[], [], [], []⟩
      ⟨7, [], [], [.data (bytes "back")], [.write 7 (.ok (bytes "xyz"))]⟩
      ⟨7, [], [], [], [.write 7 (.ok (bytes "xyz")), .recv 7 (.ok (bytes "back")),
        .recv 7 (.err .EAGAIN)]⟩ 4
      (by decide) (by decide) (by decide) (by decide) (Or.inl (by decide)) (by decide)
      (by decide) (by decide)).2.2.2⟩

/-! ## The body reaches the target before the drain -/

theorem written_append (a b : List TEvt) : written (a ++ b) = written a ++ written b := by
  induction a with
  | nil => rfl
  | cons e a ih =>
    cases e with
    | write fd r =>
      cases r with
      | ok bs => simp [written, ih]
      | err x => simp [written, ih]
    | socket fd => simp [written, ih]
    | connect fd ok => simp [written, ih]
    | close fd => simp [written, ih]
    | recv fd r => simp [written, ih]

theorem written_writes (fd : Int) (log : List IoRes) :
    written (log.map (TEvt.write fd)) = accepted log := by
  induction log with
  | nil => rfl
  | cons x l ih =>
    cases x with
    | ok bs => simp [written, accepted, ih]
    | err e => simp [written, accepted, ih]

theorem written_of_no_write : ∀ (evs : List TEvt), (∀ e ∈ evs, e.isWrite = false) →
    written evs = [] := by
  intro evs
  induction evs with
  | nil => intro _; rfl
  | cons e l ih =>
    intro h
    have he := h e (by simp)
    have hl := ih (fun x hx => h x (by simp [hx]))
    cases e with
    | write fd r => simp [TEvt.isWrite] at he
    | socket fd => simpa [written] using hl
    | connect fd ok => simpa [written] using hl
    | close fd => simpa [written] using hl
    | recv fd r => simpa [written] using hl

theorem opened_no_io {fd0 fd : Int} {evs : List TEvt} (h : Opened fd0 fd evs) :
    (∀ e ∈ evs, e.isWrite = false) ∧ (∀ e ∈ evs, e.isRecv = false) := by
  rcases h with ⟨_, _, rfl⟩ | ⟨_, _, rfl⟩
  · simp
  · constructor <;> intro e he <;>
      simp only [List.mem_cons, List.mem_singleton, List.not_mem_nil, or_false] at he <;>
      rcases he with he | he <;> rw [he] <;> rfl

theorem notOpened_no_io {fd0 : Int} {evs : List TEvt} (h : NotOpened fd0 evs) :
    ∀ e ∈ evs, e.isWrite = false := by
  obtain ⟨_, h1⟩ := h
  rcases h1 with rfl | ⟨s, rfl⟩
  · simp
  · intro e he
    simp only [List.mem_cons, List.mem_singleton, List.not_mem_nil, or_false] at he
    rcases he with he | he | he <;> rw [he] <;> rfl

/-- The target side after steps 5 and 6 is the one `drain_target` leaves. -/
theorem serve_drain_tg (w : World) : (serve_drain w).2.tg = (drain_target w.tg MAX_RESP).2.2 := by
  unfold serve_drain
  generalize drain_target w.tg MAX_RESP = p
  obtain ⟨got, resp, t1⟩ := p
  simp only
  by_cases h : got < 0
  · rw [if_pos h]; rfl
  · rw [if_neg h]

/-- The system calls of `drain_target` include no `write`. -/
theorem drain_target_no_write (t : Target) (cap : Nat) :
    ∃ post : List TEvt, (drain_target t cap).2.2.trace = t.trace ++ post ∧
      ∀ e ∈ post, e.isWrite = false := by
  obtain ⟨r, fd, dst, t', c1, rs, closed, hd, _, htr, hcase⟩ := drain_target_spec t cap
  rw [hd]
  refine ⟨c1 ++ rs.map (TEvt.recv fd) ++ (if closed then [.close fd] else []), ?_, ?_⟩
  · simp only [htr, List.append_assoc]
  · have hc1 : ∀ e ∈ c1, e.isWrite = false := by
      rcases hcase with ⟨_, _, hn, _⟩ | ⟨_, _, ho, _⟩
      · exact notOpened_no_io hn
      · exact (opened_no_io ho).1
    intro e he
    rcases List.mem_append.1 he with he | he
    · rcases List.mem_append.1 he with he | he
      · exact hc1 e he
      · obtain ⟨x, _, rfl⟩ := List.mem_map.1 he
        rfl
    · cases closed with
      | false => simp at he
      | true =>
        simp only [if_true, List.mem_singleton] at he
        rw [he]; rfl

/-- With a reachable target and no failing write scheduled, `forward_body_to_target` sends the
body in its first attempt. -/
theorem forward_body_ok (t : Target) (body : List Nat) (hwr : NoFail t.wr)
    (hconn : 0 ≤ t.target_fd ∨ ∃ fd cs, t.conn = ConnEvt.ok fd :: cs) :
    ∃ (fd : Int) (conn' : List ConnEvt) (wr' : List IoEvt) (c1 s1 : List TEvt),
      forward_body_to_target t body = (0, ⟨fd, conn', wr', t.rc, t.trace ++ c1 ++ s1⟩) ∧
      Opened t.target_fd fd c1 ∧ Sent fd body s1 := by
  have hens : (ensure_target t).1 = 0 := by
    unfold ensure_target
    by_cases hfd : t.target_fd ≥ 0
    · rw [if_pos hfd]
    · rw [if_neg hfd]
      rcases hconn with h | ⟨fd, cs, h⟩
      · exact absurd h hfd
      · simp [connect_local, h]
  obtain ⟨e, fd, conn1, c1, he, hcase⟩ := ensure_target_spec t
  rw [he] at hens
  simp only at hens
  subst hens
  rcases hcase with ⟨_, hop⟩ | ⟨h, _⟩
  · obtain ⟨w, wr1, s1, hw, _, hwcase⟩ :=
      target_write_all_spec ⟨fd, conn1, t.wr, t.rc, t.trace ++ c1⟩ body
    rcases hwcase with ⟨rfl, hsent⟩ | ⟨_, _, hnot⟩
    · refine ⟨fd, conn1, wr1, c1, s1, ?_, hop, hsent⟩
      unfold forward_body_to_target
      rw [he]
      simp only [lt_irrefl, if_false]
      rw [hw]
      simp only
      rw [if_neg (by omega)]
    · exact absurd hwr hnot
  · exact absurd h (by decide)

/-- C1: for a request that passes validation with `CONTENT_LENGTH` the length of `B`, whose
body `B` arrives on the client socket (no read failing), with no write to the target failing
and, when `B` is not empty, the target reachable (the handle open or the next connect
succeeding): the system calls of the request on the target side split into a first part, in
which the chunks accepted by the `write` calls concatenate to exactly `B` and there is no
`recv`, and a second part, the drain, in which there is no `write`; no `write` fails. -/
theorem body_forwarded_before_drain (w : World) (hdrs v B rest : List Nat) (c1 : Client)
    (hparse : read_netstring w.cl = (some hdrs, c1))
    (hscgi : kv_get hdrs (bytes "SCGI") = some (bytes "1"))
    (hclen : kv_get hdrs (bytes "CONTENT_LENGTH") = some v)
    (hlen : strtol v = (B.length : Int)) (hmax : B.length ≤ MAX_BODY)
    (hbody : c1.inp = B ++ rest) (hrd : NoFail c1.rd)
    (hwr : NoFail w.tg.wr)
    (hconn : B ≠ [] → 0 ≤ w.tg.target_fd ∨ ∃ fd cs, w.tg.conn = ConnEvt.ok fd :: cs) :
    ∃ pre post : List TEvt,
      (handle_scgi_request w).2.tg.trace = w.tg.trace ++ pre ++ post ∧
      written pre = B ∧ written (pre ++ post) = B ∧
      (∀ e ∈ pre, e.isRecv = false) ∧ (∀ e ∈ post, e.isWrite = false) ∧
      (pre ++ post).countP TEvt.isWriteFail = 0 := by
  have hv := handle_validated w hdrs v c1 hparse hscgi hclen
  rw [if_neg (by omega), hlen] at hv
  rw [hv]
  unfold serve_body
  by_cases hB : B = []
  · subst hB
    rw [if_neg (by simp)]
    rw [serve_drain_tg]
    obtain ⟨post, h1, h2⟩ := drain_target_no_write w.tg MAX_RESP
    refine ⟨[], post, by simpa using h1, rfl, ?_, by simp, h2, ?_⟩
    · simpa using written_of_no_write post h2
    · simp only [List.nil_append]
      rw [List.countP_eq_zero]
      intro e he hf
      have := h2 e he
      cases e with
      | write fd r => simp [TEvt.isWrite] at this
      | socket fd => simp [TEvt.isWriteFail] at hf
      | connect fd ok => simp [TEvt.isWriteFail] at hf
      | close fd => simp [TEvt.isWriteFail] at hf
      | recv fd r => simp [TEvt.isWriteFail] at hf
  · have hpos : (B.length : Int) > 0 := by
      have := List.length_pos.2 hB
      omega
    rw [if_pos hpos]
    obtain ⟨rd', _, hread⟩ := read_n_ok c1 B.length hrd (by rw [hbody]; simp)
    rw [Int.toNat_ofNat, hread]
    simp only [ne_eq, not_true_eq_false, if_false]
    obtain ⟨fd, conn', wr', c, s1, hfwd, hop, hsent⟩ :=
      forward_body_ok w.tg (c1.inp.take B.length) hwr (hconn hB)
    rw [hfwd]
    simp only [lt_irrefl, if_false]
    rw [serve_drain_tg]
    obtain ⟨post, h1, h2⟩ := drain_target_no_write
      ⟨fd, conn', wr', w.tg.rc, w.tg.trace ++ c ++ s1⟩ MAX_RESP
    have htake : c1.inp.take B.length = B := by rw [hbody]; simp
    rw [htake] at hsent
    obtain ⟨log, hs1, hacc, hhard⟩ := hsent
    have hwpre : written (c ++ s1) = B := by
      rw [written_append, written_of_no_write c (opened_no_io hop).1, hs1, written_writes, hacc]
      rfl
    refine ⟨c ++ s1, post, by simpa [List.append_assoc] using h1, hwpre, ?_, ?_, h2, ?_⟩
    · rw [written_append, hwpre, written_of_no_write post h2, List.append_nil]
    · intro e he
      rcases List.mem_append.1 he with he | he
      · exact (opened_no_io hop).2 e he
      · rw [hs1] at he
        obtain ⟨x, _, rfl⟩ := List.mem_map.1 he
        rfl
    · simp only [List.countP_append]
      have a := (countP_opened hop).2.2
      have b : s1.countP TEvt.isWriteFail = 0 := by
        rw [hs1, (countP_writes fd log).2, hhard]
      have c' : post.countP TEvt.isWriteFail = 0 := by
        rw [List.countP_eq_zero]
        intro e he hf
        have := h2 e he
        cases e with
        | write fd r => simp [TEvt.isWrite] at this
        | socket fd => simp [TEvt.isWriteFail] at hf
        | connect fd ok => simp [TEvt.isWriteFail] at hf
        | close fd => simp [TEvt.isWriteFail] at hf
        | recv fd r => simp [TEvt.isWriteFail] at hf
      omega

theorem body_forwarded_before_drain_witness :
    strtol (bytes "3") = ((bytes "xyz").length : Int) ∧ NoFail sample_client.rd ∧
    NoFail (sample_world (bytes "3")).tg.wr ∧
    ∃ pre post : List TEvt,
      (handle_scgi_request (sample_world (bytes "3"))).2.tg.trace
        = (sample_world (bytes "3")).tg.trace ++ pre ++ post ∧
      written pre = bytes "xyz" ∧ written (pre ++ post) = bytes "xyz" ∧
      (∀ e ∈ pre, e.isRecv = false) ∧ (∀ e ∈ post, e.isWrite = false) ∧
      (pre ++ post).countP TEvt.isWriteFail = 0 :=
  ⟨by decide, by decide, by decide,
    body_forwarded_before_drain (sample_world (bytes "3")) (sample_hdrs (bytes "3")) (bytes "3")
      (bytes "xyz") [] sample_client (by decide) (by decide) (by decide) (by decide) (by decide)
      (by decide) (by decide) (by decide) (fun _ => Or.inl (by decide))⟩

/-! ## The drain -/

theorem received_append (l1 l2 : List IoRes) :
    received (l1 ++ l2) = received l1 ++ received l2 := by
  induction l1 with
  | nil => rfl
  | cons x l ih =>
    cases x with
    | ok bs => simp [received, ih]
    | err e => simp [received, ih]

/-- One `recv` call that asks for at least one byte takes the next scheduled outcome, or finds
nothing available when none is left. -/
theorem sys_recv_yields (t : Target) (n : Nat) (hn : 0 < n) :
    (∃ (e : RecvEvt) (rc1 : List RecvEvt) (res : IoRes), t.rc = e :: rc1 ∧ Yields e res ∧
        (∀ bs, res = .ok bs → bs.length ≤ n) ∧
        sys_recv t n =
          (res, ⟨t.target_fd, t.conn, t.wr, rc1, t.trace ++ [.recv t.target_fd res]⟩)) ∨
    (t.rc = [] ∧
      sys_recv t n = (.err .EAGAIN,
        ⟨t.target_fd, t.conn, t.wr, [], t.trace ++ [.recv t.target_fd (.err .EAGAIN)]⟩)) := by
  unfold sys_recv
  cases hrc : t.rc with
  | nil => right; exact ⟨rfl, rfl⟩
  | cons e es =>
    left
    cases e with
    | data bs =>
      refine ⟨.data bs, es, .ok (bs.take n), rfl, ⟨n, hn, rfl⟩, ?_, rfl⟩
      intro bs' h
      simp only [IoRes.ok.injEq] at h
      rw [← h, List.length_take]
      exact Nat.min_le_left _ _
    | eintr => exact ⟨.eintr, es, .err .EINTR, rfl, rfl, (fun bs h => by cases h), rfl⟩
    | eagain => exact ⟨.eagain, es, .err .EAGAIN, rfl, rfl, (fun bs h => by cases h), rfl⟩
    | fail => exact ⟨.fail, es, .err .EOTHER, rfl, rfl, (fun bs h => by cases h), rfl⟩

/-- The loop of `drain_target` on an open handle, with fuel for every scheduled outcome: a run
of `recv` results that do not stop it, whose bytes are appended to `dst` in order, then the
first stop event; the handle is closed when that is a 0-byte read or a read error. -/
theorem drain_loop_run (cap : Nat) : ∀ (fuel : Nat) (t : Target) (dst : List Nat),
    0 ≤ t.target_fd → dst.length ≤ cap → t.rc.length + 1 ≤ fuel →
    ∃ (body stop : List IoRes) (closed : Bool) (rc1 : List RecvEvt),
      drain_loop cap fuel t dst =
        (dst ++ received body, ⟨if closed then -1 else t.target_fd, t.conn, t.wr, rc1,
          t.trace ++ (body ++ stop).map (TEvt.recv t.target_fd) ++
            (if closed then [.close t.target_fd] else [])⟩) ∧
      (∀ r ∈ body, r.continues = true) ∧
      DrainStop cap (dst ++ received body).length stop closed ∧
      (dst ++ received body).length ≤ cap ∧
      Results t.rc (body ++ stop) rc1 := by
  intro fuel
  induction fuel with
  | zero => intro t dst _ _ h; omega
  | succ fuel ih =>
    intro t dst hfd hd hfuel
    unfold drain_loop
    by_cases hcap : dst.length = cap
    · rw [if_pos hcap]
      exact ⟨[], [], false, t.rc, by simp [received, target_eta], by simp,
        by simpa [received] using DrainStop.cap_reached hcap, by simpa [received] using hd,
        Results.done _⟩
    · rw [if_neg hcap]
      have hn : 0 < cap - dst.length := by omega
      rcases sys_recv_yields t (cap - dst.length) hn with
        ⟨e, rc1, res, hrc, hy, hlen, hs⟩ | ⟨hrc, hs⟩
      · rw [hs]
        have hrec : ∀ (d : List Nat), d.length ≤ cap → res.continues = true →
            d = dst ++ received [res] →
            ∃ (body stop : List IoRes) (closed : Bool) (rc2 : List RecvEvt),
              drain_loop cap fuel ⟨t.target_fd, t.conn, t.wr, rc1,
                  t.trace ++ [.recv t.target_fd res]⟩ d =
                (dst ++ received body, ⟨if closed then -1 else t.target_fd, t.conn, t.wr, rc2,
                  t.trace ++ (body ++ stop).map (TEvt.recv t.target_fd) ++
                    (if closed then [.close t.target_fd] else [])⟩) ∧
              (∀ r ∈ body, r.continues = true) ∧
              DrainStop cap (dst ++ received body).length stop closed ∧
              (dst ++ received body).length ≤ cap ∧
              Results t.rc (body ++ stop) rc2 := by
          intro d hdl hcont hdeq
          obtain ⟨body, stop, closed, rc2, h1, h2, h3, h4, h5⟩ :=
            ih ⟨t.target_fd, t.conn, t.wr, rc1, t.trace ++ [.recv t.target_fd res]⟩ d hfd hdl
              (by rw [hrc] at hfuel; simp at hfuel ⊢; omega)
          have hrecv : d ++ received body = dst ++ received (res :: body) := by
            rw [hdeq, List.append_assoc, ← received_append]
            rfl
          refine ⟨res :: body, stop, closed, rc2, ?_, ?_, ?_, ?_, ?_⟩
          · rw [h1, hrecv]
            simp
          · intro r hr
            rcases List.mem_cons.1 hr with hr | hr
            · rw [hr]; exact hcont
            · exact h2 r hr
          · rw [← hrecv]; exact h3
          · rw [← hrecv]; exact h4
          · rw [hrc]
            exact Results.step e rc1 res (body ++ stop) rc2 hy h5
        have hstop : ∀ (closed : Bool), DrainStop cap dst.length [res] closed →
            ∃ (body stop : List IoRes) (closed1 : Bool) (rc2 : List RecvEvt),
              (dst, (if closed then close_target ⟨t.target_fd, t.conn, t.wr, rc1,
                  t.trace ++ [.recv t.target_fd res]⟩ else ⟨t.target_fd, t.conn, t.wr, rc1,
                  t.trace ++ [.recv t.target_fd res]⟩)) =
                (dst ++ received body, ⟨if closed1 then -1 else t.target_fd, t.conn, t.wr, rc2,
                  t.trace ++ (body ++ stop).map (TEvt.recv t.target_fd) ++
                    (if closed1 then [.close t.target_fd] else [])⟩) ∧
              (∀ r ∈ body, r.continues = true) ∧
              DrainStop cap (dst ++ received body).length stop closed1 ∧
              (dst ++ received body).length ≤ cap ∧
              Results t.rc (body ++ stop) rc2 := by
          intro closed hst
          refine ⟨[], [res], closed, rc1, ?_, by simp, by simpa [received] using hst,
            by simpa [received] using hd, ?_⟩
          · cases closed <;> simp [received, close_target, hfd]
          · rw [hrc]
            exact Results.step e rc1 res [] rc1 hy (Results.done rc1)
        cases res with
        | ok bs =>
          simp only
          by_cases hpos : bs.length > 0
          · rw [if_pos hpos]
            have := hlen bs rfl
            refine hrec (dst ++ bs) (by rw [List.length_append]; omega) ?_ (by simp [received])
            cases bs with
            | nil => simp at hpos
            | cons b l => rfl
          · rw [if_neg hpos]
            have hnil : bs = [] := List.length_eq_zero.1 (by omega)
            subst hnil
            exact hstop true DrainStop.zero_read
        | err x =>
          cases x with
          | EINTR => exact hrec dst hd rfl (by simp [received])
          | EAGAIN => exact hstop false DrainStop.would_block
          | EOTHER => exact hstop true DrainStop.read_error
      · rw [hs]
        refine ⟨[], [.err .EAGAIN], false, [], by simp [received], by simp,
          by simpa [received] using DrainStop.would_block, by simpa [received] using hd, ?_⟩
        rw [hrc]
        exact Results.idle

/-- Every call of `drain_target`: without a connection it returns -1 and makes no `recv`; with
one it returns the number of bytes of the `recv` results that precede the first stop event. -/
theorem drain_target_run (t : Target) (cap : Nat) :
    (∃ (conn1 : List ConnEvt) (c1 : List TEvt), NotOpened t.target_fd c1 ∧
      drain_target t cap = (-1, [], ⟨-1, conn1, t.wr, t.rc, t.trace ++ c1⟩)) ∨
    (∃ (fd : Int) (conn1 : List ConnEvt) (c1 : List TEvt) (body stop : List IoRes)
        (closed : Bool) (rc1 : List RecvEvt), Opened t.target_fd fd c1 ∧
      drain_target t cap = (((received body).length : Int), received body,
        ⟨if closed then -1 else fd, conn1, t.wr, rc1,
          t.trace ++ c1 ++ (body ++ stop).map (TEvt.recv fd) ++
            (if closed then [.close fd] else [])⟩) ∧
      (∀ r ∈ body, r.continues = true) ∧
      DrainStop cap (received body).length stop closed ∧
      (received body).length ≤ cap ∧ Results t.rc (body ++ stop) rc1) := by
  unfold drain_target
  obtain ⟨e, fd, conn1, c1, he, hcase⟩ := ensure_target_spec t
  rw [he]
  rcases hcase with ⟨rfl, hop⟩ | ⟨rfl, rfl, hnop⟩
  · right
    simp only [lt_irrefl, if_false]
    obtain ⟨body, stop, closed, rc1, h1, h2, h3, h4, h5⟩ := drain_loop_run cap (t.rc.length + 1)
      ⟨fd, conn1, t.wr, t.rc, t.trace ++ c1⟩ [] (opened_nonneg hop) (by simp) (by simp)
    rw [h1]
    simp only [List.nil_append] at h3 h4 ⊢
    exact ⟨fd, conn1, c1, body, stop, closed, rc1, hop, rfl, h2, h3, h4, h5⟩
  · left
    simp only
    rw [if_pos (by decide)]
    exact ⟨conn1, c1, hnop, rfl⟩

/-- C11: on an open target, whatever the scheduled `recv` outcomes, the `recv` calls of
`drain_target(dst, cap)` have results `body ++ stop`: every result in `body` is some bytes or
`EINTR`, and `stop` is the first stop event, which is `cap` bytes accumulated (no further
call), would-block, a 0-byte read, or an error other than `EINTR`.  The call returns the number
of bytes delivered by `body`, between 0 and `cap`; `dst` holds these chunks concatenated in
order, `EINTR` adding nothing; and on return the handle is closed (`target_fd` = -1 after a
`close`) exactly when the stop event is a 0-byte read or such an error. -/
theorem drain_open_target (t : Target) (cap : Nat) (hopen : 0 ≤ t.target_fd) :
    ∃ (body stop : List IoRes) (closed : Bool) (rc1 : List RecvEvt),
      drain_target t cap = (((received body).length : Int), received body,
        ⟨if closed then -1 else t.target_fd, t.conn, t.wr, rc1,
          t.trace ++ (body ++ stop).map (TEvt.recv t.target_fd) ++
            (if closed then [.close t.target_fd] else [])⟩) ∧
      (∀ r ∈ body, r.continues = true) ∧
      DrainStop cap (received body).length stop closed ∧
      (received body).length ≤ cap ∧ Results t.rc (body ++ stop) rc1 := by
  obtain ⟨body, stop, closed, rc1, h1, h2, h3, h4, h5⟩ :=
    drain_loop_run cap (t.rc.length + 1) t [] hopen (by simp) (by simp)
  simp only [List.nil_append] at h1 h3 h4
  refine ⟨body, stop, closed, rc1, ?_, h2, h3, h4, h5⟩
  unfold drain_target ensure_target
  rw [if_pos hopen]
  simp only [lt_irrefl, if_false]
  rw [h1]

theorem drain_open_target_witness :
    (0 : Int) ≤ 7 ∧
    drain_target ⟨7, [], [], [.data (bytes "ab"), .eintr, .data (bytes "cdef"), .fail,
        .data (bytes "zz")], []⟩ 5
      = (5, bytes "abcde", ⟨7, [], [], [.fail, .data (bytes "zz")],
          [.recv 7 (.ok (bytes "ab")), .recv 7 (.err .EINTR), .recv 7 (.ok (bytes "cde"))]⟩) ∧
    ∃ (body stop : List IoRes) (closed : Bool) (rc1 : List RecvEvt),
      drain_target ⟨7, [], [], [.data (bytes "ab"), .eintr, .data (bytes "cdef"), .fail,
          .data (bytes "zz")], []⟩ 5
        = (((received body).length : Int), received body,
          ⟨if closed then -1 else 7, [], [], rc1,
            [] ++ (body ++ stop).map (TEvt.recv 7) ++ (if closed then [.close 7] else [])⟩) ∧
      (∀ r ∈ body, r.continues = true) ∧
      DrainStop 5 (received body).length stop closed ∧
      (received body).length ≤ 5 ∧
      Results [.data (bytes "ab"), .eintr, .data (bytes "cdef"), .fail, .data (bytes "zz")]
        (body ++ stop) rc1 :=
  ⟨by decide, by decide,
    drain_open_target ⟨7, [], [], [.data (bytes "ab"), .eintr, .data (bytes "cdef"), .fail,
      .data (bytes "zz")], []⟩ 5 (by decide)⟩

/-! ## Read errors during the drain -/

/-- A validated request whose body, if any, is read and forwarded reaches steps 5 and 6. -/
theorem handle_reaches_drain (w : World) (hdrs v B : List Nat) (c1 c2 : Client) (t1 : Target)
    (hparse : read_netstring w.cl = (some hdrs, c1))
    (hscgi : kv_get hdrs (bytes "SCGI") = some (bytes "1"))
    (hclen : kv_get hdrs (bytes "CONTENT_LENGTH") = some v)
    (hrange : 0 ≤ strtol v ∧ strtol v ≤ (MAX_BODY : Int))
    (hsteps : (0 < strtol v ∧ read_n c1 (strtol v).toNat = (strtol v, B, c2) ∧
        forward_body_to_target w.tg B = (0, t1)) ∨ (strtol v = 0 ∧ c2 = c1 ∧ t1 = w.tg)) :
    handle_scgi_request w = serve_drain ⟨c2, t1⟩ ∧ c2.wr = w.cl.wr ∧ c2.out = w.cl.out := by
  have hframe := read_netstring_frame w.cl
  rw [hparse] at hframe
  simp only at hframe
  have hv := handle_validated w hdrs v c1 hparse hscgi hclen
  rw [if_neg (by omega)] at hv
  have hc2 : c2.wr = w.cl.wr ∧ c2.out = w.cl.out := by
    rcases hsteps with ⟨_, hread, _⟩ | ⟨_, rfl, _⟩
    · obtain ⟨r, m, rd', h1, _⟩ := read_n_spec c1 (strtol v).toNat
      rw [hread] at h1
      simp only [Prod.mk.injEq] at h1
      obtain ⟨_, _, rfl⟩ := h1
      exact hframe
    · exact hframe
  refine ⟨?_, hc2⟩
  rw [hv]
  unfold serve_body
  rcases hsteps with ⟨hpos, hread, hfwd⟩ | ⟨h0, rfl, rfl⟩
  · rw [if_pos hpos]
    simp only [hread, hfwd, ne_eq, not_true_eq_false, if_false, lt_irrefl]
  · rw [if_neg (by omega)]

/-- C12 does not hold: for a validated request with an empty body, the target open on
descriptor 7, the first `recv` of the drain delivers `"ab"` and the second fails with a read
error; the handler closes the target and answers 200 with the two bytes, not 502. -/
theorem drain_read_error_not_502 :
    handle_scgi_request drain_error_world =
      (0, ⟨⟨[], [], [],
          bytes "Status: 200 OK\r\nContent-Type: application/octet-stream\r\nContent-Length: 2\r\n\r\nab"⟩,
        ⟨-1, [], [], [],
          [.recv 7 (.ok (bytes "ab")), .recv 7 (.err .EOTHER), .close 7]⟩⟩) := by
  decide

theorem notOpened_no_recv {fd0 : Int} {evs : List TEvt} (h : NotOpened fd0 evs) :
    ∀ e ∈ evs, e.isRecv = false := by
  obtain ⟨_, h1⟩ := h
  rcases h1 with rfl | ⟨s, rfl⟩
  · simp
  · intro e he
    simp only [List.mem_cons, List.mem_singleton, List.not_mem_nil, or_false] at he
    rcases he with he | he | he <;> rw [he] <;> rfl

/-- C12 as amended: for a validated request whose body, if any, is read and forwarded, the
client accepting what is written to it, let `drain_target` return `got` with the bytes `R`.
If one of its `recv` calls fails with a read error (an error other than `EAGAIN` and `EINTR`),
the target handle is closed, `got` is the number of bytes received before the error, and the
handler returns 0 after writing the 200 response that carries these bytes.  The handler writes
the 502 response "read from target failed" only when `got` is negative, and then
`drain_target` has made no `recv` call at all: no connection could be opened. -/
theorem drain_read_error_200 (w : World) (hdrs v B R : List Nat) (c1 c2 : Client)
    (t1 t2 : Target) (got : Int)
    (hparse : read_netstring w.cl = (some hdrs, c1))
    (hscgi : kv_get hdrs (bytes "SCGI") = some (bytes "1"))
    (hclen : kv_get hdrs (bytes "CONTENT_LENGTH") = some v)
    (hrange : 0 ≤ strtol v ∧ strtol v ≤ (MAX_BODY : Int))
    (hsteps : (0 < strtol v ∧ read_n c1 (strtol v).toNat = (strtol v, B, c2) ∧
        forward_body_to_target w.tg B = (0, t1)) ∨ (strtol v = 0 ∧ c2 = c1 ∧ t1 = w.tg))
    (hdrain : drain_target t1 MAX_RESP = (got, R, t2))
    (hwr : NoFail w.cl.wr) :
    ((∃ (fd : Int) (evs : List TEvt), t2.trace = t1.trace ++ evs ∧
        TEvt.recv fd (.err .EOTHER) ∈ evs) →
      t2.target_fd = -1 ∧ got = (R.length : Int) ∧
      ∃ wr', handle_scgi_request w = (0, ⟨⟨c2.inp, c2.rd, wr',
        w.cl.out ++ bytes "Status: 200 OK\r\nContent-Type: application/octet-stream\r\nContent-Length: "
          ++ decimal R.length ++ bytes "\r\n\r\n" ++ R⟩, t2⟩)) ∧
    (got < 0 →
      (∃ evs : List TEvt, t2.trace = t1.trace ++ evs ∧ ∀ e ∈ evs, e.isRecv = false) ∧
      ∃ wr', handle_scgi_request w =
        (-1, ⟨⟨c2.inp, c2.rd, wr', w.cl.out ++ msg_502_read⟩, t2⟩)) := by
  obtain ⟨hreach, hc2wr, hc2out⟩ :=
    handle_reaches_drain w hdrs v B c1 c2 t1 hparse hscgi hclen hrange hsteps
  have hwr2 : NoFail c2.wr := by rw [hc2wr]; exact hwr
  constructor
  · rintro ⟨fdx, evs, htr, hmem⟩
    rcases drain_target_run t1 MAX_RESP with ⟨conn1, c, hnop, hd⟩ |
      ⟨fd, conn1, c, body, stop, closed, rc1, hop, hd, hbody, hstop, _, _⟩
    · rw [hdrain] at hd
      simp only [Prod.mk.injEq] at hd
      obtain ⟨_, _, rfl⟩ := hd
      simp only [List.append_cancel_left_eq] at htr
      rw [← htr] at hmem
      have := notOpened_no_recv hnop _ hmem
      simp [TEvt.isRecv] at this
    · rw [hdrain] at hd
      simp only [Prod.mk.injEq] at hd
      obtain ⟨rfl, rfl, rfl⟩ := hd
      simp only [List.append_assoc, List.append_cancel_left_eq] at htr
      rw [← htr] at hmem
      have hin : IoRes.err .EOTHER ∈ body ++ stop := by
        rcases List.mem_append.1 hmem with h | h
        · have := (opened_no_io hop).2 _ h
          simp [TEvt.isRecv] at this
        · rcases List.mem_append.1 h with h | h
          · obtain ⟨x, hx, hxe⟩ := List.mem_map.1 h
            simp only [TEvt.recv.injEq] at hxe
            rw [← hxe.2]; exact hx
          · cases closed <;> simp at h
      have hstopin : IoRes.err .EOTHER ∈ stop := by
        rcases List.mem_append.1 hin with h | h
        · have := hbody _ h
          simp [IoRes.continues] at this
        · exact h
      have hclosed : closed = true := by
        cases hstop with
        | cap_reached _ => simp at hstopin
        | would_block => simp at hstopin
        | zero_read => rfl
        | read_error => rfl
      subst hclosed
      obtain ⟨h1, _, wr', _, h3⟩ := serve_drain_ok ⟨c2, t1⟩ _ _ _ hdrain (by omega) hwr2
      refine ⟨rfl, rfl, wr', ?_⟩
      rw [hreach, h3]
      simp only [hc2out, header_200, List.append_assoc]
  · intro hneg
    rcases drain_target_run t1 MAX_RESP with ⟨conn1, c, hnop, hd⟩ |
      ⟨fd, conn1, c, body, stop, closed, rc1, hop, hd, _⟩
    · rw [hdrain] at hd
      simp only [Prod.mk.injEq] at hd
      obtain ⟨_, _, rfl⟩ := hd
      refine ⟨⟨c, rfl, notOpened_no_recv hnop⟩, ?_⟩
      obtain ⟨wr', _, h2⟩ := fail_with_ok c2 ⟨-1, conn1, t1.wr, t1.rc, t1.trace ++ c⟩
        msg_502_read hwr2
      refine ⟨wr', ?_⟩
      rw [hreach]
      unfold serve_drain
      rw [hdrain]
      simp only
      rw [if_pos hneg, h2, hc2out]
    · rw [hdrain] at hd
      simp only [Prod.mk.injEq] at hd
      omega

theorem drain_read_error_200_witness :
    drain_target drain_error_world.tg MAX_RESP
      = (2, bytes "ab", ⟨-1, [], [], [],
          [.recv 7 (.ok (bytes "ab")), .recv 7 (.err .EOTHER), .close 7]⟩) ∧
    ((-1 : Int) = -1 ∧ (2 : Int) = ((bytes "ab").length : Int) ∧
      ∃ wr', handle_scgi_request drain_error_world = (0, ⟨⟨[], [], wr',
        drain_error_world.cl.out
          ++ bytes "Status: 200 OK\r\nContent-Type: application/octet-stream\r\nContent-Length: "
          ++ decimal (bytes "ab").length ++ bytes "\r\n\r\n" ++ bytes "ab"⟩,
        ⟨-1, [], [], [], [.recv 7 (.ok (bytes "ab")), .recv 7 (.err .EOTHER), .close 7]⟩⟩)) :=
  ⟨by decide,
    (drain_read_error_200 drain_error_world
      (kv_block [(bytes "CONTENT_LENGTH", bytes "0"), (bytes "SCGI", bytes "1")]) (bytes "0")
      [] (bytes "ab") ⟨[], [], [], []⟩ ⟨[], [], [], []⟩ drain_error_world.tg
      ⟨-1, [], [], [], [.recv 7 (.ok (bytes "ab")), .recv 7 (.err .EOTHER), .close 7]⟩ 2
      (by decide) (by decide) (by decide) (by decide) (Or.inr (by decide)) (by decide)
      (by decide)).1
      ⟨7, [.recv 7 (.ok (bytes "ab")), .recv 7 (.err .EOTHER), .close 7], by decide,
        by decide⟩⟩

/-! ## The frontend relay -/

namespace Frontend

/-- What the frontend `write_all` does under any schedule: the bytes accepted are a prefix of
the buffer, in order; it returns `n` after all of them are accepted and -1 otherwise, which
takes a failing `write`. -/
theorem fe_write_all_loop_spec (buf : List Nat) : ∀ (fuel : Nat) (es : List IoEvt) (off : Nat)
    (log : List IoRes), es.length + (buf.length - off) + 1 ≤ fuel → off ≤ buf.length →
    ∃ (r : Int) (es' : List IoEvt) (log' : List IoRes),
      write_all_loop buf fuel es off log = (r, es', log ++ log') ∧
      ((r = (buf.length : Int) ∧ accepted log' = buf.drop off) ∨
       (r = -1 ∧ ¬ Writable es ∧ accepted log' <+: buf.drop off)) := by
  intro fuel
  induction fuel with
  | zero => intro es off log h; omega
  | succ fuel ih =>
    intro es off log h hoff
    unfold write_all_loop
    by_cases hlt : off < buf.length
    · rw [if_pos hlt]
      rcases sys_write_cases es (buf.drop off) with
        ⟨a, es1, hs, hal, hsuf, hmeas⟩ | ⟨e, es1, hs, hlen, hsuf, hfail⟩
      · rw [hs]
        simp only
        have hlen_take : ((buf.drop off).take a).length = a := by
          rw [List.length_take]; exact Nat.min_eq_left hal
        rw [hlen_take]
        simp only [List.length_drop] at hal
        have hfuel : es1.length + (buf.length - (off + a)) + 1 ≤ fuel := by
          rcases hmeas with hm | ⟨hm, ha⟩
          · omega
          · subst hm
            have : es1.length = 0 := by
              have := hsuf.length_le; simpa using this
            simp only [List.length_drop] at ha
            simp only [List.length_nil] at h
            omega
        obtain ⟨r, es2, log2, hres, hcase⟩ :=
          ih es1 (off + a) (log ++ [.ok ((buf.drop off).take a)]) hfuel (by omega)
        refine ⟨r, es2, .ok ((buf.drop off).take a) :: log2, by rw [hres]; simp, ?_⟩
        have hsplit : buf.drop off = (buf.drop off).take a ++ buf.drop (off + a) := by
          rw [← List.drop_drop, List.take_append_drop]
        rcases hcase with ⟨h1, h2⟩ | ⟨h1, h2, h3⟩
        · left
          refine ⟨h1, ?_⟩
          simp only [accepted, h2]; exact hsplit.symm
        · right
          refine ⟨h1, fun hw => h2 (fun e he => hw e (hsuf.subset he)), ?_⟩
          simp only [accepted]
          have hpre := (List.prefix_append_right_inj ((buf.drop off).take a)).2 h3
          rw [← hsplit] at hpre
          exact hpre
      · rw [hs]
        cases e with
        | EINTR =>
          simp only
          obtain ⟨r, es2, log2, hres, hcase⟩ :=
            ih es1 off (log ++ [.err .EINTR]) (by omega) hoff
          refine ⟨r, es2, .err .EINTR :: log2, by rw [hres]; simp, ?_⟩
          rcases hcase with ⟨h1, h2⟩ | ⟨h1, h2, h3⟩
          · left; exact ⟨h1, by simpa [accepted] using h2⟩
          · right
            exact ⟨h1, fun hw => h2 (fun e he => hw e (hsuf.subset he)),
              by simpa [accepted] using h3⟩
        | EAGAIN =>
          simp only
          refine ⟨-1, es1, [.err .EAGAIN], rfl, Or.inr ⟨rfl, ?_, by simp [accepted]⟩⟩
          intro hw
          cases es with
          | nil => simp [sys_write] at hs
          | cons e0 es0 =>
            cases e0 with
            | part k => simp [sys_write] at hs
            | eintr => simp [sys_write] at hs
            | eagain => exact (hw .eagain (by simp)).2 rfl
            | fail => simp [sys_write] at hs
        | EOTHER =>
          simp only
          refine ⟨-1, es1, [.err .EOTHER], rfl, Or.inr ⟨rfl, ?_, by simp [accepted]⟩⟩
          intro hw
          exact hfail rfl (fun e he => (hw e he).1)
    · rw [if_neg hlt]
      have : off = buf.length := by omega
      refine ⟨off, es, [], by simp, Or.inl ⟨by rw [this], ?_⟩⟩
      simp [accepted, this]

theorem fe_write_all_spec (es : List IoEvt) (buf : List Nat) :
    ∃ (r : Int) (es' : List IoEvt) (log : List IoRes),
      write_all es buf = (r, es', log) ∧
      ((r = (buf.length : Int) ∧ accepted log = buf) ∨
       (r = -1 ∧ ¬ Writable es ∧ accepted log <+: buf)) := by
  obtain ⟨r, es', log, h1, h2⟩ :=
    fe_write_all_loop_spec buf (es.length + buf.length + 1) es 0 [] (by simp) (by omega)
  exact ⟨r, es', log, by simpa [write_all] using h1, by simpa using h2⟩

theorem state_eta (s : State) :
    (⟨⟨s.conn.inp, s.conn.rd, s.conn.wr, s.conn.out⟩, s.sel, s.http, s.posts, s.delay, s.ticks⟩
      : State) = s := by
  cases s with
  | mk conn sel http posts delay ticks => cases conn; rfl

theorem double_capped (d : ℚ) : (if d * 2 > 10 then 10 else d * 2) = min (2 * d) 10 := by
  by_cases h : d * 2 > 10
  · rw [if_pos h, min_eq_right (by linarith)]
  · rw [if_neg h, min_eq_left (by linarith)]
    ring

/-- The second half of a pass: one POST of `buf` is performed; a response is written to the
client only when the exchange returns 200 with a non-empty body, and then a prefix of that
body is written, all of it unless a `write` fails; the pass completes with the update of
`delay`, or stops leaving `delay` alone. -/
theorem tick_exchange_spec (s : State) (buf : List Nat) :
    ∃ (st : Step) (wr' : List IoEvt) (acc : List Nat) (http' : List HttpEvt) (delay' : ℚ)
      (ticks' : List (Nat × Nat)),
      tick_exchange s buf = (st, ⟨⟨s.conn.inp, s.conn.rd, wr', s.conn.out ++ acc⟩, s.sel, http',
        s.posts ++ [buf], delay', ticks'⟩) ∧
      ((st = .stop ∧ ticks' = s.ticks ∧ delay' = s.delay) ∨
       (∃ rl chunks hs, st = .again ∧ ticks' = s.ticks ++ [(buf.length, rl)] ∧
          (delay' = if 0 < buf.length ∨ 0 < rl then 1 / 10 else min (2 * s.delay) 10) ∧
          s.http = .response 200 chunks :: hs ∧ rl = (chunks.foldl curl_write_cb []).length)) ∧
      ((∃ chunks hs, s.http = .response 200 chunks :: hs ∧
          chunks.foldl curl_write_cb [] ≠ [] ∧ acc <+: chunks.foldl curl_write_cb [] ∧
          (st = .again → acc = chunks.foldl curl_write_cb []) ∧
          (Writable s.conn.wr → acc = chunks.foldl curl_write_cb [] ∧ st = .again)) ∨
       ((¬ ∃ chunks hs, s.http = .response 200 chunks :: hs ∧
          chunks.foldl curl_write_cb [] ≠ []) ∧ acc = [])) := by
  obtain ⟨⟨inp, rd, wr, out⟩, sel, http, posts, delay, ticks⟩ := s
  dsimp only
  have hstop : ∀ (http' : List HttpEvt),
      (¬ ∃ chunks hs, http = .response 200 chunks :: hs ∧
          chunks.foldl curl_write_cb [] ≠ []) →
      ∃ (st : Step) (wr' : List IoEvt) (acc : List Nat) (http'' : List HttpEvt) (delay' : ℚ)
        (ticks' : List (Nat × Nat)),
        ((Step.stop, (⟨⟨inp, rd, wr, out⟩, sel, http', posts ++ [buf], delay, ticks⟩ : State)) =
          (st, ⟨⟨inp, rd, wr', out ++ acc⟩, sel, http'', posts ++ [buf], delay', ticks'⟩)) ∧
        ((st = .stop ∧ ticks' = ticks ∧ delay' = delay) ∨
         (∃ rl chunks hs, st = .again ∧ ticks' = ticks ++ [(buf.length, rl)] ∧
            (delay' = if 0 < buf.length ∨ 0 < rl then 1 / 10 else min (2 * delay) 10) ∧
            http = .response 200 chunks :: hs ∧ rl = (chunks.foldl curl_write_cb []).length)) ∧
        ((∃ chunks hs, http = .response 200 chunks :: hs ∧
            chunks.foldl curl_write_cb [] ≠ [] ∧ acc <+: chunks.foldl curl_write_cb [] ∧
            (st = .again → acc = chunks.foldl curl_write_cb []) ∧
            (Writable wr → acc = chunks.foldl curl_write_cb [] ∧ st = .again)) ∨
         ((¬ ∃ chunks hs, http = .response 200 chunks :: hs ∧
            chunks.foldl curl_write_cb [] ≠ []) ∧ acc = [])) := by
    intro http' hno
    refine ⟨.stop, wr, [], http', delay, ticks, ?_, Or.inl ⟨rfl, rfl, rfl⟩, Or.inr ⟨hno, rfl⟩⟩
    simp
  unfold tick_exchange http_exchange
  cases http with
  | nil =>
    exact hstop [] (by simp)
  | cons e hs =>
    cases e with
    | transport_error =>
      exact hstop hs (by simp)
    | response code chunks =>
      dsimp only
      by_cases hcode : code ≠ 200
      · rw [if_pos hcode]
        refine hstop hs ?_
        rintro ⟨c, h, heq, _⟩
        simp only [List.cons.injEq, HttpEvt.response.injEq] at heq
        exact hcode heq.1.1
      · rw [if_neg hcode]
        have hc : code = 200 := not_not.1 hcode
        subst hc
        dsimp only
        by_cases hpos : (chunks.foldl curl_write_cb []).length > 0
        · rw [if_pos hpos]
          have hne : chunks.foldl curl_write_cb [] ≠ [] := by
            intro h0; rw [h0] at hpos; simp at hpos
          obtain ⟨r, es', log, hw, hcase⟩ :=
            fe_write_all_spec wr (chunks.foldl curl_write_cb [])
          rw [hw]
          dsimp only
          rcases hcase with ⟨hr, hacc⟩ | ⟨hr, hnw, hacc⟩
          · rw [if_neg (by omega)]
            refine ⟨.again, es', accepted log, hs, 1 / 10,
              ticks ++ [(buf.length, (chunks.foldl curl_write_cb []).length)], rfl,
              Or.inr ⟨_, chunks, hs, rfl, rfl, ?_, rfl, rfl⟩,
              Or.inl ⟨chunks, hs, rfl, hne, by rw [hacc], fun _ => hacc, fun _ => ⟨hacc, rfl⟩⟩⟩
            rw [if_pos (Or.inr hpos)]
          · rw [if_pos (by omega)]
            refine ⟨.stop, es', accepted log, hs, delay, ticks, rfl, Or.inl ⟨rfl, rfl, rfl⟩,
              Or.inl ⟨chunks, hs, rfl, hne, hacc, (fun h => by cases h),
                (fun hw' => absurd hw' hnw)⟩⟩
        · rw [if_neg hpos]
          have hnil : chunks.foldl curl_write_cb [] = [] := List.length_eq_zero.1 (by omega)
          have hno : ¬ ∃ c h, HttpEvt.response 200 chunks :: hs = .response 200 c :: h ∧
              c.foldl curl_write_cb [] ≠ [] := by
            rintro ⟨c, h, heq, hne⟩
            simp only [List.cons.injEq, HttpEvt.response.injEq, true_and] at heq
            rw [← heq.1] at hne
            exact hne hnil
          by_cases hb : buf.length = 0
          · rw [if_pos hb]
            refine ⟨.again, wr, [], hs, (if delay * 2 > 10 then 10 else delay * 2),
              ticks ++ [(buf.length, (chunks.foldl curl_write_cb []).length)], by simp,
              Or.inr ⟨(chunks.foldl curl_write_cb []).length, chunks, hs, rfl, rfl, ?_, rfl, rfl⟩,
              Or.inr ⟨hno, rfl⟩⟩
            rw [double_capped, if_neg (by rw [hnil]; simp [hb])]
          · rw [if_neg hb]
            refine ⟨.again, wr, [], hs, 1 / 10,
              ticks ++ [(buf.length, (chunks.foldl curl_write_cb []).length)], by simp,
              Or.inr ⟨(chunks.foldl curl_write_cb []).length, chunks, hs, rfl, rfl, ?_, rfl, rfl⟩,
              Or.inr ⟨hno, rfl⟩⟩
            rw [if_pos (Or.inl (by omega))]

theorem sys_select_conn (s : State) :
    (sys_select s).2.conn = s.conn ∧ (sys_select s).2.http = s.http ∧
    (sys_select s).2.posts = s.posts ∧ (sys_select s).2.delay = s.delay ∧
    (sys_select s).2.ticks = s.ticks := by
  unfold sys_select
  cases s.sel <;> simp

/-- The first half of a pass: either no exchange takes place and nothing but the schedules and
the unread input changes, which is the case when the client has closed, and then the loop
stops; or the exchange takes place, with the empty body after a timeout and with the bytes
just read, at least one and at most `BUF_SIZE`, when the connection was readable. -/
theorem tick_spec (s : State) :
    ((tick s).2.posts = s.posts ∧ (tick s).2.ticks = s.ticks ∧ (tick s).2.delay = s.delay ∧
      (tick s).2.conn.out = s.conn.out ∧ (sys_select s).1 ≠ .timeout ∧
      (∀ bs c1, (sys_select s).1 = .readable → sys_read s.conn BUF_SIZE = (.ok bs, c1) →
        bs = [] ∧ (tick s).1 = .stop)) ∨
    (∃ (body : List Nat) (sx : State), tick s = tick_exchange sx body ∧
      sx.posts = s.posts ∧ sx.ticks = s.ticks ∧ sx.delay = s.delay ∧ sx.http = s.http ∧
      sx.conn.out = s.conn.out ∧ sx.conn.wr = s.conn.wr ∧
      (((sys_select s).1 = .timeout ∧ body = []) ∨
       ((sys_select s).1 = .readable ∧ ∃ c1, sys_read s.conn BUF_SIZE = (.ok body, c1) ∧
          body ≠ [] ∧ body.length ≤ BUF_SIZE))) := by
  obtain ⟨hconn, hhttp, hposts, hdelay, hticks⟩ := sys_select_conn s
  unfold tick
  generalize hsel : sys_select s = p at hconn hhttp hposts hdelay hticks
  obtain ⟨ev, s1⟩ := p
  simp only at hconn hhttp hposts hdelay hticks ⊢
  cases ev with
  | eintr =>
    left
    exact ⟨hposts, hticks, hdelay, by rw [hconn], by simp, fun _ _ h => by cases h⟩
  | fail =>
    left
    exact ⟨hposts, hticks, hdelay, by rw [hconn], by simp, fun _ _ h => by cases h⟩
  | timeout =>
    right
    exact ⟨[], s1, rfl, hposts, hticks, hdelay, hhttp, by rw [hconn], by rw [hconn],
      Or.inl ⟨rfl, rfl⟩⟩
  | readable =>
    simp only
    rw [hconn]
    rcases sys_read_cases s.conn BUF_SIZE with
      ⟨a, rd1, hs, hak, hal, _, _, _⟩ | ⟨e, rd1, hs, _, _, _, _⟩
    · rw [hs]
      simp only
      have hlen : (s.conn.inp.take a).length = a := by
        rw [List.length_take]; exact Nat.min_eq_left hal
      by_cases ha : (s.conn.inp.take a).length = 0
      · left
        rw [if_pos ha]
        refine ⟨hposts, hticks, hdelay, rfl, by simp, ?_⟩
        intro bs c1 _ hbs
        simp only [Prod.mk.injEq, IoRes.ok.injEq] at hbs
        exact ⟨by rw [← hbs.1]; exact List.length_eq_zero.1 ha, rfl⟩
      · right
        rw [if_neg ha]
        refine ⟨s.conn.inp.take a, _, rfl, hposts, hticks, hdelay, hhttp, rfl, rfl,
          Or.inr ⟨trivial, _, rfl, ?_, by omega⟩⟩
        intro h0
        rw [h0] at ha
        exact ha rfl
    · rw [hs]
      left
      cases e with
      | EINTR =>
        exact ⟨hposts, hticks, hdelay, rfl, by simp, fun _ _ _ h => by cases h⟩
      | EAGAIN =>
        exact ⟨hposts, hticks, hdelay, rfl, by simp, fun _ _ _ h => by cases h⟩
      | EOTHER =>
        exact ⟨hposts, hticks, hdelay, rfl, by simp, fun _ _ _ h => by cases h⟩

theorem foldl_curl_write_cb (chunks : List (List Nat)) (mb : List Nat) :
    chunks.foldl curl_write_cb mb = mb ++ chunks.flatten := by
  induction chunks generalizing mb with
  | nil => simp
  | cons c l ih => simp [List.foldl, curl_write_cb, ih]

/-- What a pass does to `delay`: nothing when it does not complete; when it completes, one
POST was made and `delay` is reset or doubled according to `send_len` and `resp_len`, the
lengths of the body posted and of the response body. -/
theorem tick_delay (s : State) :
    ((tick s).2.ticks = s.ticks ∧ (tick s).2.delay = s.delay) ∨
    (∃ (body : List Nat) (rl : Nat) (chunks : List (List Nat)) (hs : List HttpEvt),
      (tick s).2.ticks = s.ticks ++ [(body.length, rl)] ∧
      (tick s).2.posts = s.posts ++ [body] ∧
      s.http = .response 200 chunks :: hs ∧ rl = (chunks.foldl curl_write_cb []).length ∧
      (tick s).2.delay = if 0 < body.length ∨ 0 < rl then 1 / 10 else min (2 * s.delay) 10) := by
  rcases tick_spec s with ⟨_, h2, h3, _⟩ | ⟨body, sx, htick, hp, ht, hd, hh, _, _, _⟩
  · exact Or.inl ⟨h2, h3⟩
  · obtain ⟨st, wr', acc, http', delay', ticks', hx, hcase, _⟩ := tick_exchange_spec sx body
    rw [htick, hx]
    simp only
    rcases hcase with ⟨_, h1, h2⟩ | ⟨rl, chunks, hs, _, h1, h2, h3, h4⟩
    · left
      exact ⟨by rw [h1, ht], by rw [h2, hd]⟩
    · right
      exact ⟨body, rl, chunks, hs, by rw [h1, ht], by rw [hp], by rw [← hh, h3], h4,
        by rw [h2, hd]⟩

theorem idle_run_idle (ticks : List (Nat × Nat)) :
    idle_run (ticks ++ [(0, 0)]) = idle_run ticks + 1 := by
  simp [idle_run, List.takeWhile]

theorem idle_run_busy (ticks : List (Nat × Nat)) (sl rl : Nat) (h : 0 < sl ∨ 0 < rl) :
    idle_run (ticks ++ [(sl, rl)]) = 0 := by
  have : ¬ (sl = 0 ∧ rl = 0) := by omega
  simp [idle_run, List.takeWhile, this]

theorem capped_double_pow (k : Nat) :
    min (2 * min ((1 : ℚ) / 10 * 2 ^ k) 10) 10 = min ((1 : ℚ) / 10 * 2 ^ (k + 1)) 10 := by
  have hp : (1 : ℚ) / 10 * 2 ^ (k + 1) = 2 * ((1 : ℚ) / 10 * 2 ^ k) := by
    rw [pow_succ]; ring
  rw [hp]
  by_cases h : (1 : ℚ) / 10 * 2 ^ k ≤ 10
  · rw [min_eq_left h]
  · have h' : (10 : ℚ) < (1 : ℚ) / 10 * 2 ^ k := lt_of_not_le h
    rw [min_eq_right (le_of_lt h'), min_eq_right (by norm_num), min_eq_right (by linarith)]

/-- The delay is determined by the run of idle ticks at the end of the history. -/
theorem delay_formula (s : State) (h : Reach s) :
    s.delay = min ((1 : ℚ) / 10 * 2 ^ idle_run s.ticks) 10 := by
  induction h with
  | init conn sel http =>
    simp only [init, idle_run, List.reverse_nil, List.takeWhile_nil, List.length_nil, pow_zero,
      mul_one]
    rw [min_eq_left (by norm_num)]
  | env s inp rd wr sel http _ ih => exact ih
  | tick s _ ih =>
    rcases tick_delay s with ⟨h1, h2⟩ | ⟨body, rl, _, _, h1, _, _, _, h2⟩
    · rw [h1, h2]; exact ih
    · rw [h1, h2]
      by_cases hb : 0 < body.length ∨ 0 < rl
      · rw [if_pos hb, idle_run_busy _ _ _ hb, pow_zero, mul_one, min_eq_left (by norm_num)]
      · rw [if_neg hb]
        have hb0 : body.length = 0 := by omega
        have hr0 : rl = 0 := by omega
        rw [hb0, hr0, idle_run_idle, ih, capped_double_pow]

/-- The second half of a pass against the outcomes scheduled: when the exchange returns a
response that is empty or written to the client in full, the pass completes, records the tick
and resets or doubles `delay`; otherwise `delay` and the history are left alone. -/
theorem tick_exchange_completed (sx : State) (body : List Nat) :
    (∀ resp, answered sx.http = some resp →
      (resp = [] ∨ 0 ≤ (write_all sx.conn.wr resp).1) →
      (tick_exchange sx body).1 = .again ∧
      (tick_exchange sx body).2.delay
        = (if 0 < body.length ∨ 0 < resp.length then 1 / 10 else min (2 * sx.delay) 10) ∧
      (tick_exchange sx body).2.ticks = sx.ticks ++ [(body.length, resp.length)]) ∧
    ((∀ resp, answered sx.http = some resp →
        ¬ (resp = [] ∨ 0 ≤ (write_all sx.conn.wr resp).1)) →
      (tick_exchange sx body).2.delay = sx.delay ∧
      (tick_exchange sx body).2.ticks = sx.ticks) := by
  have hfold : ∀ chunks : List (List Nat), chunks.foldl curl_write_cb [] = chunks.flatten := by
    intro chunks
    rw [foldl_curl_write_cb]; simp
  obtain ⟨conn, sel, http, posts, delay, ticks⟩ := sx
  dsimp only
  cases http with
  | nil => simp [answered, tick_exchange, http_exchange]
  | cons e hs =>
    cases e with
    | transport_error => simp [answered, tick_exchange, http_exchange]
    | response code chunks =>
      by_cases hc : code = 200
      · subst hc
        have hans : answered (HttpEvt.response 200 chunks :: hs) = some chunks.flatten := by
          simp [answered]
        have hx : http_exchange ⟨conn, sel, HttpEvt.response 200 chunks :: hs, posts, delay,
            ticks⟩ body = (some chunks.flatten, ⟨conn, sel, hs, posts ++ [body], delay, ticks⟩) := by
          simp [http_exchange, hfold]
        unfold tick_exchange
        rw [hx]
        simp only
        constructor
        · intro resp hresp hcond
          rw [hans] at hresp
          simp only [Option.some.injEq] at hresp
          subst hresp
          by_cases hl : chunks.flatten.length > 0
          · rw [if_pos hl]
            have hw : 0 ≤ (write_all conn.wr chunks.flatten).1 := by
              rcases hcond with h | h
              · rw [h] at hl; simp at hl
              · exact h
            generalize write_all conn.wr chunks.flatten = p at hw ⊢
            obtain ⟨w, es, log⟩ := p
            simp only at hw ⊢
            rw [if_neg (not_lt.2 hw)]
            simp only
            rw [if_pos (Or.inr hl)]
            exact ⟨trivial, rfl, trivial⟩
          · rw [if_neg hl]
            have hr0 : chunks.flatten.length = 0 := by omega
            by_cases hb : body.length = 0
            · rw [if_pos hb]
              simp only
              rw [double_capped, if_neg (by omega)]
              exact ⟨trivial, rfl, trivial⟩
            · rw [if_neg hb]
              simp only
              rw [if_pos (Or.inl (by omega))]
              exact ⟨trivial, rfl, trivial⟩
        · intro hnot
          have h1 := hnot chunks.flatten hans
          have hne : chunks.flatten ≠ [] := fun h => h1 (Or.inl h)
          have hw : (write_all conn.wr chunks.flatten).1 < 0 :=
            lt_of_not_le (fun h => h1 (Or.inr h))
          have hl : chunks.flatten.length > 0 := List.length_pos.2 hne
          rw [if_pos hl]
          generalize write_all conn.wr chunks.flatten = p at hw ⊢
          obtain ⟨w, es, log⟩ := p
          simp only at hw ⊢
          rw [if_pos hw]
          exact ⟨rfl, rfl⟩
      · simp [answered, tick_exchange, http_exchange, hc]

/-- A pass that does not reach the exchange posts nothing. -/
theorem posted_none (s : State) (hnt : (sys_select s).1 ≠ .timeout)
    (heof : ∀ bs c1, (sys_select s).1 = .readable → sys_read s.conn BUF_SIZE = (.ok bs, c1) →
      bs = []) : posted s = none := by
  unfold posted
  cases hsel : (sys_select s).1 with
  | eintr => rfl
  | fail => rfl
  | timeout => exact absurd hsel hnt
  | readable =>
    simp only
    cases hread : sys_read s.conn BUF_SIZE with
    | mk res c1 =>
      cases res with
      | ok bs =>
        have := heof bs c1 hsel hread
        simp [this]
      | err e => rfl

/-- A pass against the outcomes scheduled: a completed tick resets or doubles `delay` and is
recorded; any other pass leaves `delay` and the record alone. -/
theorem tick_completed (s : State) :
    (∀ sl rl, completed s = some (sl, rl) →
      (tick s).1 = .again ∧
      (tick s).2.delay = (if 0 < sl ∨ 0 < rl then 1 / 10 else min (2 * s.delay) 10) ∧
      (tick s).2.ticks = s.ticks ++ [(sl, rl)]) ∧
    (completed s = none → (tick s).2.delay = s.delay ∧ (tick s).2.ticks = s.ticks) := by
  rcases tick_spec s with ⟨_, h2, h3, _, hnt, heof⟩ |
    ⟨body, sx, htick, _, ht, hd, hh, _, hwr, hkind⟩
  · have hp : posted s = none := posted_none s hnt (fun bs c1 a b => (heof bs c1 a b).1)
    have hc : completed s = none := by simp [completed, hp]
    refine ⟨fun sl rl h => ?_, fun _ => ⟨h3, h2⟩⟩
    rw [hc] at h
    cases h
  · have hp : posted s = some body := by
      unfold posted
      rcases hkind with ⟨h1, h2⟩ | ⟨h1, c1, h2, h3, _⟩
      · rw [h1, h2]
      · rw [h1]
        simp only
        rw [h2]
        simp [h3]
    obtain ⟨hyes, hno⟩ := tick_exchange_completed sx body
    rw [hh, hwr, hd, ht] at hyes hno
    rw [htick]
    constructor
    · intro sl rl hc
      cases ha : answered s.http with
      | none => simp [completed, hp, ha] at hc
      | some resp =>
        by_cases hcond : resp = [] ∨ 0 ≤ (write_all s.conn.wr resp).1
        · simp only [completed, hp, ha, if_pos hcond, Option.some.injEq, Prod.mk.injEq] at hc
          obtain ⟨rfl, rfl⟩ := hc
          exact hyes resp ha hcond
        · simp [completed, hp, ha, if_neg hcond] at hc
    · intro hc
      apply hno
      intro resp ha hcond
      simp [completed, hp, ha, if_pos hcond] at hc

/-- A run with its history is a run, and the record kept in the state is the history. -/
theorem history_reach (s : State) (hist : List (Nat × Nat)) (h : History s hist) :
    Reach s ∧ s.ticks = hist := by
  induction h with
  | init conn sel http => exact ⟨Reach.init conn sel http, rfl⟩
  | env s hist inp rd wr sel http _ ih => exact ⟨Reach.env s inp rd wr sel http ih.1, ih.2⟩
  | tick s hist _ ih =>
    refine ⟨Reach.tick s ih.1, ?_⟩
    obtain ⟨hyes, hno⟩ := tick_completed s
    cases hc : completed s with
    | none =>
      rw [(hno hc).2, ih.2]
      simp
    | some p =>
      obtain ⟨sl, rl⟩ := p
      rw [(hyes sl rl hc).2.2, ih.2]
      simp

/-- When no scheduled `write` fails, the frontend `write_all` does not return -1. -/
theorem fe_write_all_nonneg (es : List IoEvt) (buf : List Nat) (h : Writable es) :
    0 ≤ (write_all es buf).1 := by
  obtain ⟨r, es', log, h1, h2⟩ := fe_write_all_spec es buf
  rw [h1]
  rcases h2 with ⟨h3, _⟩ | ⟨_, h3, _⟩
  · simp only
    omega
  · exact absurd h h3

/-- C13: in exact arithmetic the delay of the frontend is 0.1 when the loop is entered.  Let
`hist` be the `(send_len, resp_len)` of the ticks completed on the way to a state `s` of the
loop, a completed tick being a pass that posts, gets a 200 response and writes it, when it is
not empty, to the client in full (`completed`, read off the scheduled outcomes of `select`,
`read`, the transport and `write`).  Then the delay lies between 0.1 and 10 and equals
`min (0.1 * 2^k) 10` with `k` the number of idle ticks at the end of `hist`.  The next pass, when
it is a completed tick, ends with `continue` and makes the delay 0.1 if `send_len` or
`resp_len` is positive and `min (2 * delay) 10` if both are 0; when it is not, it leaves the
delay alone.  An idle tick never decreases the delay.  A pass does complete when it posts and a
200 response comes that is empty or meets no failing `write`; in particular a timeout of the
wait answered by an empty 200 response is an idle tick and doubles the delay up to the cap. -/
theorem backoff_delay (s : State) (hist : List (Nat × Nat)) (h : History s hist) :
    (∀ conn sel http, (init conn sel http).delay = 1 / 10) ∧
    1 / 10 ≤ s.delay ∧ s.delay ≤ 10 ∧
    s.delay = min ((1 : ℚ) / 10 * 2 ^ idle_run hist) 10 ∧
    (∀ sl rl, completed s = some (sl, rl) →
      (tick s).1 = .again ∧
      (tick s).2.delay = (if 0 < sl ∨ 0 < rl then 1 / 10 else min (2 * s.delay) 10)) ∧
    (completed s = none → (tick s).2.delay = s.delay) ∧
    (completed s = some (0, 0) → s.delay ≤ (tick s).2.delay) ∧
    (∀ body chunks hs, posted s = some body → s.http = .response 200 chunks :: hs →
      (chunks.flatten = [] ∨ Writable s.conn.wr) →
      completed s = some (body.length, chunks.flatten.length)) ∧
    ((sys_select s).1 = .timeout → ∀ chunks hs, s.http = .response 200 chunks :: hs →
      chunks.flatten = [] →
      completed s = some (0, 0) ∧ (tick s).2.delay = min (2 * s.delay) 10) ∧
    s.ticks = hist := by
  obtain ⟨hreach, hticks⟩ := history_reach s hist h
  have hf := delay_formula s hreach
  rw [hticks] at hf
  have hpow : (1 : ℚ) ≤ 2 ^ idle_run hist := one_le_pow₀ (by norm_num)
  have hlo : (1 : ℚ) / 10 ≤ s.delay := by
    rw [hf]
    exact le_min (by linarith) (by norm_num)
  have hhi : s.delay ≤ 10 := by
    rw [hf]
    exact min_le_right _ _
  obtain ⟨hyes, hno⟩ := tick_completed s
  have hforce : ∀ body chunks hs, posted s = some body → s.http = .response 200 chunks :: hs →
      (chunks.flatten = [] ∨ Writable s.conn.wr) →
      completed s = some (body.length, chunks.flatten.length) := by
    intro body chunks hs hp hh hcond
    have ha : answered s.http = some chunks.flatten := by
      rw [hh]; simp [answered]
    have hc : chunks.flatten = [] ∨ 0 ≤ (write_all s.conn.wr chunks.flatten).1 := by
      rcases hcond with h1 | h1
      · exact Or.inl h1
      · exact Or.inr (fe_write_all_nonneg _ _ h1)
    simp only [completed, hp, ha]
    rw [if_pos hc]
  have hidle : completed s = some (0, 0) → (tick s).2.delay = min (2 * s.delay) 10 := by
    intro hc
    rw [(hyes 0 0 hc).2.1, if_neg (by omega)]
  refine ⟨fun _ _ _ => rfl, hlo, hhi, hf, fun sl rl hc => ⟨(hyes sl rl hc).1, (hyes sl rl hc).2.1⟩,
    fun hc => (hno hc).1, ?_, hforce, ?_, hticks⟩
  · intro hc
    rw [hidle hc]
    exact le_min (by linarith) hhi
  · intro hsel chunks hs hh hflat
    have hp : posted s = some [] := by
      unfold posted
      rw [hsel]
    have hc := hforce [] chunks hs hp hh (Or.inl hflat)
    rw [hflat] at hc
    exact ⟨hc, hidle hc⟩

theorem backoff_delay_witness :
    History idle_six (List.replicate 6 (0, 0)) ∧ idle_six.delay = 32 / 5 ∧
    (1 : ℚ) / 10 ≤ idle_six.delay ∧ idle_six.delay ≤ 10 :=
  have h : History idle_six (List.replicate 6 (0, 0)) :=
    History.tick _ _ (History.tick _ _ (History.tick _ _ (History.tick _ _ (History.tick _ _
      (History.tick _ _ (History.init ⟨[], [], [], []⟩ (List.replicate 6 .timeout)
        (List.replicate 6 (.response 200 []))))))))
  ⟨h, by rw [(backoff_delay idle_six _ h).2.2.2.1]; norm_num [idle_run],
    (backoff_delay idle_six _ h).2.1, (backoff_delay idle_six _ h).2.2.1⟩

/-- C14: in one pass of the frontend loop at most one POST is made.  After a timeout of the
wait the POST is made with the empty body; when the client is readable and `read` returns
bytes, at least one and at most `BUF_SIZE`, the POST is made with exactly these bytes; when
`read` returns 0 bytes the loop stops and no POST is made.  What the pass writes to the client
is a prefix of the body of a 200 response, the chunks delivered by the transport in order: all
of it when the pass completes, and all of it whenever no `write` fails; without a POST, or
without a 200 response with a non-empty body, nothing is written. -/
theorem tick_post_and_reply (s : State) :
    ((tick s).2.posts = s.posts ∨
      ((sys_select s).1 = .timeout ∧ (tick s).2.posts = s.posts ++ [[]]) ∨
      ((sys_select s).1 = .readable ∧ ∃ body c1, sys_read s.conn BUF_SIZE = (.ok body, c1) ∧
        body ≠ [] ∧ body.length ≤ BUF_SIZE ∧ (tick s).2.posts = s.posts ++ [body])) ∧
    ((sys_select s).1 = .timeout → (tick s).2.posts = s.posts ++ [[]]) ∧
    ((sys_select s).1 = .readable → ∀ body c1, sys_read s.conn BUF_SIZE = (.ok body, c1) →
      (body ≠ [] → body.length ≤ BUF_SIZE ∧ (tick s).2.posts = s.posts ++ [body]) ∧
      (body = [] → (tick s).1 = .stop ∧ (tick s).2.posts = s.posts)) ∧
    (∃ acc : List Nat, (tick s).2.conn.out = s.conn.out ++ acc ∧
      (∀ chunks hs, (tick s).2.posts ≠ s.posts → s.http = .response 200 chunks :: hs →
        chunks.flatten ≠ [] →
        acc <+: chunks.flatten ∧ ((tick s).1 = .again → acc = chunks.flatten) ∧
        (Writable s.conn.wr → acc = chunks.flatten ∧ (tick s).1 = .again)) ∧
      (((tick s).2.posts = s.posts ∨
        ¬ ∃ chunks hs, s.http = .response 200 chunks :: hs ∧ chunks.flatten ≠ []) →
        acc = [])) := by
  have hfold : ∀ chunks : List (List Nat), chunks.foldl curl_write_cb [] = chunks.flatten := by
    intro chunks
    rw [foldl_curl_write_cb]; simp
  rcases tick_spec s with ⟨hp, _, _, hout, hnt, heof⟩ |
    ⟨body, sx, htick, hp, _, _, hh, hout, hwr, hkind⟩
  · refine ⟨Or.inl hp, fun h => absurd h hnt, ?_, ⟨[], by simp [hout], ?_, fun _ => rfl⟩⟩
    · intro hr body c1 hread
      obtain ⟨h1, h2⟩ := heof body c1 hr hread
      exact ⟨fun hne => absurd h1 hne, fun _ => ⟨h2, hp⟩⟩
    · intro chunks hs hne
      exact absurd hp hne
  · obtain ⟨st, wr', acc, http', delay', ticks', hx, _, hreply⟩ := tick_exchange_spec sx body
    have hposts : (tick s).2.posts = s.posts ++ [body] := by
      rw [htick, hx]; simp only; rw [hp]
    have hne : (tick s).2.posts ≠ s.posts := by
      rw [hposts]
      intro h
      have := congrArg List.length h
      simp at this
    refine ⟨?_, ?_, ?_, ⟨acc, by rw [htick, hx]; simp only; rw [hout], ?_, ?_⟩⟩
    · rcases hkind with ⟨h1, h2⟩ | ⟨h1, c1, h2, h3, h4⟩
      · right; left
        exact ⟨h1, by rw [hposts, h2]⟩
      · right; right
        exact ⟨h1, body, c1, h2, h3, h4, hposts⟩
    · intro ht
      rcases hkind with ⟨_, h2⟩ | ⟨h1, _⟩
      · rw [hposts, h2]
      · rw [ht] at h1; cases h1
    · intro hr b c1 hread
      rcases hkind with ⟨h1, _⟩ | ⟨_, c1', h2, h3, h4⟩
      · rw [hr] at h1; cases h1
      · rw [hread] at h2
        simp only [Prod.mk.injEq, IoRes.ok.injEq] at h2
        obtain ⟨hb, _⟩ := h2
        subst hb
        exact ⟨fun _ => ⟨h4, hposts⟩, fun h0 => absurd h0 h3⟩
    · intro chunks hs _ hhttp hflat
      rcases hreply with ⟨c, h, h1, h2, h3, h4, h5⟩ | ⟨hno, _⟩
      · rw [hh, hhttp] at h1
        simp only [List.cons.injEq, HttpEvt.response.injEq, true_and] at h1
        obtain ⟨hc, _⟩ := h1
        subst hc
        rw [hfold] at h3 h4 h5
        rw [hwr] at h5
        have hst : (tick s).1 = st := by rw [htick, hx]
        rw [hst]
        exact ⟨h3, h4, h5⟩
      · exfalso
        apply hno
        exact ⟨chunks, hs, by rw [hh, hhttp], by rw [hfold]; exact hflat⟩
    · intro hcond
      rcases hcond with h | h
      · exact absurd h hne
      · rcases hreply with ⟨c, hs, h1, h2, _⟩ | ⟨_, h0⟩
        · exfalso
          apply h
          exact ⟨c, hs, by rw [← hh, h1], by rw [← hfold]; exact h2⟩
        · exact h0

end Frontend

end Tunnel
